import Mathlib

/-!
# Verification of the FinanzenBack graph & optimization engine

Shallow embedding of the algorithmic core of the repository
(`app/utils/`: bfs, dfs, dijkstra, bellman_ford, floyd_warshall,
mst_kruskal, union_find, dp_mochila, graph_builder) together with proofs
of the specification's claims about it.

Embedding conventions:
* Python `dict` adjacency structures become association lists
  (`List (key × value)`); dict iteration order is insertion order, which
  the association list preserves.  Keys of a Python dict are unique;
  where a proof needs this it is an explicit hypothesis.
* Numeric edge weights (Python floats, used only through `+`, `<`, `≤`,
  `abs` and exact literals) are embedded as elements of a linearly
  ordered additive commutative group `W` (instantiated at `ℚ` or `ℤ`);
  `float('inf')` becomes `⊤` in `WithTop W`.
* Python `while` loops become structural recursion on an explicit fuel
  argument; the fuel supplied by each top-level definition is a proven
  upper bound on the number of iterations the loop can perform.
* Dict-key-absence (`KeyError` on access) is modelled by total functions
  into `Option`/`WithTop`; theorems only evaluate the embeddings on
  inputs where the Python code performs no out-of-range access.
-/

namespace FinanzenBack

/-- Unweighted adjacency structure `{node: [neighbor, ...]}` from
`bfs.py` / `dfs.py`: association list keyed by node. -/
abbrev UGraph := List (Nat × List Nat)

/-- Weighted adjacency structure `{node: [(neighbor, weight), ...]}`. -/
abbrev WGraph (W : Type) := List (Nat × List (Nat × W))

/-- `u in graph` for an association-list dict. -/
def hasKey (g : List (Nat × α)) (u : Nat) : Bool := g.any (fun p => p.1 == u)

/-- `graph[u]` for an association-list dict (first binding; a Python
dict has exactly one binding per key). -/
def adjOf (g : List (Nat × α)) (u : Nat) : Option α :=
  (g.find? (fun p => p.1 == u)).map Prod.snd

/-- `graph[u]` defaulting to the empty adjacency list when `u` is not a
key (the algorithms always guard accesses with `u in graph`). -/
def adjList (g : List (Nat × List α)) (u : Nat) : List α :=
  (adjOf g u).getD []

/-! ## BFS (`app/utils/bfs.py`)

Only `bfs_shortest_path` is needed by the claims; the queue loop is
embedded with fuel (one unit per dequeue; every enqueued node is first
marked visited, so the number of dequeues is bounded by one plus the
total length of all adjacency lists). -/

/-- Inner `for neighbor in graph[node]` loop of `bfs_shortest_path`:
returns early with the path when `neighbor == end`, otherwise
accumulates `visited` and queue appends. -/
def bfsScanNeighbors (finish : Nat) (path : List Nat) :
    List Nat → List Nat → List (Nat × List Nat) →
    (Option (List Nat)) × List Nat × List (Nat × List Nat)
  | [], visited, queue => (none, visited, queue)
  | n :: rest, visited, queue =>
    if n = finish then (some (path ++ [n]), visited, queue)
    else if n ∈ visited then bfsScanNeighbors finish path rest visited queue
    else bfsScanNeighbors finish path rest (visited ++ [n]) (queue ++ [(n, path ++ [n])])

/-- The `while queue:` loop of `bfs_shortest_path`. -/
def bfsLoop (g : UGraph) (finish : Nat) :
    Nat → List Nat → List (Nat × List Nat) → Option (List Nat)
  | 0, _, _ => none
  | _ + 1, _, [] => none
  | fuel + 1, visited, (node, path) :: queue =>
    if hasKey g node then
      match bfsScanNeighbors finish path (adjList g node) visited queue with
      | (some p, _, _) => some p
      | (none, visited', queue') => bfsLoop g finish fuel visited' queue'
    else bfsLoop g finish fuel visited queue

/-- `bfs_shortest_path(graph, start, end)` from `app/utils/bfs.py`. -/
def bfs_shortest_path (g : UGraph) (start finish : Nat) : Option (List Nat) :=
  if start = finish then some [start]
  else bfsLoop g finish (1 + (g.map (fun p => p.2.length)).sum) [start] [(start, [start])]

/-! ## 0/1 knapsack (`app/utils/dp_mochila.py`, `knapsack_01`) and its
HTTP entry point (`app/routers/algorithms_router.py`, endpoint
`/dp-mochila/01`).

Per §4.5 of the data model, capacities and weights are non-negative
integers, embedded as `Nat`; values are embedded as `ℤ`.  List reads
`weights[i-1]` / `values[i-1]` are embedded with `getD … 0`; all
theorems below evaluate the function only where every Python access is
in range (`values` at least as long as `weights`). -/

/-- The DP table of `knapsack_01` as its defining recurrence:
`dp[i][w] = max(dp[i-1][w], dp[i-1][w - weights[i-1]] + values[i-1])`,
the second argument present only when `weights[i-1] <= w`. -/
def knapDP (weights : List Nat) (values : List ℤ) : Nat → Nat → ℤ
  | 0, _ => 0
  | i + 1, w =>
    let base := knapDP weights values i w
    if weights.getD i 0 ≤ w then
      max base (knapDP weights values i (w - weights.getD i 0) + values.getD i 0)
    else base

/-- Backward reconstruction walk of `knapsack_01`: items appended while
scanning `i = n..1`, selecting when `dp[i][w] != dp[i-1][w]`. -/
def knapSelect (weights : List Nat) (values : List ℤ) : Nat → Nat → List Nat
  | 0, _ => []
  | i + 1, w =>
    if knapDP weights values (i + 1) w ≠ knapDP weights values i w then
      i :: knapSelect weights values i (w - weights.getD i 0)
    else knapSelect weights values i w

structure KnapsackResult where
  max_value : ℤ
  selected_items : List Nat
  selected_weights : List Nat
  selected_values : List ℤ
  total_weight : Nat
  deriving Repr, DecidableEq

/-- `knapsack_01(weights, values, capacity)` from `dp_mochila.py`
(the Python code collects indices descending and then reverses). -/
def knapsack_01 (weights : List Nat) (values : List ℤ) (capacity : Nat) :
    KnapsackResult :=
  let n := weights.length
  let selected := (knapSelect weights values n capacity).reverse
  { max_value := knapDP weights values n capacity
    selected_items := selected
    selected_weights := selected.map (fun i => weights.getD i 0)
    selected_values := selected.map (fun i => values.getD i 0)
    total_weight := (selected.map (fun i => weights.getD i 0)).sum }

/-- Error kinds surfaced by the algorithms API layer. -/
inductive AlgoError where
  | lengthMismatch
  deriving Repr, DecidableEq

/-- The `/dp-mochila/01` endpoint (`algorithms_router.py`): validates
`len(weights) == len(values)` and only then invokes the engine
(`algorithms_service.knapsack_01_problem`, which delegates to
`knapsack_01` unchanged). -/
def knapsack_01_endpoint (weights : List Nat) (values : List ℤ) (capacity : Nat) :
    Except AlgoError KnapsackResult :=
  if weights.length ≠ values.length then .error .lengthMismatch
  else .ok (knapsack_01 weights values capacity)

/-! ## Subset sum (`app/utils/dp_mochila.py`, `subset_sum`)

§4.5: "Negative numbers are not supported (target and numbers assumed
non-negative)", so numbers and target are embedded as `Nat`; the guarded
index `s - numbers[i-1]` then coincides with Python's. -/

/-- The boolean DP table of `subset_sum` as its defining recurrence:
`dp[i][s] = dp[i-1][s] or (numbers[i-1] <= s and dp[i-1][s - numbers[i-1]])`
with `dp[0][s] = (s == 0)`. -/
def ssDP (ns : List Nat) : Nat → Nat → Bool
  | 0, s => s == 0
  | i + 1, s =>
    ssDP ns i s || (decide (ns.getD i 0 ≤ s) && ssDP ns i (s - ns.getD i 0))

/-- Backward reconstruction walk of `subset_sum` (`for i in range(n, 0, -1)`,
take `numbers[i-1]` whenever it fits and `dp[i-1][s - numbers[i-1]]`).
The Python code appends while walking downward and does not reverse. -/
def ssSelect (ns : List Nat) : Nat → Nat → List Nat
  | 0, _ => []
  | i + 1, s =>
    if ns.getD i 0 ≤ s ∧ ssDP ns i (s - ns.getD i 0) then
      ns.getD i 0 :: ssSelect ns i (s - ns.getD i 0)
    else ssSelect ns i s

structure SubsetSumResult where
  is_possible : Bool
  subset : List Nat
  total : Option Nat
  deriving Repr, DecidableEq

/-- `subset_sum(numbers, target)` from `dp_mochila.py` (`total` embeds the
`"sum"` field, present only in the possible case). -/
def subset_sum (ns : List Nat) (target : Nat) : SubsetSumResult :=
  if ssDP ns ns.length target then
    let sub := ssSelect ns ns.length target
    { is_possible := true, subset := sub, total := some sub.sum }
  else
    { is_possible := false, subset := [], total := none }

/-! ## Graph builder (`app/utils/graph_builder.py`)

Transaction records (§3 of the spec) with `fecha` embedded as an epoch
day number (`Int`; Python `date` subtraction yields exact day
differences) and `monto` as `ℚ` (exact stand-in for the float field). -/

structure Transaction where
  tid : Int
  fecha : Int
  categoria : String
  subcategoria : Option String := none
  monto : ℚ
  usuario : String

/-- Python string `<` (code-point lexicographic), implemented by
structural recursion over the character lists so that concrete
comparisons evaluate inside the kernel. -/
def strLt : List Char → List Char → Bool
  | [], [] => false
  | [], _ :: _ => true
  | _ :: _, [] => false
  | a :: as, b :: bs =>
    if a.val < b.val then true
    else if b.val < a.val then false
    else strLt as bs

/-- Python `a < b` on strings. -/
def pyStrLt (a b : String) : Bool := strLt a.data b.data

/-- Python `a <= b` on strings (total order: `¬(b < a)`). -/
def pyStrLe (a b : String) : Bool := !(pyStrLt b a)

/-- `graph[k].append(v)` on a `defaultdict(list)`: first touch of a key
appends the key at the end (dict iteration order = insertion order). -/
def dictAppend [DecidableEq α] (g : List (α × List β)) (k : α) (v : β) :
    List (α × List β) :=
  match g with
  | [] => [(k, [v])]
  | (k', l) :: rest =>
    if k' = k then (k', l ++ [v]) :: rest else (k', l) :: dictAppend rest k v

/-- `d[k] += x` on a `defaultdict` of a commutative accumulator
(missing keys start at `z`). -/
def dictAdd [DecidableEq α] (g : List (α × β)) (k : α) (z : β) (add : β → β → β)
    (x : β) : List (α × β) :=
  match g with
  | [] => [(k, add z x)]
  | (k', v) :: rest =>
    if k' = k then (k', add v x) :: rest else (k', v) :: dictAdd rest k z add x

/-- `sorted(transactions, key=lambda x: (x['usuario'], x['fecha']))`:
Python's sort is stable; `List.insertionSort` with the same (total,
transitive) key order produces the identical list. -/
def sortUserFecha (ts : List Transaction) : List Transaction :=
  ts.insertionSort (fun a b =>
    pyStrLt a.usuario b.usuario = true ∨
      (a.usuario = b.usuario ∧ a.fecha ≤ b.fecha))

/-- `sorted(transactions, key=lambda x: x['fecha'])`. -/
def sortFecha (ts : List Transaction) : List Transaction :=
  ts.insertionSort (fun a b => a.fecha ≤ b.fecha)

/-- Grouping `for trans in sorted_trans: user_trans[usuario].append(trans)`. -/
def userBuckets (ts : List Transaction) : List (String × List Transaction) :=
  ts.foldl (fun acc t => dictAppend acc t.usuario t) []

/-- Consecutive pairs `(trans_list[i], trans_list[i+1])` of one bucket. -/
def consecutivePairs (l : List Transaction) : List (Transaction × Transaction) :=
  l.zip l.tail

/-- `GraphBuilder.build_gt`: directed edge from each transaction to the
chronologically next one of the same user, weight `abs(next.monto)`. -/
def build_gt (ts : List Transaction) : List (Int × List (Int × ℚ)) :=
  (userBuckets (sortUserFecha ts)).foldl
    (fun g bucket =>
      (consecutivePairs bucket.2).foldl
        (fun g p => dictAppend g p.1.tid (p.2.tid, |p.2.monto|)) g)
    []

/-- `tuple(sorted([cat1, cat2]))`. -/
def sortedPair (c1 c2 : String) : String × String :=
  if pyStrLe c1 c2 then (c1, c2) else (c2, c1)

/-- The `category_pairs` accumulator of `build_gc`:
`{'count': +1, 'total_amount': + next.monto}` keyed by the sorted
category pair (note: the raw `monto`, not its absolute value). -/
def gcPairs (ts : List Transaction) : List ((String × String) × (Nat × ℚ)) :=
  (userBuckets (sortUserFecha ts)).foldl
    (fun acc bucket =>
      (consecutivePairs bucket.2).foldl
        (fun acc p =>
          if p.1.categoria ≠ p.2.categoria then
            dictAdd acc (sortedPair p.1.categoria p.2.categoria) (0, 0)
              (fun a b => (a.1 + b.1, a.2 + b.2)) (1, p.2.monto)
          else acc)
        acc)
    []

/-- `GraphBuilder.build_gc`: undirected category graph; edge weight is
`total_amount / count` added symmetrically (the `added_edges` guard of
the source is embedded faithfully). -/
def build_gc (ts : List Transaction) : List (String × List (String × ℚ)) :=
  ((gcPairs ts).foldl
    (fun (st : List (String × List (String × ℚ)) × List (String × String)) e =>
      let (c1, c2) := e.1
      let weight := e.2.2 / (e.2.1 : ℚ)
      if (c1, c2) ∉ st.2 then
        (dictAppend (dictAppend st.1 c1 (c2, weight)) c2 (c1, weight),
         (c1, c2) :: (c2, c1) :: st.2)
      else st)
    ([], [])).1

/-- The `user_category_amount` accumulator of `build_guc` (raw `monto`). -/
def gucAmounts (ts : List Transaction) : List ((String × String) × ℚ) :=
  ts.foldl
    (fun acc t =>
      dictAdd acc ("U:" ++ t.usuario, "C:" ++ t.categoria) 0 (· + ·) t.monto)
    []

/-- `GraphBuilder.build_guc`: bipartite user–category graph with the
accumulated raw amount as symmetric edge weight. -/
def build_guc (ts : List Transaction) : List (String × List (String × ℚ)) :=
  ((gucAmounts ts).foldl
    (fun (st : List (String × List (String × ℚ)) × List (String × String)) e =>
      let (usuario, categoria) := e.1
      if (usuario, categoria) ∉ st.2 then
        (dictAppend (dictAppend st.1 usuario (categoria, e.2)) categoria
           (usuario, e.2),
         (usuario, categoria) :: (categoria, usuario) :: st.2)
      else st)
    ([], [])).1

/-- Inner loop of `build_temporal_graph` for a fixed anchor `t1`: scan
later transactions while within the window, `break` on the first one
outside it; the edge weight is the raw `monto` of the later record. -/
def temporalInner (window : Int) (t1 : Transaction) :
    List Transaction → List (Int × List (Int × ℚ)) → List (Int × List (Int × ℚ))
  | [], g => g
  | t2 :: rest, g =>
    if |t2.fecha - t1.fecha| ≤ window then
      temporalInner window t1 rest (dictAppend g t1.tid (t2.tid, t2.monto))
    else g

/-- Outer loop of `build_temporal_graph` over anchors in date order. -/
def temporalOuter (window : Int) :
    List Transaction → List (Int × List (Int × ℚ)) → List (Int × List (Int × ℚ))
  | [], g => g
  | t1 :: rest, g => temporalOuter window rest (temporalInner window t1 rest g)

/-- `GraphBuilder.build_temporal_graph` (default window: 7 days). -/
def build_temporal_graph (ts : List Transaction) (window : Int := 7) :
    List (Int × List (Int × ℚ)) :=
  temporalOuter window (sortFecha ts) []

/-- The `transitions` counter of `build_weighted_category_graph`, keyed by
the ordered (directed) category pair. -/
def wcgTransitions (ts : List Transaction) : List ((String × String) × Nat) :=
  (userBuckets (sortUserFecha ts)).foldl
    (fun acc bucket =>
      (consecutivePairs bucket.2).foldl
        (fun acc p =>
          if p.1.categoria ≠ p.2.categoria then
            dictAdd acc (p.1.categoria, p.2.categoria) 0 (· + ·) 1
          else acc)
        acc)
    []

/-- `GraphBuilder.build_weighted_category_graph`: directed edges weighted
by `float(count)` of the transition counter. -/
def build_weighted_category_graph (ts : List Transaction) :
    List (String × List (String × ℚ)) :=
  (wcgTransitions ts).foldl
    (fun g e => dictAppend g e.1.1 (e.1.2, (e.2 : ℚ))) []

/-- All edge weights a built graph contains. -/
def weightsOf (g : List (α × List (β × ℚ))) : List ℚ :=
  g.flatMap (fun p => p.2.map Prod.snd)

/-! ## Union-Find (`app/utils/union_find.py`)

`find` recurses along parent pointers; Python terminates because valid
states have acyclic parent chains.  The embedding uses fuel `n`
(= `len(parent)`); on valid states ranks strictly increase along parent
chains, so chains have at most `n` distinct nodes and fuel `n` is proven
sufficient.  List reads `parent[x]` are embedded as `getD x x` (all
theorems evaluate them in range only, where this is Python's access). -/

structure UnionFind where
  parent : List Nat
  rank : List Nat
  count : Nat
  deriving Repr, DecidableEq

namespace UnionFind

/-- `UnionFind(n)` (`__init__`). -/
def make (n : Nat) : UnionFind :=
  { parent := List.range n, rank := List.replicate n 0, count := n }

/-- `find(x)` with path compression, returning the updated structure and
the representative; recursion on fuel. -/
def findAux : Nat → UnionFind → Nat → UnionFind × Nat
  | 0, uf, x => (uf, x)
  | fuel + 1, uf, x =>
    let p := uf.parent.getD x x
    if p = x then (uf, x)
    else
      let res := findAux fuel uf p
      ({ res.1 with parent := res.1.parent.set x res.2 }, res.2)

/-- `find(x)`. -/
def find (uf : UnionFind) (x : Nat) : UnionFind × Nat :=
  findAux uf.parent.length uf x

/-- The union-by-rank merge of `union`, after both roots are computed. -/
def unionRoots (uf2 : UnionFind) (rootX rootY : Nat) : UnionFind × Bool :=
  if rootX = rootY then (uf2, false)
  else if uf2.rank.getD rootX 0 < uf2.rank.getD rootY 0 then
    ({ uf2 with parent := uf2.parent.set rootX rootY, count := uf2.count - 1 },
     true)
  else if uf2.rank.getD rootY 0 < uf2.rank.getD rootX 0 then
    ({ uf2 with parent := uf2.parent.set rootY rootX, count := uf2.count - 1 },
     true)
  else
    ({ uf2 with
        parent := uf2.parent.set rootY rootX,
        rank := uf2.rank.set rootX (uf2.rank.getD rootX 0 + 1),
        count := uf2.count - 1 },
     true)

/-- `union(x, y)`: union by rank; returns whether a merge occurred. -/
def union (uf : UnionFind) (x y : Nat) : UnionFind × Bool :=
  let r1 := find uf x
  let r2 := find r1.1 y
  unionRoots r2.1 r1.2 r2.2

/-- `connected(x, y)`. -/
def connected (uf : UnionFind) (x y : Nat) : UnionFind × Bool :=
  let r1 := find uf x
  let r2 := find r1.1 y
  (r2.1, r1.2 == r2.2)

/-- Pure (compression-free) root computation, for specifications. -/
def rootAux : Nat → List Nat → Nat → Nat
  | 0, _, x => x
  | fuel + 1, par, x =>
    let p := par.getD x x
    if p = x then x else rootAux fuel par p

/-- The canonical representative of `x` in parent list `par`. -/
def rootOf (par : List Nat) (x : Nat) : Nat := rootAux par.length par x

/-- One parent-pointer step (`a`'s parent is `b`, and `a` is no root). -/
def step (par : List Nat) (a b : Nat) : Prop := par.getD a a = b ∧ a ≠ b

/-- `r` is the root of `x`'s parent chain. -/
def IsRootOf (par : List Nat) (x r : Nat) : Prop :=
  Relation.ReflTransGen (step par) x r ∧ par.getD r r = r

/-- Validity of a union-find state over universe `[0, n)`: `parent` and
`rank` have length `n`, parent pointers stay in range and ranks strictly
increase along non-trivial parent edges (hence chains are acyclic). -/
def Valid (n : Nat) (uf : UnionFind) : Prop :=
  uf.parent.length = n ∧ uf.rank.length = n ∧
    ∀ i, i < n → uf.parent.getD i i < n ∧
      (uf.parent.getD i i ≠ i →
        uf.rank.getD i 0 < uf.rank.getD (uf.parent.getD i i) 0)

/-- The fuel measure: nodes whose rank is at least `x`'s. -/
def fuelSet (n : Nat) (rank : List Nat) (x : Nat) : Finset Nat :=
  (Finset.range n).filter (fun j => rank.getD x 0 ≤ rank.getD j 0)

/-- Two elements lie in the same component (specification side). -/
def sameRoot (par : List Nat) (a b : Nat) : Prop := rootOf par a = rootOf par b

/-- One API call of the structure (arguments as supplied by a caller). -/
inductive UFOp where
  | unionOp (a b : Nat)
  | findOp (a : Nat)
  | connectedOp (a b : Nat)

/-- State after one API call (the returned Boolean is discarded). -/
def applyOp (uf : UnionFind) : UFOp → UnionFind
  | .unionOp a b => (union uf a b).1
  | .findOp a => (find uf a).1
  | .connectedOp a b => (connected uf a b).1

/-- State after a sequence of API calls. -/
def applyOps (uf : UnionFind) (ops : List UFOp) : UnionFind :=
  ops.foldl applyOp uf

/-- All arguments of the calls lie in `[0, n)`. -/
def OpsInRange (n : Nat) : List UFOp → Prop
  | [] => True
  | .unionOp a b :: rest => a < n ∧ b < n ∧ OpsInRange n rest
  | .findOp a :: rest => a < n ∧ OpsInRange n rest
  | .connectedOp a b :: rest => a < n ∧ b < n ∧ OpsInRange n rest

def decOpsInRange (n : Nat) : (ops : List UFOp) → Decidable (OpsInRange n ops)
  | [] => isTrue trivial
  | .unionOp a b :: rest =>
    have := decOpsInRange n rest
    inferInstanceAs (Decidable (a < n ∧ b < n ∧ OpsInRange n rest))
  | .findOp a :: rest =>
    have := decOpsInRange n rest
    inferInstanceAs (Decidable (a < n ∧ OpsInRange n rest))
  | .connectedOp a b :: rest =>
    have := decOpsInRange n rest
    inferInstanceAs (Decidable (a < n ∧ b < n ∧ OpsInRange n rest))

instance : DecidablePred (OpsInRange n) := decOpsInRange n

end UnionFind

/-! ## Kruskal (`app/utils/mst_kruskal.py`)

Edges are `(u, v, weight)` triples; the weight type `W` is any linearly
ordered additive commutative group (`ℚ` embeds the source's floats; `ℤ`
is used for concrete runs).  Python's `sorted(edges, key=lambda x: x[2])`
is stable; `List.insertionSort` with the weight order is the same stable
sort. -/

/-- Result of `kruskal`: `is_connected` compares against `num_vertices - 1`
over `ℤ` (Python's `len(mst_edges) == num_vertices - 1` with `int`
semantics, where `num_vertices = 0` gives `-1`). -/
structure MSTResult (W : Type) where
  mst_edges : List (Nat × Nat × W)
  total_weight : W
  num_edges : Nat
  is_connected : Bool

/-- The edge-scanning loop of `kruskal`: accept an edge when `uf.union`
merges, stop after `num_vertices - 1` accepted edges. -/
def kruskalLoop [LinearOrder W] [AddCommGroup W] (V : Nat) :
    List (Nat × Nat × W) → UnionFind → List (Nat × Nat × W) → W →
      List (Nat × Nat × W) × W
  | [], _, acc, tw => (acc, tw)
  | (u, v, w) :: rest, uf, acc, tw =>
    let res := UnionFind.union uf u v
    if res.2 then
      let acc' := acc ++ [(u, v, w)]
      let tw' := tw + w
      if (acc'.length : ℤ) = (V : ℤ) - 1 then (acc', tw')
      else kruskalLoop V rest res.1 acc' tw'
    else kruskalLoop V rest res.1 acc tw

/-- `kruskal(edges, num_vertices)` from `mst_kruskal.py`. -/
def kruskal [LinearOrder W] [AddCommGroup W] (edges : List (Nat × Nat × W))
    (V : Nat) : MSTResult W :=
  let sorted_edges := edges.insertionSort (fun a b => a.2.2 ≤ b.2.2)
  let res := kruskalLoop V sorted_edges (UnionFind.make V) [] 0
  { mst_edges := res.1
    total_weight := res.2
    num_edges := res.1.length
    is_connected := (res.1.length : ℤ) == (V : ℤ) - 1 }

/-- The adjacency→edge-list conversion of `kruskal_from_graph`:
`edge = tuple(sorted([u, v])) + (weight,)`, keeping only the first
occurrence of each unordered pair. -/
def graphToEdges [LinearOrder W] (g : WGraph W) : List (Nat × Nat × W) :=
  (g.foldl
    (fun (st : List (Nat × Nat × W) × List (Nat × Nat)) p =>
      p.2.foldl
        (fun st e =>
          let key := (min p.1 e.1, max p.1 e.1)
          if key ∉ st.2 then (st.1 ++ [(key.1, key.2, e.2)], key :: st.2)
          else st)
        st)
    ([], [])).1

/-- `kruskal_from_graph(graph, num_vertices)` from `mst_kruskal.py`. -/
def kruskal_from_graph [LinearOrder W] [AddCommGroup W] (g : WGraph W)
    (V : Nat) : MSTResult W :=
  kruskal (graphToEdges g) V

/-! Specification-side companions for the MST claims. -/

/-- The unordered endpoint pair identifying an edge triple. -/
def edgeKey (e : Nat × Nat × W) : Nat × Nat := (e.1, e.2.1)

/-- The stream of normalized `(min, max, weight)` candidates that
`kruskal_from_graph` scans, in iteration order. -/
def flatEdges (g : WGraph W) : List (Nat × Nat × W) :=
  g.flatMap (fun p => p.2.map (fun e => (min p.1 e.1, max p.1 e.1, e.2)))

/-- First-occurrence-wins deduplication by unordered pair (specification
companion of the conversion in `kruskal_from_graph`). -/
def dedupFirst : List (Nat × Nat × W) → List (Nat × Nat) → List (Nat × Nat × W)
  | [], _ => []
  | e :: rest, seen =>
    if edgeKey e ∈ seen then dedupFirst rest seen
    else e :: dedupFirst rest (edgeKey e :: seen)

/-- The seen-set accumulated by `dedupFirst`. -/
def dedupSeen : List (Nat × Nat × W) → List (Nat × Nat) → List (Nat × Nat)
  | [], seen => seen
  | e :: rest, seen =>
    if edgeKey e ∈ seen then dedupSeen rest seen
    else dedupSeen rest (edgeKey e :: seen)

/-- One step of the deduplicating scan, on a normalized candidate. -/
def dedupStep (st : List (Nat × Nat × W) × List (Nat × Nat))
    (e : Nat × Nat × W) : List (Nat × Nat × W) × List (Nat × Nat) :=
  if (e.1, e.2.1) ∉ st.2 then (st.1 ++ [e], (e.1, e.2.1) :: st.2) else st

/-- Naive-partition merge: move `v`'s class onto `u`'s representative. -/
def specMerge (rep : Nat → Nat) (u v : Nat) : Nat → Nat :=
  fun i => if rep i = rep v then rep u else rep i

/-- Reference greedy loop for Kruskal over an explicit partition map:
accept an edge exactly when its endpoints have distinct representatives,
stop after `V - 1` accepted edges. -/
def kruskalSpecLoop [LinearOrder W] [AddCommGroup W] (V : Nat) :
    List (Nat × Nat × W) → (Nat → Nat) → List (Nat × Nat × W) → W →
      List (Nat × Nat × W) × W
  | [], _, acc, tw => (acc, tw)
  | (u, v, w) :: rest, rep, acc, tw =>
    if rep u ≠ rep v then
      let acc' := acc ++ [(u, v, w)]
      let tw' := tw + w
      if (acc'.length : ℤ) = (V : ℤ) - 1 then (acc', tw')
      else kruskalSpecLoop V rest (specMerge rep u v) acc' tw'
    else kruskalSpecLoop V rest rep acc tw

/-- The two concrete records of the `build_gc` counterexample: one user,
consecutive days, differing categories, second `monto` negative. -/
def exT1 : Transaction :=
  { tid := 1, fecha := 0, categoria := "X", monto := 5, usuario := "a" }

def exT2 : Transaction :=
  { tid := 2, fecha := 1, categoria := "Y", monto := -10, usuario := "a" }

/-! ## DFS (`app/utils/dfs.py`)

The iterative `dfs` keeps a Python-list stack whose top is the last
element; the embedding stores the stack reversed (top at the head).
Under this representation, `for neighbor in reversed(graph[node]): if
neighbor not in visited: stack.append(neighbor)` becomes prepending
`(adjList g node).filter (· ∉ visited)` — the filter commutes with the
double reversal, leaving the adjacency list in original order.  The
`visited` set is kept as an insertion-ordered duplicate-free list (the
Python code only adds fresh elements and tests membership). -/

/-- Result record of the iterative `dfs`. -/
structure DFSResult where
  order : List Nat
  visited_count : Nat
  deriving Repr, DecidableEq

/-- The `while stack:` loop of the iterative `dfs`: pop the head, skip
it if already visited, otherwise record it and push its not-yet-visited
neighbors.  One fuel unit per pop; returns `(order, visited)`. -/
def dfsLoop (g : UGraph) : Nat → List Nat → List Nat → List Nat → List Nat × List Nat
  | 0, _, visited, order => (order, visited)
  | _ + 1, [], visited, order => (order, visited)
  | fuel + 1, node :: stack, visited, order =>
    if node ∈ visited then dfsLoop g fuel stack visited order
    else
      let visited' := visited ++ [node]
      let order' := order ++ [node]
      if hasKey g node then
        dfsLoop g fuel (((adjList g node).filter (fun m => m ∉ visited')) ++ stack)
          visited' order'
      else dfsLoop g fuel stack visited' order'

/-- Every node id mentioned in the graph (keys and neighbors): the pool
of nodes a DFS can reach from inside the graph. -/
def nodePool (g : UGraph) : List Nat := g.flatMap (fun p => p.1 :: p.2)

/-- Iterative `dfs(graph, start)`.  Fuel: every pop either discards a
visited node (shrinking the stack) or permanently marks a fresh node of
`start :: nodePool g` visited while pushing at most its adjacency list,
so the number of pops is bounded by the chosen fuel. -/
def dfs (g : UGraph) (start : Nat) : DFSResult :=
  let res := dfsLoop g
    (1 + ((start :: nodePool g).map (fun u => 1 + (adjList g u).length)).sum)
    [start] [] []
  { order := res.1, visited_count := res.2.length }

/-- The `for neighbor in graph[start]` loop of `dfs_recursive`,
abstracted over the recursive call `next`: recurse into each neighbor
that is unvisited at the moment it is reached, threading the `visited`
set and concatenating the returned orders. -/
def dfsRecNbrsF (next : Nat → List Nat → List Nat × List Nat) :
    List Nat → List Nat → List Nat × List Nat
  | [], visited => ([], visited)
  | n :: rest, visited =>
    if n ∈ visited then dfsRecNbrsF next rest visited
    else
      let res := next n visited
      let res2 := dfsRecNbrsF next rest res.2
      (res.1 ++ res2.1, res2.2)

/-- `dfs_recursive(graph, start, visited)` (state-passing embedding of
the shared mutable `visited` set): returns `(order, visited')`.  Fuel
bounds the recursion depth; every level permanently marks a fresh node
of the pool visited before recursing, so the pool size bounds the
depth. -/
def dfsRec (g : UGraph) : Nat → Nat → List Nat → List Nat × List Nat
  | 0, _, visited => ([], visited)
  | fuel + 1, start, visited =>
    let visited1 := visited ++ [start]
    if hasKey g start then
      let res := dfsRecNbrsF (dfsRec g fuel) (adjList g start) visited1
      (start :: res.1, res.2)
    else ([start], visited1)

/-- Outer `dfs_recursive(graph, start)` call (`visited = None`). -/
def dfs_recursive (g : UGraph) (start : Nat) : List Nat :=
  (dfsRec g (1 + (start :: nodePool g).length) start []).1

/-- Fuel measure for `dfsLoop`: stack length plus one-plus-degree for
every not-yet-visited node of the pool `univ`.  Strictly decreases at
every pop (for graphs whose keys lie in `univ`). -/
def dfsMeasure (g : UGraph) (univ stack visited : List Nat) : Nat :=
  stack.length +
    Finset.sum (univ.toFinset \ visited.toFinset) (fun u => 1 + (adjList g u).length)

/-! ## Bellman-Ford (`app/utils/bellman_ford.py`)

`distances` is a dict with keys `range(V) ∪ {start}` (all `inf`, then
`distances[start] = 0`); it is embedded as a total function
`Nat → WithTop W` together with the explicit key test
`node < V ∨ node = start` wherever the code tests `node in distances`.
`parents` likewise becomes a total function `Nat → Option Nat`.  The
relaxation runs exactly `V - 1` passes with the early break on a pass
without updates, then one more scan whose any-improvement outcome turns
the whole result into `None`. -/

/-- Result record of a successful `bellman_ford` run (the filtered
`distances` dict keeps its provably finite values in `WithTop W`). -/
structure BFResult (W : Type) where
  distances : List (Nat × WithTop W)
  parents : List (Nat × Option Nat)
  has_negative_cycle : Bool

/-- Inner `for neighbor, weight in graph[node]` relaxation loop;
`distances[node]` is re-read at every comparison, so the threaded
`dist` is consulted fresh (a negative self-loop lowers it mid-loop). -/
def bfRelaxAdj [LinearOrder W] [AddCommGroup W] (node : Nat) :
    List (Nat × W) → (Nat → WithTop W) → (Nat → Option Nat) → Bool →
      (Nat → WithTop W) × (Nat → Option Nat) × Bool
  | [], dist, par, upd => (dist, par, upd)
  | (nb, w) :: rest, dist, par, upd =>
    if dist node + (w : WithTop W) < dist nb then
      bfRelaxAdj node rest (Function.update dist nb (dist node + (w : WithTop W)))
        (Function.update par nb (some node)) true
    else bfRelaxAdj node rest dist par upd

/-- One `for node in graph:` relaxation pass (the `node in distances`
and finiteness guards are evaluated once per node, before its
adjacency loop). -/
def bfPass [LinearOrder W] [AddCommGroup W] (V start : Nat) :
    List (Nat × List (Nat × W)) → (Nat → WithTop W) → (Nat → Option Nat) → Bool →
      (Nat → WithTop W) × (Nat → Option Nat) × Bool
  | [], dist, par, upd => (dist, par, upd)
  | (node, adj) :: rest, dist, par, upd =>
    if (node < V ∨ node = start) ∧ dist node ≠ ⊤ then
      let r := bfRelaxAdj node adj dist par upd
      bfPass V start rest r.1 r.2.1 r.2.2
    else bfPass V start rest dist par upd

/-- The `for _ in range(num_vertices - 1)` outer loop with the
early break when a pass performs no update. -/
def bfLoop [LinearOrder W] [AddCommGroup W] (g : WGraph W) (V start : Nat) :
    Nat → (Nat → WithTop W) → (Nat → Option Nat) →
      (Nat → WithTop W) × (Nat → Option Nat)
  | 0, dist, par => (dist, par)
  | k + 1, dist, par =>
    let r := bfPass V start g dist par false
    if r.2.2 then bfLoop g V start k r.1 r.2.1 else (r.1, r.2.1)

/-- The final negative-cycle scan: some guarded node has some improving
edge (the `break`s only short-circuit the same existential). -/
def bfImprovable [LinearOrder W] [AddCommGroup W] (g : WGraph W) (V start : Nat)
    (dist : Nat → WithTop W) : Bool :=
  g.any (fun p =>
    (decide ((p.1 < V ∨ p.1 = start) ∧ dist p.1 ≠ ⊤)) &&
      p.2.any (fun e => decide (dist p.1 + (e.2 : WithTop W) < dist e.1)))

/-- Key list of the `distances` dict in insertion order:
`range(V)`, then `start` if it was not already a key. -/
def bfKeys (V start : Nat) : List Nat :=
  List.range V ++ (if start < V then [] else [start])

/-- `bellman_ford(graph, start, num_vertices)`: `None` exactly when the
final scan still finds an improvement. -/
def bellman_ford [LinearOrder W] [AddCommGroup W] (g : WGraph W) (start V : Nat) :
    Option (BFResult W) :=
  let dist0 : Nat → WithTop W := fun i => if i = start then 0 else ⊤
  let par0 : Nat → Option Nat := fun _ => none
  let r := bfLoop g V start (V - 1) dist0 par0
  if bfImprovable g V start r.1 then none
  else some
    { distances := ((bfKeys V start).map (fun k => (k, r.1 k))).filter (fun e => e.2 ≠ ⊤)
      parents := (bfKeys V start).map (fun k => (k, r.2 k))
      has_negative_cycle := false }

/-! ### Walks (specification side, shared by the shortest-path claims) -/

/-- `IsWalkFrom g u steps v`: `steps` lists the successive
(target, weight) hops of a walk from `u` to `v` along edges of `g`. -/
def IsWalkFrom (g : WGraph W) : Nat → List (Nat × W) → Nat → Prop
  | u, [], v => u = v
  | u, (n, w) :: rest, v => (n, w) ∈ adjList g u ∧ IsWalkFrom g n rest v

/-- Total weight of a walk. -/
def walkWeight [AddCommGroup W] (steps : List (Nat × W)) : W :=
  (steps.map Prod.snd).sum

/-- A strictly negative cycle reachable from `start`. -/
def HasReachableNegCycle [LinearOrder W] [AddCommGroup W]
    (g : WGraph W) (start : Nat) : Prop :=
  ∃ u pre cyc, IsWalkFrom g start pre u ∧ cyc ≠ [] ∧ IsWalkFrom g u cyc u ∧
    walkWeight cyc < 0

/-! ## Dijkstra (`app/utils/dijkstra.py`)

The sparse `distances` dict becomes a total `Nat → WithTop W` (`⊤` =
key absent; stored values are always finite), and `heapq` becomes a
list of `(weight, node)` pairs from which each pop removes one
occurrence of the lexicographically smallest pair — exactly the value
`heapq.heappop` returns. -/

/-- Result record of `dijkstra` (`distances`/`parents` dicts). -/
structure DijkstraResult (W : Type) where
  distances : Nat → WithTop W
  parents : Nat → Option Nat

/-- Lexicographically smallest `(dist, node)` pair, as Python compares
the heap tuples. -/
def heapMin [LinearOrder W] : (W × Nat) → List (W × Nat) → W × Nat
  | e, [] => e
  | e, f :: rest => heapMin (if f.1 < e.1 ∨ (f.1 = e.1 ∧ f.2 < e.2) then f else e) rest

/-- Inner `for neighbor, weight in graph[current_node]` loop: relax
each edge out of the popped node (`distance = current_dist + weight`),
recording improvements and pushing them on the heap. -/
def dijScan [LinearOrder W] [AddCommGroup W] (c : W) (m : Nat) :
    List (Nat × W) → (Nat → WithTop W) → (Nat → Option Nat) → List (W × Nat) →
      (Nat → WithTop W) × (Nat → Option Nat) × List (W × Nat)
  | [], dist, par, heap => (dist, par, heap)
  | (nb, w) :: rest, dist, par, heap =>
    if dist nb = ⊤ ∨ ((c + w : W) : WithTop W) < dist nb then
      dijScan c m rest (Function.update dist nb ((c + w : W) : WithTop W))
        (Function.update par nb (some m)) (heap ++ [(c + w, nb)])
    else dijScan c m rest dist par heap

/-- The `while heap:` loop with lazy deletion (`if current_node in
visited: continue`).  One fuel unit per pop. -/
def dijLoop [LinearOrder W] [AddCommGroup W] (g : WGraph W) :
    Nat → List (W × Nat) → List Nat → (Nat → WithTop W) → (Nat → Option Nat) →
      (Nat → WithTop W) × (Nat → Option Nat)
  | 0, _, _, dist, par => (dist, par)
  | _ + 1, [], _, dist, par => (dist, par)
  | fuel + 1, h :: hs, visited, dist, par =>
    let m := heapMin h hs
    let heap' := (h :: hs).erase m
    if m.2 ∈ visited then dijLoop g fuel heap' visited dist par
    else
      let visited' := visited ++ [m.2]
      if hasKey g m.2 then
        let r := dijScan m.1 m.2 (adjList g m.2) dist par heap'
        dijLoop g fuel r.2.2 visited' r.1 r.2.1
      else dijLoop g fuel heap' visited' dist par

/-- `dijkstra(graph, start)`.  Fuel: every pop consumes a heap entry
and entries are created only once per visit of a node (at most its
degree), so one plus the total degree bounds the number of pops. -/
def dijkstra [LinearOrder W] [AddCommGroup W] (g : WGraph W) (start : Nat) :
    DijkstraResult W :=
  let r := dijLoop g (1 + (g.map (fun p => p.2.length)).sum)
    [((0 : W), start)] []
    (fun u => if u = start then ((0 : W) : WithTop W) else ⊤)
    (fun _ => (none : Option Nat))
  { distances := r.1, parents := r.2 }

/-! ## Floyd-Warshall (`app/utils/floyd_warshall.py`)

The `num_vertices × num_vertices` list matrices become total functions
`Nat → Nat → _` written by single-cell updates; iteration over
`range(num_vertices)` becomes folds over `List.range`.  Crucially the
embedding preserves the source's update order: the diagonal is zeroed
BEFORE the edges are written (a self-loop overwrites its diagonal
zero), duplicate adjacency entries overwrite each other last-wins, and
the triple relaxation loop updates the matrix in place. -/

/-- Result record of `floyd_warshall` (`distances` and `next`). -/
structure FWResult (W : Type) where
  distances : Nat → Nat → WithTop W
  next : Nat → Nat → Option Nat

/-- Single-cell matrix write `M[i][j] = v`. -/
def mset (M : Nat → Nat → α) (i j : Nat) (v : α) : Nat → Nat → α :=
  fun a b => if a = i ∧ b = j then v else M a b

/-- `floyd_warshall(graph, num_vertices)`. -/
def floyd_warshall [LinearOrder W] [AddCommGroup W] (g : WGraph W) (V : Nat) :
    FWResult W :=
  let dist0 : Nat → Nat → WithTop W := fun _ _ => ⊤
  let next0 : Nat → Nat → Option Nat := fun _ _ => none
  let dist1 := (List.range V).foldl (fun M i => mset M i i ((0 : W) : WithTop W)) dist0
  let st2 := g.foldl
    (fun (s : (Nat → Nat → WithTop W) × (Nat → Nat → Option Nat)) p =>
      p.2.foldl
        (fun s e => (mset s.1 p.1 e.1 ((e.2 : W) : WithTop W), mset s.2 p.1 e.1 (some e.1)))
        s)
    (dist1, next0)
  let st3 := (List.range V).foldl (fun s k =>
      (List.range V).foldl (fun s i =>
        (List.range V).foldl (fun s j =>
          if s.1 i k + s.1 k j < s.1 i j then
            (mset s.1 i j (s.1 i k + s.1 k j), mset s.2 i j (s.2 i k))
          else s) s) s) st2
  { distances := st3.1, next := st3.2 }

/-- Fuel measure for the Dijkstra loop: heap size plus the total degree
of the not-yet-visited keys (every pop strictly decreases it). -/
def dijMeasure (g : WGraph W) (heap : List (W × Nat)) (S : List Nat) : Nat :=
  heap.length +
    Finset.sum ((g.map Prod.fst).toFinset \ S.toFinset) (fun u => (adjList g u).length)

/-- The relational specification all three shortest-path algorithms are
measured against: `b` lower-bounds the weight of every walk from
`start` to `u` and is either `⊤` or attained by some walk. -/
def IsBestDist [LinearOrder W] [AddCommGroup W] (g : WGraph W) (start u : Nat)
    (b : WithTop W) : Prop :=
  (∀ steps, IsWalkFrom g start steps u → b ≤ ((walkWeight steps : W) : WithTop W)) ∧
  (b = ⊤ ∨ ∃ steps, IsWalkFrom g start steps u ∧ b = ((walkWeight steps : W) : WithTop W))

/-! # Theorems -/

/-! ## Association-list dict basics -/

@[simp] theorem adjList_nil (u : Nat) : adjList ([] : List (Nat × List α)) u = [] := rfl

theorem adjList_cons (k : Nat) (v : List α) (g : List (Nat × List α)) (u : Nat) :
    adjList ((k, v) :: g) u = if k = u then v else adjList g u := by
  by_cases h : k = u <;> simp [adjList, adjOf, List.find?_cons, h]

theorem hasKey_cons (k : Nat) (v : α) (g : List (Nat × α)) (u : Nat) :
    hasKey ((k, v) :: g) u = (k == u || hasKey g u) := by
  simp [hasKey]

/-! ## Claim C10: point-to-point BFS with equal endpoints -/

/-- C10 (confirmed): for every graph and node `s`, `bfs_shortest_path
graph s s` returns the single-node path `[s]` (length 0) without
inspecting the graph — in particular also when `s` is not a key of the
graph or has a self-loop. -/
theorem bfs_shortest_path_self (g : UGraph) (s : Nat) :
    bfs_shortest_path g s s = some [s] ∧ [s].length - 1 = 0 :=
  ⟨by simp [bfs_shortest_path], rfl⟩

/-! ## Claim C4: knapsack length-mismatch handling -/

/-- C4, counterexample: the engine function `knapsack_01` itself performs
no length validation: called directly with `len(weights) = 1 ≠ 2 =
len(values)` it returns a normal `max_value`/`selected_items` result. -/
theorem knapsack_01_no_length_check :
    [1].length ≠ [2, 3].length ∧
      knapsack_01 [1] [2, 3] 1 =
        { max_value := 2, selected_items := [0], selected_weights := [1],
          selected_values := [2], total_weight := 1 } := by
  constructor
  · decide
  · decide

/-- C4 (amended): the length check lives in the HTTP layer: the
`/dp-mochila/01` endpoint rejects mismatched `weights`/`values` lengths
with a length-mismatch error before any table computation, never
returning a knapsack result for such inputs. -/
theorem knapsack_01_endpoint_length_mismatch (weights : List Nat)
    (values : List ℤ) (capacity : Nat) (h : weights.length ≠ values.length) :
    knapsack_01_endpoint weights values capacity = .error .lengthMismatch := by
  simp [knapsack_01_endpoint, h]

theorem knapsack_01_endpoint_length_mismatch_witness :
    [1].length ≠ [2, 3].length ∧
      knapsack_01_endpoint [1] [2, 3] 1 = .error .lengthMismatch :=
  ⟨by decide, knapsack_01_endpoint_length_mismatch [1] [2, 3] 1 (by decide)⟩

/-! ## Claim C9: subset sum -/

theorem sublist_concat_iff {l xs : List α} {a : α} :
    l.Sublist (xs ++ [a]) ↔ l.Sublist xs ∨ ∃ l', l = l' ++ [a] ∧ l'.Sublist xs := by
  rw [List.sublist_append_iff]
  constructor
  · rintro ⟨l₁, l₂, rfl, h₁, h₂⟩
    rcases List.sublist_singleton.mp h₂ with rfl | rfl
    · exact Or.inl (by simpa using h₁)
    · exact Or.inr ⟨l₁, rfl, h₁⟩
  · rintro (h | ⟨l', rfl, h⟩)
    · exact ⟨l, [], by simp, h, by simp⟩
    · exact ⟨l', [a], rfl, h, List.Sublist.refl _⟩

/-- The DP table of `subset_sum` decides exactly "some sub-multiset of
the first `i` numbers (each index used at most once) sums to `s`". -/
theorem ssDP_iff (ns : List Nat) :
    ∀ i s, i ≤ ns.length →
      (ssDP ns i s = true ↔ ∃ l : List Nat, l.Sublist (ns.take i) ∧ l.sum = s) := by
  intro i
  induction i with
  | zero =>
    intro s _
    simp only [ssDP, List.take_zero, beq_iff_eq]
    constructor
    · rintro rfl
      exact ⟨[], List.Sublist.refl _, rfl⟩
    · rintro ⟨l, hl, hs⟩
      rw [List.sublist_nil] at hl
      subst hl
      exact hs.symm
  | succ i ih =>
    intro s h
    have hi : i < ns.length := h
    have hgd : ns.getD i 0 = ns[i] := List.getD_eq_getElem ns 0 hi
    have htake : ns.take (i + 1) = ns.take i ++ [ns[i]] := by
      rw [List.take_succ]
      simp [List.getElem?_eq_getElem hi]
    have hstep : ssDP ns (i + 1) s =
        (ssDP ns i s || (decide (ns.getD i 0 ≤ s) && ssDP ns i (s - ns.getD i 0))) := rfl
    rw [hstep, htake]
    constructor
    · intro hdp
      rcases Bool.or_eq_true_iff.mp hdp with h1 | h2
      · obtain ⟨l, hl, hs⟩ := (ih s hi.le).mp h1
        exact ⟨l, hl.trans (List.sublist_append_left _ _), hs⟩
      · obtain ⟨hle, hdp'⟩ := Bool.and_eq_true_iff.mp h2
        have hle' : ns[i] ≤ s := by rw [← hgd]; exact of_decide_eq_true hle
        obtain ⟨l, hl, hs⟩ := (ih (s - ns.getD i 0) hi.le).mp hdp'
        refine ⟨l ++ [ns[i]], hl.append (List.Sublist.refl _), ?_⟩
        rw [List.sum_append, List.sum_singleton, hs, hgd, Nat.sub_add_cancel hle']
    · rintro ⟨l, hl, hs⟩
      rcases sublist_concat_iff.mp hl with h1 | ⟨l', rfl, h1⟩
      · have hbase : ssDP ns i s = true := (ih s hi.le).mpr ⟨l, h1, hs⟩
        rw [hbase, Bool.true_or]
      · rw [List.sum_append, List.sum_singleton] at hs
        have hle : ns[i] ≤ s := hs ▸ Nat.le_add_left _ _
        have hsub : l'.sum = s - ns[i] := by omega
        have hrec : ssDP ns i (s - ns.getD i 0) = true :=
          (ih _ hi.le).mpr ⟨l', h1, by rw [hgd, hsub]⟩
        rw [hrec, decide_eq_true (hgd ▸ hle), Bool.true_and, Bool.or_true]

/-- The backward walk of `subset_sum` returns (in reverse) a sub-multiset
of the first `i` numbers summing exactly to `s`, whenever `dp[i][s]`. -/
theorem ssSelect_spec (ns : List Nat) :
    ∀ i s, i ≤ ns.length → ssDP ns i s = true →
      (ssSelect ns i s).reverse.Sublist (ns.take i) ∧ (ssSelect ns i s).sum = s := by
  intro i
  induction i with
  | zero =>
    intro s _ hdp
    have : s = 0 := by simpa [ssDP] using hdp
    simp [ssSelect, this]
  | succ i ih =>
    intro s h hdp
    have hi : i < ns.length := h
    have hgd : ns.getD i 0 = ns[i] := List.getD_eq_getElem ns 0 hi
    have htake : ns.take (i + 1) = ns.take i ++ [ns[i]] := by
      rw [List.take_succ]
      simp [List.getElem?_eq_getElem hi]
    have hstep : ssDP ns (i + 1) s =
        (ssDP ns i s || (decide (ns.getD i 0 ≤ s) && ssDP ns i (s - ns.getD i 0))) := rfl
    by_cases hc : ns.getD i 0 ≤ s ∧ ssDP ns i (s - ns.getD i 0) = true
    · obtain ⟨hrec, hsum⟩ := ih (s - ns.getD i 0) hi.le hc.2
      have hsel : ssSelect ns (i + 1) s =
          ns.getD i 0 :: ssSelect ns i (s - ns.getD i 0) := by
        rw [ssSelect, if_pos hc]
      rw [hsel]
      constructor
      · rw [List.reverse_cons, htake]
        rw [← hgd]
        exact hrec.append (List.Sublist.refl _)
      · rw [List.sum_cons, hsum, Nat.add_sub_cancel' hc.1]
    · have hdp' : ssDP ns i s = true := by
        rw [hstep] at hdp
        rcases Bool.or_eq_true_iff.mp hdp with h1 | h2
        · exact h1
        · obtain ⟨hle, hdp''⟩ := Bool.and_eq_true_iff.mp h2
          exact absurd ⟨of_decide_eq_true hle, hdp''⟩ hc
      obtain ⟨hrec, hsum⟩ := ih s hi.le hdp'
      have hsel : ssSelect ns (i + 1) s = ssSelect ns i s := by
        rw [ssSelect, if_neg hc]
      rw [hsel, htake]
      exact ⟨hrec.trans (List.sublist_append_left _ _), hsum⟩

/-- C9 (confirmed): `subset_sum` reports `is_possible = true` exactly when
some sub-multiset of the numbers (each element usable at most once) sums
to the target; in the positive case the returned subset is (in reverse) a
sublist of the input — elements at distinct indices — summing exactly to
the target, and in the negative case the returned subset is empty. -/
theorem subset_sum_correct (ns : List Nat) (target : Nat) :
    ((subset_sum ns target).is_possible = true ↔
      ∃ l : List Nat, l.Sublist ns ∧ l.sum = target) ∧
    ((subset_sum ns target).is_possible = true →
      (subset_sum ns target).subset.reverse.Sublist ns ∧
        (subset_sum ns target).subset.sum = target) ∧
    ((subset_sum ns target).is_possible = false →
      (subset_sum ns target).subset = []) := by
  by_cases hdp : ssDP ns ns.length target = true
  · obtain ⟨hrec, hsum⟩ := ssSelect_spec ns ns.length target le_rfl hdp
    rw [List.take_length] at hrec
    refine ⟨?_, ?_, ?_⟩
    · have hiff := ssDP_iff ns ns.length target le_rfl
      rw [List.take_length] at hiff
      constructor
      · intro _
        exact hiff.mp hdp
      · intro _
        simp [subset_sum, if_pos hdp]
    · intro _
      simpa [subset_sum, if_pos hdp] using ⟨hrec, hsum⟩
    · intro hfalse
      simp [subset_sum, if_pos hdp] at hfalse
  · refine ⟨?_, ?_, ?_⟩
    · simp only [subset_sum, if_neg hdp]
      constructor
      · intro h
        simp at h
      · intro hex
        exact absurd ((ssDP_iff ns ns.length target le_rfl).mpr
          (by simpa [List.take_length] using hex)) hdp
    · intro htrue
      simp [subset_sum, if_neg hdp] at htrue
    · intro _
      simp [subset_sum, if_neg hdp]

theorem subset_sum_correct_witness :
    (subset_sum [3, 34, 4, 12, 5, 2] 9).is_possible = true ∧
      (subset_sum [3, 34, 4, 12, 5, 2] 9).subset.sum = 9 :=
  ⟨by decide, ((subset_sum_correct [3, 34, 4, 12, 5, 2] 9).2.1 (by decide)).2⟩

/-! ## Claim C3: graph-builder edge weights -/

theorem mem_weightsOf {g : List (α × List (β × ℚ))} {w : ℚ} :
    w ∈ weightsOf g ↔ ∃ p ∈ g, ∃ e ∈ p.2, w = e.2 := by
  simp only [weightsOf, List.mem_flatMap, List.mem_map]
  constructor
  · rintro ⟨p, hp, e, he, rfl⟩
    exact ⟨p, hp, e, he, rfl⟩
  · rintro ⟨p, hp, e, he, rfl⟩
    exact ⟨p, hp, e, he, rfl⟩

theorem weightsOf_cons (p : α × List (β × ℚ)) (rest : List (α × List (β × ℚ))) :
    weightsOf (p :: rest) = p.2.map Prod.snd ++ weightsOf rest := by
  simp [weightsOf, List.flatMap_cons]

/-- A weight of `dictAppend g k v` is a weight of `g` or the appended one. -/
theorem weightsOf_dictAppend [DecidableEq α] (g : List (α × List (β × ℚ)))
    (k : α) (v : β × ℚ) :
    ∀ w ∈ weightsOf (dictAppend g k v), w ∈ weightsOf g ∨ w = v.2 := by
  induction g with
  | nil =>
    intro w hw
    simp [weightsOf, dictAppend] at hw
    exact Or.inr hw
  | cons p rest ih =>
    intro w hw
    by_cases hk : p.1 = k
    · rw [show dictAppend (p :: rest) k v = (p.1, p.2 ++ [v]) :: rest by
        rw [dictAppend]; simp [hk]] at hw
      rw [weightsOf_cons] at hw
      simp only [List.map_append, List.mem_append, List.map_cons, List.map_nil,
        List.mem_singleton] at hw
      rw [weightsOf_cons, List.mem_append]
      rcases hw with (hw | hw) | hw
      · exact Or.inl (Or.inl hw)
      · exact Or.inr hw
      · exact Or.inl (Or.inr hw)
    · rw [show dictAppend (p :: rest) k v = p :: dictAppend rest k v by
        rw [dictAppend]; simp [hk]] at hw
      rw [weightsOf_cons, List.mem_append] at hw
      rw [weightsOf_cons, List.mem_append]
      rcases hw with hw | hw
      · exact Or.inl (Or.inl hw)
      · rcases ih w hw with h | h
        · exact Or.inl (Or.inr h)
        · exact Or.inr h

/-- Weight-predicate preservation along any fold whose steps preserve it. -/
theorem weightsOf_foldl {γ : Type} (P : ℚ → Prop) (l : List γ)
    (step : List (α × List (β × ℚ)) → γ → List (α × List (β × ℚ)))
    (hstep : ∀ g c, c ∈ l → (∀ w ∈ weightsOf g, P w) →
      ∀ w ∈ weightsOf (step g c), P w) :
    ∀ g, (∀ w ∈ weightsOf g, P w) → ∀ w ∈ weightsOf (l.foldl step g), P w := by
  induction l with
  | nil => intro g hg; simpa using hg
  | cons c rest ih =>
    intro g hg
    rw [List.foldl_cons]
    exact ih (fun g' c' hc' => hstep g' c' (List.mem_cons_of_mem _ hc'))
      (step g c) (hstep g c (List.mem_cons_self _ _) hg)

/-- Every transaction stored in a user bucket comes from the input list. -/
theorem mem_dictAppend_values [DecidableEq α] {g : List (α × List β)} {k : α}
    {v : β} :
    ∀ p ∈ dictAppend g k v, ∀ x ∈ p.2, (∃ q ∈ g, x ∈ q.2) ∨ x = v := by
  induction g with
  | nil =>
    intro p hp x hx
    simp [dictAppend] at hp
    subst hp
    simp at hx
    exact Or.inr hx
  | cons q rest ih =>
    intro p hp x hx
    by_cases hk : q.1 = k
    · rw [show dictAppend (q :: rest) k v = (q.1, q.2 ++ [v]) :: rest by
        rw [dictAppend]; simp [hk]] at hp
      rcases List.mem_cons.mp hp with rfl | hp
      · simp only [List.mem_append, List.mem_singleton] at hx
        rcases hx with hx | hx
        · exact Or.inl ⟨q, List.mem_cons_self _ _, hx⟩
        · exact Or.inr hx
      · exact Or.inl ⟨p, List.mem_cons_of_mem _ hp, hx⟩
    · rw [show dictAppend (q :: rest) k v = q :: dictAppend rest k v by
        rw [dictAppend]; simp [hk]] at hp
      rcases List.mem_cons.mp hp with rfl | hp
      · exact Or.inl ⟨p, List.mem_cons_self _ _, hx⟩
      · rcases ih p hp x hx with ⟨q', hq', hx'⟩ | h
        · exact Or.inl ⟨q', List.mem_cons_of_mem _ hq', hx'⟩
        · exact Or.inr h

theorem userBuckets_sub (ts : List Transaction) :
    ∀ p ∈ userBuckets ts, ∀ t ∈ p.2, t ∈ ts := by
  suffices h : ∀ (l' : List Transaction) (acc : List (String × List Transaction)),
      (∀ p ∈ acc, ∀ t ∈ p.2, t ∈ ts) → (∀ t ∈ l', t ∈ ts) →
      ∀ p ∈ l'.foldl (fun acc t => dictAppend acc t.usuario t) acc,
        ∀ t ∈ p.2, t ∈ ts by
    exact h ts [] (by simp) (fun t ht => ht)
  intro l'
  induction l' with
  | nil => intro acc hacc _ p hp; exact hacc p hp
  | cons t rest ih =>
    intro acc hacc hl'
    rw [List.foldl_cons]
    refine ih _ ?_ (fun t' ht' => hl' t' (List.mem_cons_of_mem _ ht'))
    intro p hp x hx
    rcases mem_dictAppend_values p hp x hx with ⟨q, hq, hx'⟩ | rfl
    · exact hacc q hq x hx'
    · exact hl' x (List.mem_cons_self _ _)

theorem mem_consecutivePairs {l : List Transaction} {p : Transaction × Transaction}
    (hp : p ∈ consecutivePairs l) : p.1 ∈ l ∧ p.2 ∈ l := by
  obtain ⟨a, b⟩ := p
  have h := List.of_mem_zip hp
  exact ⟨h.1, (List.tail_sublist l).mem h.2⟩

theorem mem_sortUserFecha {ts : List Transaction} {t : Transaction} :
    t ∈ sortUserFecha ts ↔ t ∈ ts :=
  (List.perm_insertionSort _ ts).mem_iff

/-- C3 (amended): `build_gt` weights are absolute values of input montos
(hence non-negative), and `build_weighted_category_graph` weights are
transition counts (casts of naturals, hence non-negative). -/
theorem builder_abs_weights (ts : List Transaction) :
    (∀ w ∈ weightsOf (build_gt ts), (∃ t ∈ ts, w = |t.monto|) ∧ 0 ≤ w) ∧
    (∀ w ∈ weightsOf (build_weighted_category_graph ts),
      (∃ n : Nat, w = (n : ℚ)) ∧ 0 ≤ w) := by
  constructor
  · have main : ∀ w ∈ weightsOf (build_gt ts), ∃ t ∈ ts, w = |t.monto| := by
      refine weightsOf_foldl _ _ _ ?_ [] (by simp [weightsOf])
      intro g bucket hbucket hg
      refine weightsOf_foldl _ _ _ ?_ g hg
      intro g' p hp hg' w hw
      rcases weightsOf_dictAppend g' p.1.tid (p.2.tid, |p.2.monto|) w hw with h | h
      · exact hg' w h
      · refine ⟨p.2, ?_, h⟩
        exact mem_sortUserFecha.mp
          (userBuckets_sub _ bucket hbucket p.2 (mem_consecutivePairs hp).2)
    intro w hw
    obtain ⟨t, ht, rfl⟩ := main w hw
    exact ⟨⟨t, ht, rfl⟩, abs_nonneg _⟩
  · have main : ∀ w ∈ weightsOf (build_weighted_category_graph ts),
        ∃ n : Nat, w = (n : ℚ) := by
      refine weightsOf_foldl _ _ _ ?_ [] (by simp [weightsOf])
      intro g e _ hg w hw
      rcases weightsOf_dictAppend g e.1.1 (e.1.2, (e.2 : ℚ)) w hw with h | h
      · exact hg w h
      · exact ⟨e.2, h⟩
    intro w hw
    obtain ⟨n, rfl⟩ := main w hw
    exact ⟨⟨n, rfl⟩, Nat.cast_nonneg n⟩

theorem builder_abs_weights_witness :
    (∃ t ∈ [exT1, exT2], |(-10 : ℚ)| = |t.monto|) ∧ 0 ≤ |(-10 : ℚ)| := by
  have heq : weightsOf (build_gt [exT1, exT2]) = [|(-10 : ℚ)|] := by rfl
  have hmem : |(-10 : ℚ)| ∈ weightsOf (build_gt [exT1, exT2]) := by
    rw [heq]; exact List.mem_singleton.mpr rfl
  exact (builder_abs_weights [exT1, exT2]).1 _ hmem

/-- C3, counterexample: with one user, two consecutive differing-category
records and second `monto = -10`, the category graph, the user–category
graph and the temporal graph all contain a negative edge weight (their
builders use the raw `monto`, not its absolute value). -/
theorem builder_negative_weights :
    (∃ t ∈ [exT1, exT2], t.monto < 0) ∧
    (∃ w ∈ weightsOf (build_gc [exT1, exT2]), w < 0) ∧
    (∃ w ∈ weightsOf (build_guc [exT1, exT2]), w < 0) ∧
    (∃ w ∈ weightsOf (build_temporal_graph [exT1, exT2]), w < 0) := by
  refine ⟨⟨exT2, by simp, by norm_num [exT2]⟩, ?_, ?_, ?_⟩
  · have heq : weightsOf (build_gc [exT1, exT2]) =
        [(0 + (-10 : ℚ)) / ((0 + 1 : Nat) : ℚ),
         (0 + (-10 : ℚ)) / ((0 + 1 : Nat) : ℚ)] := by rfl
    rw [heq]
    refine ⟨_, List.mem_cons_self _ _, by norm_num⟩
  · have heq : weightsOf (build_guc [exT1, exT2]) =
        [(0 + (5 : ℚ)), (0 + (-10 : ℚ)), (0 + (5 : ℚ)), (0 + (-10 : ℚ))] := by rfl
    rw [heq]
    refine ⟨(0 + (-10 : ℚ)), by simp, by norm_num⟩
  · have heq : weightsOf (build_temporal_graph [exT1, exT2]) = [(-10 : ℚ)] := by rfl
    rw [heq]
    exact ⟨_, List.mem_singleton.mpr rfl, by norm_num⟩

/-! ## Claim C8: Union-Find invariants -/

namespace UnionFind

theorem getD_set_self {l : List Nat} {x v : Nat} (h : x < l.length) (d : Nat) :
    (l.set x v).getD x d = v := by
  rw [List.getD_eq_getElem?_getD, List.getElem?_set_self]
  · rfl
  · exact h

theorem getD_set_ne {l : List Nat} {x v a : Nat} (h : a ≠ x) (d : Nat) :
    (l.set x v).getD a d = l.getD a d := by
  rw [List.getD_eq_getElem?_getD, List.getElem?_set_ne (fun e => h e.symm),
    ← List.getD_eq_getElem?_getD]

theorem step_det {par : List Nat} {a b c : Nat} (h1 : step par a b)
    (h2 : step par a c) : b = c := by
  rw [← h1.1, ← h2.1]

theorem no_step_of_root {par : List Nat} {r c : Nat} (hr : par.getD r r = r)
    (h : step par r c) : False :=
  h.2 (by rw [← h.1, hr])

/-- A chain has a unique root. -/
theorem isRootOf_unique {par : List Nat} :
    ∀ {x r r' : Nat}, IsRootOf par x r → IsRootOf par x r' → r = r' := by
  have key : ∀ x r, Relation.ReflTransGen (step par) x r → par.getD r r = r →
      ∀ r', Relation.ReflTransGen (step par) x r' → par.getD r' r' = r' → r = r' := by
    intro x r hc
    induction hc using Relation.ReflTransGen.head_induction_on with
    | refl =>
      intro hr r' hc' hr'
      rcases hc'.cases_head with rfl | ⟨c, hstep, _⟩
      · rfl
      · exact absurd hstep (no_step_of_root hr)
    | @head a c hstep hrest ih =>
      intro hr r' hc' hr'
      rcases hc'.cases_head with rfl | ⟨c', hstep', hrest'⟩
      · exact absurd hstep (no_step_of_root hr')
      · obtain rfl : c = c' := step_det hstep hstep'
        exact ih hr r' hrest' hr'
  intro x r r' h h'
  exact key x r h.1 h.2 r' h'.1 h'.2

theorem fuelSet_card_le (n : Nat) (rank : List Nat) (x : Nat) :
    (fuelSet n rank x).card ≤ n := by
  calc (fuelSet n rank x).card ≤ (Finset.range n).card := Finset.card_filter_le _ _
    _ = n := Finset.card_range n

theorem fuelSet_card_pos {n : Nat} (rank : List Nat) {x : Nat} (hx : x < n) :
    0 < (fuelSet n rank x).card := by
  refine Finset.card_pos.mpr ⟨x, ?_⟩
  simp [fuelSet, hx]

theorem fuelSet_card_lt {n : Nat} {uf : UnionFind} (hv : Valid n uf) {x : Nat}
    (hx : x < n) (hne : uf.parent.getD x x ≠ x) :
    (fuelSet n uf.rank (uf.parent.getD x x)).card <
      (fuelSet n uf.rank x).card := by
  have hrank := (hv.2.2 x hx).2 hne
  apply Finset.card_lt_card
  constructor
  · intro j hj
    simp only [fuelSet, Finset.mem_filter, Finset.mem_range] at hj ⊢
    exact ⟨hj.1, le_trans hrank.le hj.2⟩
  · intro hsub
    have hxmem : x ∈ fuelSet n uf.rank x := by simp [fuelSet, hx]
    have := hsub hxmem
    simp only [fuelSet, Finset.mem_filter] at this
    exact absurd this.2 (by omega)

theorem rootAux_of_root {par : List Nat} {x : Nat} (h : par.getD x x = x) :
    ∀ fuel, rootAux fuel par x = x := by
  intro fuel
  cases fuel with
  | zero => rfl
  | succ fuel =>
    show (if par.getD x x = x then x else rootAux fuel par (par.getD x x)) = x
    rw [if_pos h]

/-- `rootAux` does not depend on the fuel once it covers the measure. -/
theorem rootAux_congr {n : Nat} {uf : UnionFind} (hv : Valid n uf) :
    ∀ fuel fuel' x, x < n → (fuelSet n uf.rank x).card ≤ fuel →
      (fuelSet n uf.rank x).card ≤ fuel' →
      rootAux fuel uf.parent x = rootAux fuel' uf.parent x := by
  intro fuel
  induction fuel with
  | zero =>
    intro fuel' x hx hc _
    exact absurd hc (by have := fuelSet_card_pos uf.rank hx; omega)
  | succ fuel ih =>
    intro fuel' x hx hc hc'
    by_cases hp : uf.parent.getD x x = x
    · rw [rootAux_of_root hp, rootAux_of_root hp]
    · have hlt := fuelSet_card_lt hv hx hp
      have hpn := (hv.2.2 x hx).1
      cases fuel' with
      | zero => exact absurd hc' (by have := fuelSet_card_pos uf.rank hx; omega)
      | succ fuel' =>
        show (if uf.parent.getD x x = x then x
            else rootAux fuel uf.parent (uf.parent.getD x x)) =
          (if uf.parent.getD x x = x then x
            else rootAux fuel' uf.parent (uf.parent.getD x x))
        rw [if_neg hp, if_neg hp]
        exact ih fuel' _ hpn (by omega) (by omega)

/-- With enough fuel, `rootAux` computes a genuine root in range. -/
theorem rootAux_spec {n : Nat} {uf : UnionFind} (hv : Valid n uf) :
    ∀ fuel x, x < n → (fuelSet n uf.rank x).card ≤ fuel →
      IsRootOf uf.parent x (rootAux fuel uf.parent x) ∧
        rootAux fuel uf.parent x < n := by
  intro fuel
  induction fuel with
  | zero =>
    intro x hx hc
    exact absurd hc (by have := fuelSet_card_pos uf.rank hx; omega)
  | succ fuel ih =>
    intro x hx hc
    by_cases hp : uf.parent.getD x x = x
    · rw [rootAux_of_root hp]
      exact ⟨⟨Relation.ReflTransGen.refl, hp⟩, hx⟩
    · have hlt := fuelSet_card_lt hv hx hp
      have hpn := (hv.2.2 x hx).1
      obtain ⟨⟨hchain, hroot⟩, hlt'⟩ := ih (uf.parent.getD x x) hpn (by omega)
      have hunfold : rootAux (fuel + 1) uf.parent x =
          rootAux fuel uf.parent (uf.parent.getD x x) := by
        show (if uf.parent.getD x x = x then x
            else rootAux fuel uf.parent (uf.parent.getD x x)) = _
        rw [if_neg hp]
      rw [hunfold]
      exact ⟨⟨hchain.head ⟨rfl, fun e => hp e.symm⟩, hroot⟩, hlt'⟩

theorem rootOf_isRootOf {n : Nat} {uf : UnionFind} (hv : Valid n uf) {x : Nat}
    (hx : x < n) : IsRootOf uf.parent x (rootOf uf.parent x) := by
  have := rootAux_spec hv uf.parent.length x hx
    (hv.1 ▸ fuelSet_card_le n uf.rank x)
  exact this.1

theorem rootOf_lt {n : Nat} {uf : UnionFind} (hv : Valid n uf) {x : Nat}
    (hx : x < n) : rootOf uf.parent x < n := by
  have := rootAux_spec hv uf.parent.length x hx
    (hv.1 ▸ fuelSet_card_le n uf.rank x)
  exact this.2

theorem rootOf_eq_of_isRootOf {n : Nat} {uf : UnionFind} (hv : Valid n uf)
    {x r : Nat} (hx : x < n) (h : IsRootOf uf.parent x r) :
    rootOf uf.parent x = r :=
  isRootOf_unique (rootOf_isRootOf hv hx) h

theorem rootOf_of_root {par : List Nat} {x : Nat} (h : par.getD x x = x) :
    rootOf par x = x := rootAux_of_root h _

/-- A node with a parent pointer off itself is not a root of anything. -/
theorem not_root_self {par : List Nat} {x r : Nat} (hx : IsRootOf par x r)
    (hxr : x ≠ r) : par.getD x x ≠ x := by
  intro hroot
  rcases hx.1.cases_head with rfl | ⟨c, hstep, _⟩
  · exact hxr rfl
  · exact no_step_of_root hroot hstep

/-- Path compression (`parent[x] := r` for `r` the root of `x`) preserves
every node's root. -/
theorem isRootOf_set_iff {par : List Nat} {x r : Nat} (hx : IsRootOf par x r)
    (hxr : x ≠ r) (hlen : x < par.length) (y r' : Nat) :
    IsRootOf (par.set x r) y r' ↔ IsRootOf par y r' := by
  have hxnr : par.getD x x ≠ x := not_root_self hx hxr
  have hrroot : par.getD r r = r := hx.2
  have hrx : r ≠ x := fun e => hxnr (e ▸ hrroot)
  have hget_x : (par.set x r).getD x x = r := getD_set_self hlen x
  have hget_ne : ∀ a, a ≠ x → ∀ d, (par.set x r).getD a d = par.getD a d :=
    fun a ha d => getD_set_ne ha d
  constructor
  · rintro ⟨hchain, hroot⟩
    have hr'x : r' ≠ x := by
      intro e
      subst e
      rw [hget_x] at hroot
      exact hrx hroot
    refine ⟨?_, by rw [← hget_ne r' hr'x r']; exact hroot⟩
    have lift : ∀ a b, step (par.set x r) a b →
        Relation.ReflTransGen (step par) a b := by
      intro a b hs
      by_cases hax : a = x
      · subst hax
        have hb : b = r := by rw [← hs.1]; exact hget_x
        exact hb ▸ hx.1
      · exact Relation.ReflTransGen.single ⟨by rw [← hget_ne a hax a]; exact hs.1, hs.2⟩
    have main : ∀ z, Relation.ReflTransGen (step (par.set x r)) y z →
        Relation.ReflTransGen (step par) y z := by
      intro z hz
      induction hz with
      | refl => exact Relation.ReflTransGen.refl
      | tail hrest hstep ih => exact ih.trans (lift _ _ hstep)
    exact main r' hchain
  · rintro ⟨hchain, hroot⟩
    have hr'x : r' ≠ x := fun e => hxnr (e ▸ hroot)
    refine ⟨?_, by rw [hget_ne r' hr'x r']; exact hroot⟩
    induction hchain using Relation.ReflTransGen.head_induction_on with
    | refl => exact Relation.ReflTransGen.refl
    | @head a c hstep hrest ih =>
      by_cases hax : a = x
      · subst hax
        have : r' = r := isRootOf_unique ⟨hrest.head hstep, hroot⟩ hx
        subst this
        exact Relation.ReflTransGen.single ⟨hget_x, fun e => hxr e⟩
      · exact ih.head ⟨by rw [hget_ne a hax a]; exact hstep.1, hstep.2⟩

/-- Ranks strictly increase along a non-trivial chain (on valid states). -/
theorem rank_lt_of_chain {n : Nat} {uf : UnionFind} (hv : Valid n uf) :
    ∀ {x r : Nat}, x < n → Relation.ReflTransGen (step uf.parent) x r →
      x ≠ r → uf.rank.getD x 0 < uf.rank.getD r 0 := by
  intro x r hx hchain
  induction hchain using Relation.ReflTransGen.head_induction_on with
  | refl => intro h; exact absurd rfl h
  | @head a c hstep hrest ih =>
    intro _
    have han : a < n := by
      by_contra h
      push_neg at h
      have : a.max 0 = a := by omega
      -- out-of-range getD defaults to `a`, contradicting `step`
      have hdef : uf.parent.getD a a = a := by
        rw [List.getD_eq_getElem?_getD, List.getElem?_eq_none (by omega : uf.parent.length ≤ a)]
        rfl
      exact hstep.2 (by rw [← hstep.1, hdef])
    have hlt : uf.rank.getD a 0 < uf.rank.getD c 0 := by
      have := (hv.2.2 a han).2 (by rw [hstep.1]; exact fun e => hstep.2 e.symm)
      rwa [hstep.1] at this
    have hcn : c < n := by
      have := (hv.2.2 a han).1
      rwa [hstep.1] at this
    by_cases hcr : c = r
    · subst hcr; exact hlt
    · exact lt_trans hlt (ih hcn hcr)

/-- Full specification of `findAux`: with sufficient fuel it preserves
validity, rank, count and the whole partition, and returns the root. -/
theorem findAux_spec {n : Nat} :
    ∀ (fuel : Nat) (uf : UnionFind) (x : Nat), Valid n uf → x < n →
      (fuelSet n uf.rank x).card ≤ fuel →
      Valid n (findAux fuel uf x).1 ∧
      (findAux fuel uf x).2 = rootOf uf.parent x ∧
      (findAux fuel uf x).1.rank = uf.rank ∧
      (findAux fuel uf x).1.count = uf.count ∧
      (∀ y r', IsRootOf (findAux fuel uf x).1.parent y r' ↔
        IsRootOf uf.parent y r') := by
  intro fuel
  induction fuel with
  | zero =>
    intro uf x hv hx hc
    exact absurd hc (by have := fuelSet_card_pos uf.rank hx; omega)
  | succ fuel ih =>
    intro uf x hv hx hc
    by_cases hp : uf.parent.getD x x = x
    · have hres : findAux (fuel + 1) uf x = (uf, x) := by
        show (if uf.parent.getD x x = x then (uf, x) else _) = (uf, x)
        rw [if_pos hp]
      rw [hres]
      exact ⟨hv, (rootOf_of_root hp).symm, rfl, rfl, fun _ _ => Iff.rfl⟩
    · have hpn : uf.parent.getD x x < n := (hv.2.2 x hx).1
      have hlt := fuelSet_card_lt hv hx hp
      obtain ⟨hv1, hr1, hrank1, hcount1, hiff1⟩ :=
        ih uf (uf.parent.getD x x) hv hpn (by omega)
      set res := findAux fuel uf (uf.parent.getD x x) with hresdef
      have hres : findAux (fuel + 1) uf x =
          ({ res.1 with parent := res.1.parent.set x res.2 }, res.2) := by
        show (if uf.parent.getD x x = x then (uf, x) else _) = _
        rw [if_neg hp]
      have hrootx : rootOf uf.parent x = rootOf uf.parent (uf.parent.getD x x) := by
        apply rootOf_eq_of_isRootOf hv hx
        obtain ⟨hchain, hroot⟩ := rootOf_isRootOf hv hpn
        exact ⟨hchain.head ⟨rfl, fun e => hp e.symm⟩, hroot⟩
      have hxr : x ≠ res.2 := by
        intro e
        have hroot := (rootOf_isRootOf hv hpn).2
        rw [← hr1, ← e] at hroot
        exact hp hroot
      have hxroot1 : IsRootOf res.1.parent x res.2 := by
        rw [hiff1]
        rw [hr1, ← hrootx]
        exact rootOf_isRootOf hv hx
      have hlen1 : x < res.1.parent.length := hv1.1 ▸ hx
      have hsetiff := isRootOf_set_iff hxroot1 hxr hlen1
      have hrn : res.2 < n := by rw [hr1]; exact rootOf_lt hv hpn
      rw [hres]
      refine ⟨?_, by simpa using hrootx ▸ hr1, by simpa using hrank1,
        by simpa using hcount1, ?_⟩
      · -- validity of the compressed state
        refine ⟨by simpa using hv1.1, by simpa using hv1.2.1, ?_⟩
        intro i hi
        by_cases hix : i = x
        · subst hix
          have hget : (res.1.parent.set i res.2).getD i i = res.2 :=
            getD_set_self hlen1 i
          simp only [hget]
          refine ⟨hrn, fun _ => ?_⟩
          -- rank i < rank (root of i), along the old chain
          have hchain : Relation.ReflTransGen (step uf.parent) i res.2 := by
            rw [hr1, ← hrootx]
            exact (rootOf_isRootOf hv hx).1
          have := rank_lt_of_chain hv hx hchain hxr
          simpa [hrank1] using this
        · have hget : (res.1.parent.set x res.2).getD i i = res.1.parent.getD i i :=
            getD_set_ne hix i
          simp only [hget]
          exact (hv1.2.2 i hi)
      · intro y r'
        simp only
        rw [hsetiff y r', hiff1 y r']

/-- Specification of `find`. -/
theorem find_spec {n : Nat} {uf : UnionFind} (hv : Valid n uf) {x : Nat}
    (hx : x < n) :
    Valid n (find uf x).1 ∧
    (find uf x).2 = rootOf uf.parent x ∧
    (find uf x).1.rank = uf.rank ∧
    (find uf x).1.count = uf.count ∧
    (∀ y r', IsRootOf (find uf x).1.parent y r' ↔ IsRootOf uf.parent y r') :=
  findAux_spec uf.parent.length uf x hv hx (hv.1 ▸ fuelSet_card_le n uf.rank x)

/-- `find` preserves the partition. -/
theorem find_rootOf {n : Nat} {uf : UnionFind} (hv : Valid n uf) {x : Nat}
    (hx : x < n) (y : Nat) (hy : y < n) :
    rootOf (find uf x).1.parent y = rootOf uf.parent y := by
  obtain ⟨hv', _, _, _, hiff⟩ := find_spec hv hx
  apply rootOf_eq_of_isRootOf hv' hy
  rw [hiff]
  exact rootOf_isRootOf hv hy

/-- Re-pointing the root `rs` at another root `rt` relocates exactly the
`rs`-class to `rt` and leaves every other chain alone. -/
theorem isRootOf_set_root_iff {par : List Nat} {rs rt : Nat}
    (hrs : par.getD rs rs = rs) (hrt : par.getD rt rt = rt) (hne : rs ≠ rt)
    (hlen : rs < par.length) (y r' : Nat) :
    IsRootOf (par.set rs rt) y r' ↔
      ((IsRootOf par y rs ∧ r' = rt) ∨ (IsRootOf par y r' ∧ r' ≠ rs)) := by
  have hget_rs : (par.set rs rt).getD rs rs = rt := getD_set_self hlen rs
  have hget_ne : ∀ a, a ≠ rs → ∀ d, (par.set rs rt).getD a d = par.getD a d :=
    fun a ha d => getD_set_ne ha d
  have hrt' : (par.set rs rt).getD rt rt = rt := by
    rw [hget_ne rt (fun e => hne e.symm) rt]
    exact hrt
  have lift2 : ∀ a z, Relation.ReflTransGen (step par) a z →
      Relation.ReflTransGen (step (par.set rs rt)) a z := by
    intro a z h
    induction h with
    | refl => exact Relation.ReflTransGen.refl
    | @tail m z hrest hstep ih =>
      have hmrs : m ≠ rs := by
        intro e
        subst e
        exact no_step_of_root hrs hstep
      exact ih.tail ⟨by rw [hget_ne m hmrs m]; exact hstep.1, hstep.2⟩
  constructor
  · rintro ⟨hchain, hroot⟩
    have hr'rs : r' ≠ rs := by
      intro e
      subst e
      rw [hget_rs] at hroot
      exact hne hroot.symm
    have hrootold : par.getD r' r' = r' := by
      rw [← hget_ne r' hr'rs r']
      exact hroot
    clear hroot
    induction hchain using Relation.ReflTransGen.head_induction_on with
    | refl => exact Or.inr ⟨⟨Relation.ReflTransGen.refl, hrootold⟩, hr'rs⟩
    | @head a c hstep hrest ih =>
      by_cases hax : a = rs
      · subst hax
        have hc : c = rt := by rw [← hstep.1]; exact hget_rs
        rw [hc] at ih
        rcases ih with ⟨hl, _⟩ | ⟨hr, _⟩
        · rcases hl.1.cases_head with heq | ⟨c', hstep', _⟩
          · exact absurd heq.symm hne
          · exact absurd hstep' (no_step_of_root hrt)
        · have : rt = r' := isRootOf_unique ⟨Relation.ReflTransGen.refl, hrt⟩ hr
          exact Or.inl ⟨⟨Relation.ReflTransGen.refl, hrs⟩, this.symm⟩
      · have hstepold : step par a c :=
          ⟨by rw [← hget_ne a hax a]; exact hstep.1, hstep.2⟩
        rcases ih with ⟨hl, he⟩ | ⟨hr, he⟩
        · exact Or.inl ⟨⟨hl.1.head hstepold, hl.2⟩, he⟩
        · exact Or.inr ⟨⟨hr.1.head hstepold, hr.2⟩, he⟩
  · rintro (⟨⟨hchain, _⟩, rfl⟩ | ⟨⟨hchain, hroot⟩, hne'⟩)
    · exact ⟨(lift2 y rs hchain).tail ⟨hget_rs, hne⟩, hrt'⟩
    · exact ⟨lift2 y r' hchain, by rw [hget_ne r' hne' r']; exact hroot⟩

/-- Root relocation formula for a merge `parent[rs] := rt`. -/
theorem merge_rootOf {n : Nat} {uf2 newuf : UnionFind} (hv2 : Valid n uf2)
    (hvnew : Valid n newuf) {rs rt : Nat}
    (hrs : uf2.parent.getD rs rs = rs) (hrt : uf2.parent.getD rt rt = rt)
    (hne : rs ≠ rt) (hrsn : rs < n)
    (hnewpar : newuf.parent = uf2.parent.set rs rt) :
    ∀ y, y < n → rootOf newuf.parent y =
      (if rootOf uf2.parent y = rs then rt else rootOf uf2.parent y) := by
  intro y hy
  have hnew0 := rootOf_isRootOf hvnew hy
  revert hnew0
  generalize hgen : rootOf newuf.parent y = r'
  intro hnew0
  rw [hnewpar] at hnew0
  rcases (isRootOf_set_root_iff hrs hrt hne (hv2.1 ▸ hrsn) y r').mp hnew0 with
    ⟨hl, he⟩ | ⟨hr, he⟩
  · rw [rootOf_eq_of_isRootOf hv2 hy hl, if_pos rfl]
    exact he
  · rw [rootOf_eq_of_isRootOf hv2 hy hr, if_neg he]

/-- Validity of a merge that attaches the lower-ranked root. -/
theorem valid_merge_lt {n : Nat} {uf2 : UnionFind} (hv2 : Valid n uf2)
    {rs rt : Nat} (_hrt : uf2.parent.getD rt rt = rt)
    (hrsn : rs < n) (hrtn : rt < n)
    (hrank : uf2.rank.getD rs 0 < uf2.rank.getD rt 0) (c : Nat) :
    Valid n { uf2 with parent := uf2.parent.set rs rt, count := c } := by
  refine ⟨by simpa using hv2.1, hv2.2.1, ?_⟩
  intro i hi
  by_cases his : i = rs
  · subst his
    have hget : (uf2.parent.set i rt).getD i i = rt := getD_set_self (hv2.1 ▸ hi) i
    simp only [hget]
    exact ⟨hrtn, fun _ => hrank⟩
  · have hget : (uf2.parent.set rs rt).getD i i = uf2.parent.getD i i :=
      getD_set_ne his i
    simp only [hget]
    exact hv2.2.2 i hi

/-- Validity of a merge of equal-ranked roots with the rank bump. -/
theorem valid_merge_eq {n : Nat} {uf2 : UnionFind} (hv2 : Valid n uf2)
    {rs rt : Nat} (hrs : uf2.parent.getD rs rs = rs)
    (hrt : uf2.parent.getD rt rt = rt) (hne : rs ≠ rt)
    (hrsn : rs < n) (hrtn : rt < n)
    (hrank : uf2.rank.getD rs 0 = uf2.rank.getD rt 0) (c : Nat) :
    Valid n { uf2 with
      parent := uf2.parent.set rs rt,
      rank := uf2.rank.set rt (uf2.rank.getD rt 0 + 1),
      count := c } := by
  refine ⟨by simpa using hv2.1, by simpa using hv2.2.1, ?_⟩
  intro i hi
  have hrank_rt : (uf2.rank.set rt (uf2.rank.getD rt 0 + 1)).getD rt 0 =
      uf2.rank.getD rt 0 + 1 := getD_set_self (hv2.2.1 ▸ hrtn) 0
  have hrank_ne : ∀ j, j ≠ rt →
      (uf2.rank.set rt (uf2.rank.getD rt 0 + 1)).getD j 0 = uf2.rank.getD j 0 :=
    fun j hj => getD_set_ne hj 0
  by_cases his : i = rs
  · subst his
    have hget : (uf2.parent.set i rt).getD i i = rt := getD_set_self (hv2.1 ▸ hi) i
    simp only [hget]
    refine ⟨hrtn, fun _ => ?_⟩
    rw [hrank_rt, hrank_ne i hne]
    omega
  · have hget : (uf2.parent.set rs rt).getD i i = uf2.parent.getD i i :=
      getD_set_ne his i
    simp only [hget]
    refine ⟨(hv2.2.2 i hi).1, fun hne' => ?_⟩
    have hbase := (hv2.2.2 i hi).2 hne'
    by_cases hit : i = rt
    · subst hit
      exact absurd hrt hne'
    · rw [hrank_ne i hit]
      by_cases hpt : uf2.parent.getD i i = rt
      · rw [hpt, hrank_rt]
        rw [hpt] at hbase
        omega
      · rw [hrank_ne _ hpt]
        exact hbase

/-- Specification of the merge step `unionRoots` on two genuine roots:
validity is preserved, the Boolean reports a merge exactly when the
roots differ, and the partition either stays (equal roots) or relocates
both root classes onto one surviving root. -/
theorem unionRoots_spec {n : Nat} {uf2 : UnionFind} (hv2 : Valid n uf2)
    {rs rt : Nat} (hrs : uf2.parent.getD rs rs = rs)
    (hrt : uf2.parent.getD rt rt = rt) (hrsn : rs < n) (hrtn : rt < n) :
    Valid n (unionRoots uf2 rs rt).1 ∧
    ((unionRoots uf2 rs rt).2 = true ↔ rs ≠ rt) ∧
    (rs = rt → ∀ y, y < n →
      rootOf (unionRoots uf2 rs rt).1.parent y = rootOf uf2.parent y) ∧
    (rs ≠ rt → ∃ rr, (rr = rs ∨ rr = rt) ∧ ∀ y, y < n →
      rootOf (unionRoots uf2 rs rt).1.parent y =
        (if rootOf uf2.parent y = rs ∨ rootOf uf2.parent y = rt then rr
         else rootOf uf2.parent y)) := by
  by_cases heq : rs = rt
  · have hres : unionRoots uf2 rs rt = (uf2, false) := by
      rw [unionRoots, if_pos heq]
    rw [hres]
    exact ⟨hv2, by simp [heq], fun _ y _ => rfl, fun h => absurd heq h⟩
  · by_cases hlt : uf2.rank.getD rs 0 < uf2.rank.getD rt 0
    · have hres : unionRoots uf2 rs rt =
          ({ uf2 with parent := uf2.parent.set rs rt, count := uf2.count - 1 },
           true) := by
        rw [unionRoots, if_pos hlt]
        rw [if_neg heq]
      rw [hres]
      have hvnew := valid_merge_lt hv2 hrt hrsn hrtn hlt (uf2.count - 1)
      refine ⟨hvnew, by simp [heq], fun h => absurd h heq, fun _ => ⟨rt, Or.inr rfl, ?_⟩⟩
      intro y hy
      have hform := merge_rootOf hv2 hvnew hrs hrt heq hrsn rfl y hy
      rw [hform]
      by_cases hc : rootOf uf2.parent y = rs
      · rw [if_pos hc, if_pos (Or.inl hc)]
      · rw [if_neg hc]
        by_cases hc' : rootOf uf2.parent y = rt
        · rw [if_pos (Or.inr hc'), hc']
        · rw [if_neg (by tauto)]
    · by_cases hlt' : uf2.rank.getD rt 0 < uf2.rank.getD rs 0
      · have hres : unionRoots uf2 rs rt =
            ({ uf2 with parent := uf2.parent.set rt rs, count := uf2.count - 1 },
             true) := by
          rw [unionRoots, if_pos hlt']
          rw [if_neg heq, if_neg hlt]
        rw [hres]
        have hvnew := valid_merge_lt hv2 hrs hrtn hrsn hlt' (uf2.count - 1)
        refine ⟨hvnew, by simp [heq], fun h => absurd h heq,
          fun _ => ⟨rs, Or.inl rfl, ?_⟩⟩
        intro y hy
        have hform := merge_rootOf hv2 hvnew hrt hrs (fun e => heq e.symm) hrtn
          rfl y hy
        rw [hform]
        by_cases hc : rootOf uf2.parent y = rt
        · rw [if_pos hc, if_pos (Or.inr hc)]
        · rw [if_neg hc]
          by_cases hc' : rootOf uf2.parent y = rs
          · rw [if_pos (Or.inl hc'), hc']
          · rw [if_neg (by tauto)]
      · have hrank : uf2.rank.getD rt 0 = uf2.rank.getD rs 0 := by omega
        have hres : unionRoots uf2 rs rt =
            ({ uf2 with
                parent := uf2.parent.set rt rs,
                rank := uf2.rank.set rs (uf2.rank.getD rs 0 + 1),
                count := uf2.count - 1 },
             true) := by
          rw [unionRoots]
          rw [if_neg heq, if_neg hlt, if_neg hlt']
        rw [hres]
        have hvnew := valid_merge_eq hv2 hrt hrs (fun e => heq e.symm) hrtn hrsn
          hrank (uf2.count - 1)
        refine ⟨hvnew, by simp [heq], fun h => absurd h heq,
          fun _ => ⟨rs, Or.inl rfl, ?_⟩⟩
        intro y hy
        have hform := merge_rootOf hv2 hvnew hrt hrs (fun e => heq e.symm) hrtn
          rfl y hy
        rw [hform]
        by_cases hc : rootOf uf2.parent y = rt
        · rw [if_pos hc, if_pos (Or.inr hc)]
        · rw [if_neg hc]
          by_cases hc' : rootOf uf2.parent y = rs
          · rw [if_pos (Or.inl hc'), hc']
          · rw [if_neg (by tauto)]

theorem union_def (uf : UnionFind) (x y : Nat) :
    union uf x y = unionRoots (find (find uf x).1 y).1 (find uf x).2
      (find (find uf x).1 y).2 := rfl

theorem connected_def (uf : UnionFind) (x y : Nat) :
    connected uf x y = ((find (find uf x).1 y).1,
      (find uf x).2 == (find (find uf x).1 y).2) := rfl

/-- Specification of `union`: validity, the merge Boolean, and the
resulting partition (old classes of `a` and `b` merged, others kept). -/
theorem union_spec {n : Nat} {uf : UnionFind} (hv : Valid n uf) {a b : Nat}
    (ha : a < n) (hb : b < n) :
    Valid n (union uf a b).1 ∧
    ((union uf a b).2 = true ↔ rootOf uf.parent a ≠ rootOf uf.parent b) ∧
    (∀ y z, y < n → z < n → (sameRoot (union uf a b).1.parent y z ↔
      (sameRoot uf.parent y z ∨
        ((sameRoot uf.parent y a ∨ sameRoot uf.parent y b) ∧
         (sameRoot uf.parent z a ∨ sameRoot uf.parent z b))))) := by
  obtain ⟨hv1, hr1, _, _, hiff1⟩ := find_spec hv ha
  obtain ⟨hv2, hr2, _, _, hiff2⟩ := find_spec hv1 hb
  have hpres1 : ∀ y, y < n → rootOf (find uf a).1.parent y = rootOf uf.parent y :=
    fun y hy => find_rootOf hv ha y hy
  have hpres2 : ∀ y, y < n →
      rootOf (find (find uf a).1 b).1.parent y = rootOf uf.parent y :=
    fun y hy => (find_rootOf hv1 hb y hy).trans (hpres1 y hy)
  have hra : (find uf a).2 = rootOf uf.parent a := hr1
  have hrb : (find (find uf a).1 b).2 = rootOf uf.parent b := by
    rw [hr2, hpres1 b hb]
  have hran : rootOf uf.parent a < n := rootOf_lt hv ha
  have hrbn : rootOf uf.parent b < n := rootOf_lt hv hb
  have hroot_a : IsRootOf (find (find uf a).1 b).1.parent a (rootOf uf.parent a) := by
    rw [hiff2, hiff1]
    exact rootOf_isRootOf hv ha
  have hroot_b : IsRootOf (find (find uf a).1 b).1.parent b (rootOf uf.parent b) := by
    rw [hiff2, hiff1]
    exact rootOf_isRootOf hv hb
  have hpres2' : ∀ y, y < n →
      rootOf (find (find uf a).1 b).1.parent y = rootOf uf.parent y := hpres2
  have hspec := unionRoots_spec hv2 hroot_a.2 hroot_b.2 hran hrbn
  rw [union_def, hra, hrb]
  obtain ⟨hvnew, hbool, hsame, hmerge⟩ := hspec
  refine ⟨hvnew, hbool, ?_⟩
  intro y z hy hz
  unfold sameRoot
  by_cases heq : rootOf uf.parent a = rootOf uf.parent b
  · have hform := hsame heq
    rw [hform y hy, hform z hz, hpres2 y hy, hpres2 z hz]
    omega
  · obtain ⟨rr, hrr, hform⟩ := hmerge heq
    rw [hform y hy, hform z hz, hpres2 y hy, hpres2 z hz]
    rcases hrr with hrr | hrr <;> split_ifs <;> omega

/-- Specification of `connected`. -/
theorem connected_spec {n : Nat} {uf : UnionFind} (hv : Valid n uf) {a b : Nat}
    (ha : a < n) (hb : b < n) :
    Valid n (connected uf a b).1 ∧
    ((connected uf a b).2 = true ↔ sameRoot uf.parent a b) ∧
    (∀ y, y < n → rootOf (connected uf a b).1.parent y = rootOf uf.parent y) := by
  obtain ⟨hv1, hr1, _, _, _⟩ := find_spec hv ha
  obtain ⟨hv2, hr2, _, _, _⟩ := find_spec hv1 hb
  have hpres1 : ∀ y, y < n → rootOf (find uf a).1.parent y = rootOf uf.parent y :=
    fun y hy => find_rootOf hv ha y hy
  have hpres2 : ∀ y, y < n →
      rootOf (find (find uf a).1 b).1.parent y = rootOf uf.parent y :=
    fun y hy => (find_rootOf hv1 hb y hy).trans (hpres1 y hy)
  rw [connected_def]
  refine ⟨hv2, ?_, hpres2⟩
  rw [hr1, hr2, hpres1 b hb]
  simp [sameRoot, beq_iff_eq]

theorem valid_make (n : Nat) : Valid n (make n) := by
  refine ⟨by simp [make], by simp [make], ?_⟩
  intro i hi
  have : (List.range n).getD i i = i := by
    rw [List.getD_eq_getElem?_getD, List.getElem?_range hi]
    rfl
  rw [make] at *
  simp only at this ⊢
  rw [this]
  exact ⟨hi, fun h => absurd rfl h⟩

/-- Any in-range API call preserves validity and never splits classes. -/
theorem applyOps_spec {n : Nat} :
    ∀ (ops : List UFOp) (uf : UnionFind), Valid n uf → OpsInRange n ops →
      Valid n (applyOps uf ops) ∧
      (∀ a b, a < n → b < n → sameRoot uf.parent a b →
        sameRoot (applyOps uf ops).parent a b) := by
  intro ops
  induction ops with
  | nil => intro uf hv _; exact ⟨hv, fun _ _ _ _ h => h⟩
  | cons op rest ih =>
    intro uf hv hops
    have hstep : Valid n (applyOp uf op) ∧
        (∀ a b, a < n → b < n → sameRoot uf.parent a b →
          sameRoot (applyOp uf op).parent a b) := by
      cases op with
      | unionOp a b =>
        obtain ⟨ha, hb, _⟩ := hops
        obtain ⟨hv', _, hpart⟩ := union_spec hv ha hb
        exact ⟨hv', fun y z hy hz h => (hpart y z hy hz).mpr (Or.inl h)⟩
      | findOp a =>
        obtain ⟨ha, _⟩ := hops
        obtain ⟨hv', _, _, _, _⟩ := find_spec hv ha
        refine ⟨hv', fun y z hy hz h => ?_⟩
        unfold sameRoot at h ⊢
        show rootOf (find uf a).1.parent y = rootOf (find uf a).1.parent z
        rw [find_rootOf hv ha y hy, find_rootOf hv ha z hz]
        exact h
      | connectedOp a b =>
        obtain ⟨ha, hb, _⟩ := hops
        obtain ⟨hv', _, hpres⟩ := connected_spec hv ha hb
        refine ⟨hv', fun y z hy hz h => ?_⟩
        unfold sameRoot at h ⊢
        show rootOf (connected uf a b).1.parent y =
          rootOf (connected uf a b).1.parent z
        rw [hpres y hy, hpres z hz]
        exact h
    have hrest : OpsInRange n rest := by
      cases op with
      | unionOp a b => exact hops.2.2
      | findOp a => exact hops.2
      | connectedOp a b => exact hops.2.2
    obtain ⟨hv'', hmono⟩ := ih (applyOp uf op) hstep.1 hrest
    exact ⟨hv'', fun a b ha hb h => hmono a b ha hb (hstep.2 a b ha hb h)⟩

end UnionFind

/-- C8 (confirmed): for every `UnionFind` built by `make n` followed by any
sequence of in-range `union`/`find`/`connected` calls: `find (find x)`
returns the same representative as `find x`; and once `union a b` succeeds
(or `connected a b` already holds), `connected a b` stays true after every
further in-range call sequence. -/
theorem union_find_invariants (n : Nat) (ops : List UnionFind.UFOp)
    (hops : UnionFind.OpsInRange n ops) :
    (∀ x, x < n →
      (UnionFind.find
        (UnionFind.find (UnionFind.applyOps (UnionFind.make n) ops) x).1
        (UnionFind.find (UnionFind.applyOps (UnionFind.make n) ops) x).2).2 =
      (UnionFind.find (UnionFind.applyOps (UnionFind.make n) ops) x).2) ∧
    (∀ a b, a < n → b < n →
      (UnionFind.connected (UnionFind.applyOps (UnionFind.make n) ops) a b).2 = true →
      ∀ more, UnionFind.OpsInRange n more →
        (UnionFind.connected
          (UnionFind.applyOps (UnionFind.applyOps (UnionFind.make n) ops) more)
          a b).2 = true) ∧
    (∀ a b, a < n → b < n →
      (UnionFind.union (UnionFind.applyOps (UnionFind.make n) ops) a b).2 = true →
      ∀ more, UnionFind.OpsInRange n more →
        (UnionFind.connected
          (UnionFind.applyOps
            (UnionFind.union (UnionFind.applyOps (UnionFind.make n) ops) a b).1
            more)
          a b).2 = true) := by
  have hv : UnionFind.Valid n (UnionFind.applyOps (UnionFind.make n) ops) :=
    (UnionFind.applyOps_spec ops (UnionFind.make n) (UnionFind.valid_make n) hops).1
  set uf := UnionFind.applyOps (UnionFind.make n) ops with hufdef
  refine ⟨?_, ?_, ?_⟩
  · intro x hx
    obtain ⟨hv1, hr1, _, _, _⟩ := UnionFind.find_spec hv hx
    have hrn : (UnionFind.find uf x).2 < n := by
      rw [hr1]
      exact UnionFind.rootOf_lt hv hx
    obtain ⟨_, hr2, _, _, _⟩ := UnionFind.find_spec hv1 hrn
    rw [hr2, UnionFind.find_rootOf hv hx _ hrn, hr1]
    exact UnionFind.rootOf_of_root (UnionFind.rootOf_isRootOf hv hx).2
  · intro a b ha hb hconn more hmore
    have hsame : UnionFind.sameRoot uf.parent a b :=
      ((UnionFind.connected_spec hv ha hb).2.1).mp hconn
    obtain ⟨hv', hmono⟩ := UnionFind.applyOps_spec more uf hv hmore
    exact ((UnionFind.connected_spec hv' ha hb).2.1).mpr
      (hmono a b ha hb hsame)
  · intro a b ha hb hun more hmore
    obtain ⟨hv', _, hpart⟩ := UnionFind.union_spec hv ha hb
    have hsame : UnionFind.sameRoot (UnionFind.union uf a b).1.parent a b :=
      (hpart a b ha hb).mpr (Or.inr ⟨Or.inl rfl, Or.inr rfl⟩)
    obtain ⟨hv'', hmono⟩ := UnionFind.applyOps_spec more (UnionFind.union uf a b).1
      hv' hmore
    exact ((UnionFind.connected_spec hv'' ha hb).2.1).mpr
      (hmono a b ha hb hsame)

/-! ## Claim C5: Kruskal -/

theorem rootOf_make (V x : Nat) :
    UnionFind.rootOf (UnionFind.make V).parent x = x := by
  apply UnionFind.rootOf_of_root
  show (List.range V).getD x x = x
  by_cases hx : x < V
  · rw [List.getD_eq_getElem?_getD, List.getElem?_range hx]
    rfl
  · rw [List.getD_eq_getElem?_getD, List.getElem?_eq_none (by simpa using hx)]
    rfl

/-- The running total of `kruskalLoop` is the sum of accepted weights. -/
theorem kruskalLoop_weight [LinearOrder W] [AddCommGroup W] {V : Nat} :
    ∀ (es : List (Nat × Nat × W)) (uf : UnionFind) (acc : List (Nat × Nat × W))
      (tw : W), tw = (acc.map (fun e => e.2.2)).sum →
      (kruskalLoop V es uf acc tw).2 =
        (((kruskalLoop V es uf acc tw).1).map (fun e => e.2.2)).sum := by
  intro es
  induction es with
  | nil => intro uf acc tw h; exact h
  | cons e rest ih =>
    obtain ⟨u, v, w⟩ := e
    intro uf acc tw h
    have hstep : kruskalLoop V ((u, v, w) :: rest) uf acc tw =
        (if (UnionFind.union uf u v).2 = true then
          (if ((acc ++ [(u, v, w)]).length : ℤ) = (V : ℤ) - 1 then
            (acc ++ [(u, v, w)], tw + w)
           else kruskalLoop V rest (UnionFind.union uf u v).1 (acc ++ [(u, v, w)])
             (tw + w))
         else kruskalLoop V rest (UnionFind.union uf u v).1 acc tw) := rfl
    rw [hstep]
    by_cases hb : (UnionFind.union uf u v).2 = true
    · rw [if_pos hb]
      have hsum : tw + w = ((acc ++ [(u, v, w)]).map (fun e => e.2.2)).sum := by
        rw [List.map_append, List.sum_append, ← h]
        simp
      by_cases hstop : ((acc ++ [(u, v, w)]).length : ℤ) = (V : ℤ) - 1
      · rw [if_pos hstop]
        exact hsum
      · rw [if_neg hstop]
        exact ih _ _ _ hsum
    · rw [if_neg hb]
      exact ih _ _ _ h

/-- Refinement: `kruskalLoop` over the imperative Union-Find equals the
reference greedy loop over any partition map representing the same
partition. -/
theorem kruskalLoop_refines [LinearOrder W] [AddCommGroup W] {V : Nat} :
    ∀ (es : List (Nat × Nat × W)) (uf : UnionFind) (rep : Nat → Nat)
      (acc : List (Nat × Nat × W)) (tw : W),
      UnionFind.Valid V uf →
      (∀ x y, x < V → y < V →
        (UnionFind.sameRoot uf.parent x y ↔ rep x = rep y)) →
      (∀ e ∈ es, e.1 < V ∧ e.2.1 < V) →
      kruskalLoop V es uf acc tw = kruskalSpecLoop V es rep acc tw := by
  intro es
  induction es with
  | nil => intro uf rep acc tw _ _ _; rfl
  | cons e rest ih =>
    obtain ⟨u, v, w⟩ := e
    intro uf rep acc tw hv hcouple hrange
    obtain ⟨hu, hvlt⟩ := hrange (u, v, w) (List.mem_cons_self _ _)
    obtain ⟨hv', hbool, hpart⟩ := UnionFind.union_spec hv hu hvlt
    have hrange' : ∀ e ∈ rest, e.1 < V ∧ e.2.1 < V :=
      fun e he => hrange e (List.mem_cons_of_mem _ he)
    have hcond : (UnionFind.union uf u v).2 = true ↔ rep u ≠ rep v := by
      rw [hbool]
      have hcuv := hcouple u v hu hvlt
      constructor
      · intro h hc
        exact h (hcuv.mpr hc)
      · intro h hc
        exact h (hcuv.mp hc)
    have hloopeq : kruskalLoop V ((u, v, w) :: rest) uf acc tw =
        (if (UnionFind.union uf u v).2 = true then
          (if ((acc ++ [(u, v, w)]).length : ℤ) = (V : ℤ) - 1 then
            (acc ++ [(u, v, w)], tw + w)
           else kruskalLoop V rest (UnionFind.union uf u v).1 (acc ++ [(u, v, w)])
             (tw + w))
         else kruskalLoop V rest (UnionFind.union uf u v).1 acc tw) := rfl
    have hspeceq : kruskalSpecLoop V ((u, v, w) :: rest) rep acc tw =
        (if rep u ≠ rep v then
          (if ((acc ++ [(u, v, w)]).length : ℤ) = (V : ℤ) - 1 then
            (acc ++ [(u, v, w)], tw + w)
           else kruskalSpecLoop V rest (specMerge rep u v) (acc ++ [(u, v, w)])
             (tw + w))
         else kruskalSpecLoop V rest rep acc tw) := rfl
    rw [hloopeq, hspeceq]
    by_cases hrep : rep u ≠ rep v
    · rw [if_pos (hcond.mpr hrep), if_pos hrep]
      by_cases hstop : ((acc ++ [(u, v, w)]).length : ℤ) = (V : ℤ) - 1
      · rw [if_pos hstop, if_pos hstop]
      · rw [if_neg hstop, if_neg hstop]
        apply ih _ _ _ _ hv' _ hrange'
        intro x y hx hy
        rw [hpart x y hx hy, hcouple x y hx hy, hcouple x u hx hu,
          hcouple x v hx hvlt, hcouple y u hy hu, hcouple y v hy hvlt]
        simp only [specMerge]
        split_ifs <;> omega
    · rw [if_neg (fun h => hrep (hcond.mp h)), if_neg hrep]
      apply ih _ _ _ _ hv' _ hrange'
      intro x y hx hy
      rw [hpart x y hx hy, hcouple x y hx hy, hcouple x u hx hu,
        hcouple x v hx hvlt, hcouple y u hy hu, hcouple y v hy hvlt]
      push_neg at hrep
      constructor
      · intro h
        rcases h with h | ⟨h1, h2⟩
        · exact h
        · omega
      · intro h
        exact Or.inl h

/-- C5 (confirmed): `kruskal` scans the edges in ascending weight order
with ties in original input order (stable sort), accepts an edge exactly
when its endpoints lie in distinct components of the partition built from
previously accepted edges, stops at `V - 1` accepted edges,
`total_weight` is the sum of accepted weights, and `is_connected` holds
exactly when `V - 1` edges were accepted. -/
theorem kruskal_correct [LinearOrder W] [AddCommGroup W]
    (edges : List (Nat × Nat × W)) (V : Nat)
    (hrange : ∀ e ∈ edges, e.1 < V ∧ e.2.1 < V) :
    ((edges.insertionSort (fun a b => a.2.2 ≤ b.2.2)).Pairwise
      (fun a b => a.2.2 ≤ b.2.2)) ∧
    (edges.insertionSort (fun a b => a.2.2 ≤ b.2.2)).Perm edges ∧
    (∀ a b : Nat × Nat × W, List.Sublist [a, b] edges → a.2.2 ≤ b.2.2 →
      List.Sublist [a, b] (edges.insertionSort (fun a b => a.2.2 ≤ b.2.2))) ∧
    (kruskal edges V).mst_edges =
      (kruskalSpecLoop V (edges.insertionSort (fun a b => a.2.2 ≤ b.2.2))
        id [] 0).1 ∧
    (kruskal edges V).total_weight =
      ((kruskal edges V).mst_edges.map (fun e => e.2.2)).sum ∧
    (kruskal edges V).num_edges = (kruskal edges V).mst_edges.length ∧
    ((kruskal edges V).is_connected = true ↔
      ((kruskal edges V).mst_edges.length : ℤ) = (V : ℤ) - 1) := by
  haveI htotal : IsTotal (Nat × Nat × W) (fun a b => a.2.2 ≤ b.2.2) :=
    ⟨fun a b => le_total a.2.2 b.2.2⟩
  haveI htrans : IsTrans (Nat × Nat × W) (fun a b => a.2.2 ≤ b.2.2) :=
    ⟨fun _ _ _ hab hbc => le_trans hab hbc⟩
  have hsortrange : ∀ e ∈ edges.insertionSort (fun a b => a.2.2 ≤ b.2.2),
      e.1 < V ∧ e.2.1 < V := by
    intro e he
    exact hrange e ((List.perm_insertionSort _ edges).mem_iff.mp he)
  have hrefl : kruskalLoop V (edges.insertionSort (fun a b => a.2.2 ≤ b.2.2))
      (UnionFind.make V) [] 0 =
      kruskalSpecLoop V (edges.insertionSort (fun a b => a.2.2 ≤ b.2.2))
        id [] 0 := by
    apply kruskalLoop_refines _ _ _ _ _ (UnionFind.valid_make V) _ hsortrange
    intro x y _ _
    unfold UnionFind.sameRoot
    rw [rootOf_make, rootOf_make]
    exact Iff.rfl
  have hweight := kruskalLoop_weight (V := V)
    (edges.insertionSort (fun a b => a.2.2 ≤ b.2.2)) (UnionFind.make V) [] 0
    (by simp)
  refine ⟨List.sorted_insertionSort _ edges, List.perm_insertionSort _ edges,
    ?_, ?_, ?_, ?_, ?_⟩
  · intro a b hab hle
    exact List.pair_sublist_insertionSort hle hab
  · show (kruskalLoop V (edges.insertionSort (fun a b => a.2.2 ≤ b.2.2))
      (UnionFind.make V) [] 0).1 = _
    rw [hrefl]
  · exact hweight
  · rfl
  · show ((((kruskalLoop V (edges.insertionSort (fun a b => a.2.2 ≤ b.2.2))
      (UnionFind.make V) [] 0).1.length : ℤ) == (V : ℤ) - 1) = true ↔ _)
    exact beq_iff_eq

theorem kruskal_correct_witness :
    (kruskal [(0, 1, (1 : ℤ)), (1, 2, 2), (0, 2, 3)] 3).mst_edges =
      (kruskalSpecLoop 3
        (([(0, 1, (1 : ℤ)), (1, 2, 2), (0, 2, 3)]).insertionSort
          (fun a b => a.2.2 ≤ b.2.2)) id [] 0).1 ∧
    (kruskal [(0, 1, (1 : ℤ)), (1, 2, 2), (0, 2, 3)] 3).is_connected = true :=
  ⟨(kruskal_correct [(0, 1, (1 : ℤ)), (1, 2, 2), (0, 2, 3)] 3
      (by decide)).2.2.2.1,
   by decide⟩

/-! ## Claim C6: Kruskal from adjacency (first-wins deduplication) -/

theorem foldl_dedupStep (l : List (Nat × Nat × W)) :
    ∀ st : List (Nat × Nat × W) × List (Nat × Nat),
      l.foldl dedupStep st =
        (st.1 ++ dedupFirst l st.2, dedupSeen l st.2) := by
  induction l with
  | nil => intro st; simp [dedupFirst, dedupSeen]
  | cons e rest ih =>
    intro st
    rw [List.foldl_cons]
    by_cases hk : edgeKey e ∈ st.2
    · have hstep : dedupStep st e = st := by
        rw [dedupStep, if_neg (by simpa [edgeKey] using hk)]
      rw [hstep, ih st]
      rw [show dedupFirst (e :: rest) st.2 = dedupFirst rest st.2 by
        rw [dedupFirst, if_pos hk]]
      rw [show dedupSeen (e :: rest) st.2 = dedupSeen rest st.2 by
        rw [dedupSeen, if_pos hk]]
    · have hstep : dedupStep st e = (st.1 ++ [e], edgeKey e :: st.2) := by
        rw [dedupStep, if_pos (by simpa [edgeKey] using hk)]
        rfl
      rw [hstep, ih]
      rw [show dedupFirst (e :: rest) st.2 =
          e :: dedupFirst rest (edgeKey e :: st.2) by
        rw [dedupFirst, if_neg hk]]
      rw [show dedupSeen (e :: rest) st.2 = dedupSeen rest (edgeKey e :: st.2) by
        rw [dedupSeen, if_neg hk]]
      simp

theorem graphToEdges_eq_dedupFirst [LinearOrder W] (g : WGraph W) :
    graphToEdges g = dedupFirst (flatEdges g) [] := by
  have main : ∀ st : List (Nat × Nat × W) × List (Nat × Nat),
      g.foldl
        (fun (st : List (Nat × Nat × W) × List (Nat × Nat)) p =>
          p.2.foldl
            (fun st e =>
              let key := (min p.1 e.1, max p.1 e.1)
              if key ∉ st.2 then (st.1 ++ [(key.1, key.2, e.2)], key :: st.2)
              else st)
            st)
        st = (flatEdges g).foldl dedupStep st := by
    induction g with
    | nil => intro st; rfl
    | cons p rest ih =>
      intro st
      rw [List.foldl_cons]
      have hflat : flatEdges (p :: rest) =
          p.2.map (fun e => (min p.1 e.1, max p.1 e.1, e.2)) ++ flatEdges rest := by
        simp [flatEdges]
      rw [hflat, List.foldl_append, ← ih, List.foldl_map]
      rfl
  show (g.foldl _ ([], [])).1 = _
  rw [show (g.foldl
      (fun (st : List (Nat × Nat × W) × List (Nat × Nat)) p =>
        p.2.foldl
          (fun st e =>
            let key := (min p.1 e.1, max p.1 e.1)
            if key ∉ st.2 then (st.1 ++ [(key.1, key.2, e.2)], key :: st.2)
            else st)
          st)
      ([], [])) = (flatEdges g).foldl dedupStep ([], []) from main ([], [])]
  rw [foldl_dedupStep]
  simp

theorem dedupFirst_sublist (l : List (Nat × Nat × W)) :
    ∀ seen, List.Sublist (dedupFirst l seen) l := by
  induction l with
  | nil => intro seen; exact List.Sublist.refl _
  | cons e rest ih =>
    intro seen
    by_cases hk : edgeKey e ∈ seen
    · rw [show dedupFirst (e :: rest) seen = dedupFirst rest seen by
        rw [dedupFirst, if_pos hk]]
      exact (ih seen).cons e
    · rw [show dedupFirst (e :: rest) seen =
          e :: dedupFirst rest (edgeKey e :: seen) by
        rw [dedupFirst, if_neg hk]]
      exact (ih _).cons₂ e

theorem dedupFirst_keys (l : List (Nat × Nat × W)) :
    ∀ seen, ((dedupFirst l seen).map edgeKey).Nodup ∧
      ∀ k ∈ (dedupFirst l seen).map edgeKey, k ∉ seen := by
  induction l with
  | nil => intro seen; simp [dedupFirst]
  | cons e rest ih =>
    intro seen
    by_cases hk : edgeKey e ∈ seen
    · rw [show dedupFirst (e :: rest) seen = dedupFirst rest seen by
        rw [dedupFirst, if_pos hk]]
      exact ih seen
    · rw [show dedupFirst (e :: rest) seen =
          e :: dedupFirst rest (edgeKey e :: seen) by
        rw [dedupFirst, if_neg hk]]
      obtain ⟨hnodup, hnotin⟩ := ih (edgeKey e :: seen)
      rw [List.map_cons]
      constructor
      · rw [List.nodup_cons]
        refine ⟨fun hmem => ?_, hnodup⟩
        exact hnotin _ hmem (List.mem_cons_self _ _)
      · intro k hkmem
        rcases List.mem_cons.mp hkmem with rfl | hkmem
        · exact hk
        · exact fun hin => hnotin k hkmem (List.mem_cons_of_mem _ hin)

theorem dedupFirst_complete (l : List (Nat × Nat × W)) :
    ∀ seen, ∀ e ∈ l, edgeKey e ∉ seen →
      ∃ e' ∈ dedupFirst l seen, edgeKey e' = edgeKey e := by
  induction l with
  | nil => intro seen e he; exact absurd he (List.not_mem_nil e)
  | cons e0 rest ih =>
    intro seen e he hkey
    by_cases hk : edgeKey e0 ∈ seen
    · rw [show dedupFirst (e0 :: rest) seen = dedupFirst rest seen by
        rw [dedupFirst, if_pos hk]]
      rcases List.mem_cons.mp he with rfl | he
      · exact absurd hk hkey
      · exact ih seen e he hkey
    · rw [show dedupFirst (e0 :: rest) seen =
          e0 :: dedupFirst rest (edgeKey e0 :: seen) by
        rw [dedupFirst, if_neg hk]]
      rcases List.mem_cons.mp he with rfl | he
      · exact ⟨e, List.mem_cons_self _ _, rfl⟩
      · by_cases heq : edgeKey e = edgeKey e0
        · exact ⟨e0, List.mem_cons_self _ _, heq.symm⟩
        · obtain ⟨e', he', hk'⟩ := ih (edgeKey e0 :: seen) e he
            (by simp [heq, hkey])
          exact ⟨e', List.mem_cons_of_mem _ he', hk'⟩

theorem dedupFirst_first_occurrence (l : List (Nat × Nat × W)) :
    ∀ seen, ∀ e ∈ dedupFirst l seen,
      ∃ l1 l2, l = l1 ++ e :: l2 ∧ (∀ e' ∈ l1, edgeKey e' ≠ edgeKey e) ∧
        edgeKey e ∉ seen := by
  induction l with
  | nil => intro seen e he; simp [dedupFirst] at he
  | cons e0 rest ih =>
    intro seen e he
    by_cases hk : edgeKey e0 ∈ seen
    · rw [show dedupFirst (e0 :: rest) seen = dedupFirst rest seen by
        rw [dedupFirst, if_pos hk]] at he
      obtain ⟨l1, l2, hsplit, hne, hnotseen⟩ := ih seen e he
      refine ⟨e0 :: l1, l2, by rw [hsplit, List.cons_append], ?_, hnotseen⟩
      intro e' he'
      rcases List.mem_cons.mp he' with rfl | he'
      · intro hcontra
        exact hnotseen (hcontra ▸ hk)
      · exact hne e' he'
    · rw [show dedupFirst (e0 :: rest) seen =
          e0 :: dedupFirst rest (edgeKey e0 :: seen) by
        rw [dedupFirst, if_neg hk]] at he
      rcases List.mem_cons.mp he with rfl | he
      · exact ⟨[], rest, rfl, by simp, hk⟩
      · obtain ⟨l1, l2, hsplit, hne, hnotseen⟩ := ih (edgeKey e0 :: seen) e he
        have hke0 : edgeKey e ≠ edgeKey e0 := by
          intro hcontra
          exact hnotseen (by rw [hcontra]; exact List.mem_cons_self _ _)
        refine ⟨e0 :: l1, l2, by rw [hsplit, List.cons_append], ?_, ?_⟩
        · intro e' he'
          rcases List.mem_cons.mp he' with rfl | he'
          · exact fun h => hke0 h.symm
          · exact hne e' he'
        · exact fun h => hnotseen (List.mem_cons_of_mem _ h)

/-- C6 (confirmed): `kruskal_from_graph` converts the adjacency structure
to the normalized candidate stream, keeps exactly one `(u, v, weight)`
triple per unordered pair — the first occurrence in iteration order, any
later occurrence (even with a different weight) being dropped — and runs
`kruskal` on that deduplicated list. -/
theorem kruskal_from_graph_dedup [LinearOrder W] [AddCommGroup W]
    (g : WGraph W) (V : Nat) :
    kruskal_from_graph g V = kruskal (dedupFirst (flatEdges g) []) V ∧
    List.Sublist (dedupFirst (flatEdges g) []) (flatEdges g) ∧
    ((dedupFirst (flatEdges g) []).map edgeKey).Nodup ∧
    (∀ e ∈ flatEdges g, ∃ e' ∈ dedupFirst (flatEdges g) [],
      edgeKey e' = edgeKey e) ∧
    (∀ e ∈ dedupFirst (flatEdges g) [], ∃ l1 l2, flatEdges g = l1 ++ e :: l2 ∧
      ∀ e' ∈ l1, edgeKey e' ≠ edgeKey e) := by
  refine ⟨?_, dedupFirst_sublist _ _, (dedupFirst_keys _ _).1, ?_, ?_⟩
  · show kruskal (graphToEdges g) V = _
    rw [graphToEdges_eq_dedupFirst]
  · intro e he
    exact dedupFirst_complete _ [] e he (List.not_mem_nil _)
  · intro e he
    obtain ⟨l1, l2, hsplit, hne, _⟩ := dedupFirst_first_occurrence _ [] e he
    exact ⟨l1, l2, hsplit, hne⟩

theorem kruskal_from_graph_dedup_witness :
    ∃ l1 l2, flatEdges [(0, [(1, (5 : ℤ))]), (1, [(0, 7)])] =
      l1 ++ (0, 1, (5 : ℤ)) :: l2 ∧
      ∀ e' ∈ l1, edgeKey e' ≠ edgeKey (0, 1, (5 : ℤ)) :=
  (kruskal_from_graph_dedup [(0, [(1, (5 : ℤ))]), (1, [(0, 7)])] 2).2.2.2.2
    (0, 1, (5 : ℤ)) (by decide)

theorem union_find_invariants_witness :
    (UnionFind.union
      (UnionFind.applyOps (UnionFind.make 3) []) 0 1).2 = true ∧
    (UnionFind.connected
      (UnionFind.applyOps
        (UnionFind.union (UnionFind.applyOps (UnionFind.make 3) []) 0 1).1
        [UnionFind.UFOp.unionOp 1 2]) 0 1).2 = true :=
  ⟨by decide,
    (union_find_invariants 3 [] trivial).2.2 0 1 (by decide) (by decide)
      (by decide) [UnionFind.UFOp.unionOp 1 2] (by decide)⟩

/-! ## Claim C7: iterative DFS = recursive DFS -/

theorem dfsLoop_nil (g : UGraph) (fuel : Nat) (visited order : List Nat) :
    dfsLoop g fuel [] visited order = (order, visited) := by
  cases fuel <;> rfl

theorem dfsLoop_cons (g : UGraph) (fuel : Nat) (n : Nat) (stack visited order : List Nat) :
    dfsLoop g (fuel + 1) (n :: stack) visited order =
      if n ∈ visited then dfsLoop g fuel stack visited order
      else if hasKey g n then
        dfsLoop g fuel (((adjList g n).filter (fun m => m ∉ visited ++ [n])) ++ stack)
          (visited ++ [n]) (order ++ [n])
      else dfsLoop g fuel stack (visited ++ [n]) (order ++ [n]) := rfl

theorem dfsRecNbrsF_cons (next : Nat → List Nat → List Nat × List Nat)
    (n : Nat) (rest visited : List Nat) :
    dfsRecNbrsF next (n :: rest) visited =
      if n ∈ visited then dfsRecNbrsF next rest visited
      else ((next n visited).1 ++ (dfsRecNbrsF next rest (next n visited).2).1,
            (dfsRecNbrsF next rest (next n visited).2).2) := rfl

theorem dfsRec_succ (g : UGraph) (fuel start : Nat) (visited : List Nat) :
    dfsRec g (fuel + 1) start visited =
      if hasKey g start then
        (start :: (dfsRecNbrsF (dfsRec g fuel) (adjList g start) (visited ++ [start])).1,
          (dfsRecNbrsF (dfsRec g fuel) (adjList g start) (visited ++ [start])).2)
      else ([start], visited ++ [start]) := rfl

theorem mem_nodePool_of_hasKey (g : UGraph) (u : Nat) (h : hasKey g u = true) :
    u ∈ nodePool g := by
  simp only [hasKey, List.any_eq_true, beq_iff_eq] at h
  obtain ⟨p, hp, hpu⟩ := h
  simp only [nodePool, List.mem_flatMap]
  exact ⟨p, hp, by rw [hpu]; exact List.mem_cons_self _ _⟩

theorem mem_nodePool_of_mem_adjList (g : UGraph) (u x : Nat) (h : x ∈ adjList g u) :
    x ∈ nodePool g := by
  unfold adjList adjOf at h
  cases hfind : g.find? (fun p => p.1 == u) with
  | none => rw [hfind] at h; simp at h
  | some p =>
    rw [hfind] at h
    simp only [Option.map, Option.getD_some] at h
    simp only [nodePool, List.mem_flatMap]
    exact ⟨p, List.mem_of_find?_eq_some hfind, List.mem_cons_of_mem _ h⟩

theorem sdiff_toFinset_append (univ visited : List Nat) (n : Nat) :
    univ.toFinset \ (visited ++ [n]).toFinset =
      (univ.toFinset \ visited.toFinset).erase n := by
  ext x
  simp only [Finset.mem_sdiff, Finset.mem_erase, List.mem_toFinset, List.mem_append,
    List.mem_singleton]
  tauto

theorem dfsMeasure_visit (g : UGraph) (univ stack visited : List Nat) (n : Nat)
    (hn : n ∈ univ) (hnv : n ∉ visited) (push : List Nat)
    (hpush : push.length ≤ (adjList g n).length) :
    dfsMeasure g univ (push ++ stack) (visited ++ [n]) + 2 ≤
      dfsMeasure g univ (n :: stack) visited := by
  have hnS : n ∈ univ.toFinset \ visited.toFinset := by
    simp only [Finset.mem_sdiff, List.mem_toFinset]
    exact ⟨hn, hnv⟩
  have hsum : Finset.sum ((univ.toFinset \ visited.toFinset).erase n)
        (fun u => 1 + (adjList g u).length) + (1 + (adjList g n).length) =
      Finset.sum (univ.toFinset \ visited.toFinset)
        (fun u => 1 + (adjList g u).length) :=
    Finset.sum_erase_add _ _ hnS
  simp only [dfsMeasure, sdiff_toFinset_append, List.length_append, List.length_cons]
  omega

theorem dfsMeasure_visit_out (g : UGraph) (univ stack visited : List Nat) (n : Nat) :
    dfsMeasure g univ stack (visited ++ [n]) + 1 ≤
      dfsMeasure g univ (n :: stack) visited := by
  have hsub : univ.toFinset \ (visited ++ [n]).toFinset ⊆
      univ.toFinset \ visited.toFinset := by
    rw [sdiff_toFinset_append]; exact Finset.erase_subset _ _
  have hsum : Finset.sum (univ.toFinset \ (visited ++ [n]).toFinset)
      (fun u => 1 + (adjList g u).length) ≤
      Finset.sum (univ.toFinset \ visited.toFinset)
      (fun u => 1 + (adjList g u).length) :=
    Finset.sum_le_sum_of_subset hsub
  simp only [dfsMeasure, List.length_cons]
  omega

theorem dfsLoop_congr (g : UGraph) (univ : List Nat)
    (hkeys : ∀ u, hasKey g u = true → u ∈ univ) :
    ∀ fuel1 fuel2 stack visited order,
      dfsMeasure g univ stack visited ≤ fuel1 →
      dfsMeasure g univ stack visited ≤ fuel2 →
      dfsLoop g fuel1 stack visited order = dfsLoop g fuel2 stack visited order := by
  intro fuel1
  induction fuel1 with
  | zero =>
    intro fuel2 stack visited order h1 h2
    cases stack with
    | nil => rw [dfsLoop_nil, dfsLoop_nil]
    | cons n rest =>
      exfalso
      simp only [dfsMeasure, List.length_cons] at h1
      omega
  | succ f1 ih =>
    intro fuel2 stack visited order h1 h2
    cases stack with
    | nil => rw [dfsLoop_nil, dfsLoop_nil]
    | cons n rest =>
      have hm : 1 ≤ dfsMeasure g univ (n :: rest) visited := by
        simp only [dfsMeasure, List.length_cons]; omega
      obtain ⟨f2, rfl⟩ : ∃ f2, fuel2 = f2 + 1 := ⟨fuel2 - 1, by omega⟩
      rw [dfsLoop_cons, dfsLoop_cons]
      by_cases hv : n ∈ visited
      · rw [if_pos hv, if_pos hv]
        have hms : dfsMeasure g univ rest visited + 1 =
            dfsMeasure g univ (n :: rest) visited := by
          simp only [dfsMeasure, List.length_cons]; omega
        exact ih f2 rest visited order (by omega) (by omega)
      · rw [if_neg hv, if_neg hv]
        by_cases hk : hasKey g n
        · rw [if_pos hk, if_pos hk]
          have hdec := dfsMeasure_visit g univ rest visited n (hkeys n hk) hv
            ((adjList g n).filter (fun m => m ∉ visited ++ [n]))
            (List.length_filter_le _ _)
          exact ih f2 _ _ _ (by omega) (by omega)
        · rw [if_neg hk, if_neg hk]
          have hdec := dfsMeasure_visit_out g univ rest visited n
          exact ih f2 _ _ _ (by omega) (by omega)

theorem dfsRecNbrsF_mono (next : Nat → List Nat → List Nat × List Nat)
    (hnext : ∀ a v x, x ∈ v → x ∈ (next a v).2) :
    ∀ l visited x, x ∈ visited → x ∈ (dfsRecNbrsF next l visited).2 := by
  intro l
  induction l with
  | nil => intro visited x hx; exact hx
  | cons n rest ih =>
    intro visited x hx
    rw [dfsRecNbrsF_cons]
    by_cases hv : n ∈ visited
    · rw [if_pos hv]; exact ih visited x hx
    · rw [if_neg hv]
      exact ih (next n visited).2 x (hnext n visited x hx)

theorem dfsRec_mono (g : UGraph) :
    ∀ fuel a visited x, x ∈ visited → x ∈ (dfsRec g fuel a visited).2 := by
  intro fuel
  induction fuel with
  | zero => intro a visited x hx; exact hx
  | succ f ih =>
    intro a visited x hx
    rw [dfsRec_succ]
    by_cases hk : hasKey g a
    · rw [if_pos hk]
      exact dfsRecNbrsF_mono (dfsRec g f) ih (adjList g a) (visited ++ [a]) x
        (List.mem_append.mpr (Or.inl hx))
    · rw [if_neg hk]
      exact List.mem_append.mpr (Or.inl hx)

theorem dfs_bridge (g : UGraph) (univ : List Nat)
    (hkeys : ∀ u, hasKey g u = true → u ∈ univ)
    (hadj : ∀ u x, x ∈ adjList g u → x ∈ univ) :
    ∀ K (l : List Nat), (∀ x ∈ l, x ∈ univ) →
      ∀ (V0 visited rest order : List Nat) (fuelI fuelN : Nat),
        (∀ x ∈ V0, x ∈ visited) →
        (univ.toFinset \ visited.toFinset).card ≤ K →
        dfsMeasure g univ ((l.filter (fun m => m ∉ V0)) ++ rest) visited ≤ fuelI →
        (univ.toFinset \ visited.toFinset).card ≤ fuelN →
        dfsLoop g fuelI ((l.filter (fun m => m ∉ V0)) ++ rest) visited order =
          dfsLoop g (dfsMeasure g univ rest (dfsRecNbrsF (dfsRec g fuelN) l visited).2)
            rest (dfsRecNbrsF (dfsRec g fuelN) l visited).2
            (order ++ (dfsRecNbrsF (dfsRec g fuelN) l visited).1) := by
  intro K
  induction K using Nat.strong_induction_on with
  | _ K ihK =>
  intro l
  induction l with
  | nil =>
    intro _hl V0 visited rest order fuelI fuelN _hV0 _hK hfI _hfN
    have hnb : dfsRecNbrsF (dfsRec g fuelN) [] visited = ([], visited) := rfl
    rw [hnb]
    simp only [List.filter_nil, List.nil_append] at hfI ⊢
    rw [List.append_nil]
    exact dfsLoop_congr g univ hkeys fuelI _ rest visited order hfI le_rfl
  | cons n l0 ihl =>
    intro hl V0 visited rest order fuelI fuelN hV0 hK hfI hfN
    by_cases hnV0 : n ∈ V0
    · have hnv : n ∈ visited := hV0 n hnV0
      have hfilter : (n :: l0).filter (fun m => m ∉ V0) = l0.filter (fun m => m ∉ V0) := by
        simp [List.filter_cons, hnV0]
      rw [hfilter] at hfI ⊢
      rw [dfsRecNbrsF_cons, if_pos hnv]
      exact ihl (fun x hx => hl x (List.mem_cons_of_mem _ hx)) V0 visited rest order
        fuelI fuelN hV0 hK hfI hfN
    · have hfilter : (n :: l0).filter (fun m => m ∉ V0) ++ rest =
          n :: (l0.filter (fun m => m ∉ V0) ++ rest) := by
        simp [List.filter_cons, hnV0]
      rw [hfilter] at hfI ⊢
      have hm1 : 1 ≤ dfsMeasure g univ (n :: (l0.filter (fun m => m ∉ V0) ++ rest)) visited := by
        simp only [dfsMeasure, List.length_cons]; omega
      obtain ⟨fI, rfl⟩ : ∃ fI, fuelI = fI + 1 := ⟨fuelI - 1, by omega⟩
      rw [dfsLoop_cons]
      by_cases hnv : n ∈ visited
      · rw [if_pos hnv, dfsRecNbrsF_cons, if_pos hnv]
        have hms : dfsMeasure g univ (l0.filter (fun m => m ∉ V0) ++ rest) visited + 1 =
            dfsMeasure g univ (n :: (l0.filter (fun m => m ∉ V0) ++ rest)) visited := by
          simp only [dfsMeasure, List.length_cons]; omega
        exact ihl (fun x hx => hl x (List.mem_cons_of_mem _ hx)) V0 visited rest order
          fI fuelN hV0 hK (by omega) hfN
      · rw [if_neg hnv]
        have hnU : n ∈ univ := hl n (List.mem_cons_self _ _)
        have hnS : n ∈ univ.toFinset \ visited.toFinset := by
          simp only [Finset.mem_sdiff, List.mem_toFinset]; exact ⟨hnU, hnv⟩
        have hpos : 1 ≤ (univ.toFinset \ visited.toFinset).card :=
          Finset.card_pos.mpr ⟨n, hnS⟩
        obtain ⟨fN, rfl⟩ : ∃ fN, fuelN = fN + 1 := ⟨fuelN - 1, by omega⟩
        have hcard : (univ.toFinset \ (visited ++ [n]).toFinset).card + 1 =
            (univ.toFinset \ visited.toFinset).card := by
          rw [sdiff_toFinset_append, Finset.card_erase_of_mem hnS]
          omega
        by_cases hk : hasKey g n
        · rw [if_pos hk]
          have hmono1 : ∀ x ∈ visited ++ [n],
              x ∈ (dfsRecNbrsF (dfsRec g fN) (adjList g n) (visited ++ [n])).2 :=
            fun x hx => dfsRecNbrsF_mono (dfsRec g fN) (dfsRec_mono g fN) _ _ x hx
          have hsub1 : univ.toFinset \
                (dfsRecNbrsF (dfsRec g fN) (adjList g n) (visited ++ [n])).2.toFinset ⊆
              univ.toFinset \ (visited ++ [n]).toFinset := by
            intro x hx
            simp only [Finset.mem_sdiff, List.mem_toFinset] at hx ⊢
            exact ⟨hx.1, fun hxv => hx.2 (hmono1 x hxv)⟩
          have hcard1 := Finset.card_le_card hsub1
          have hdec := dfsMeasure_visit g univ (l0.filter (fun m => m ∉ V0) ++ rest)
            visited n hnU hnv ((adjList g n).filter (fun m => m ∉ visited ++ [n]))
            (List.length_filter_le _ _)
          have hstep1 := ihK ((univ.toFinset \ visited.toFinset).card - 1) (by omega)
            (adjList g n) (fun x hx => hadj n x hx)
            (visited ++ [n]) (visited ++ [n]) (l0.filter (fun m => m ∉ V0) ++ rest)
            (order ++ [n]) fI fN
            (fun x hx => hx) (by omega) (by omega) (by omega)
          have hstep2 := ihK ((univ.toFinset \ visited.toFinset).card - 1) (by omega)
            l0 (fun x hx => hl x (List.mem_cons_of_mem _ hx))
            V0 (dfsRecNbrsF (dfsRec g fN) (adjList g n) (visited ++ [n])).2 rest
            ((order ++ [n]) ++ (dfsRecNbrsF (dfsRec g fN) (adjList g n) (visited ++ [n])).1)
            (dfsMeasure g univ (l0.filter (fun m => m ∉ V0) ++ rest)
              (dfsRecNbrsF (dfsRec g fN) (adjList g n) (visited ++ [n])).2)
            (fN + 1)
            (fun x hx => hmono1 x (List.mem_append.mpr (Or.inl (hV0 x hx))))
            (by omega) le_rfl (by omega)
          have hnext : dfsRec g (fN + 1) n visited =
              (n :: (dfsRecNbrsF (dfsRec g fN) (adjList g n) (visited ++ [n])).1,
               (dfsRecNbrsF (dfsRec g fN) (adjList g n) (visited ++ [n])).2) := by
            rw [dfsRec_succ, if_pos hk]
          have hnb : dfsRecNbrsF (dfsRec g (fN + 1)) (n :: l0) visited =
              ((n :: (dfsRecNbrsF (dfsRec g fN) (adjList g n) (visited ++ [n])).1) ++
                  (dfsRecNbrsF (dfsRec g (fN + 1)) l0
                    (dfsRecNbrsF (dfsRec g fN) (adjList g n) (visited ++ [n])).2).1,
               (dfsRecNbrsF (dfsRec g (fN + 1)) l0
                  (dfsRecNbrsF (dfsRec g fN) (adjList g n) (visited ++ [n])).2).2) := by
            rw [dfsRecNbrsF_cons, if_neg hnv, hnext]
          rw [hnb]
          refine hstep1.trans (hstep2.trans ?_)
          show dfsLoop g _ rest _
              ((((order ++ [n]) ++
                (dfsRecNbrsF (dfsRec g fN) (adjList g n) (visited ++ [n])).1) ++
                (dfsRecNbrsF (dfsRec g (fN + 1)) l0
                  (dfsRecNbrsF (dfsRec g fN) (adjList g n) (visited ++ [n])).2).1)) =
            dfsLoop g _ rest _ _
          have horder :
              (((order ++ [n]) ++
                (dfsRecNbrsF (dfsRec g fN) (adjList g n) (visited ++ [n])).1) ++
                (dfsRecNbrsF (dfsRec g (fN + 1)) l0
                  (dfsRecNbrsF (dfsRec g fN) (adjList g n) (visited ++ [n])).2).1) =
              order ++ ((n :: (dfsRecNbrsF (dfsRec g fN) (adjList g n) (visited ++ [n])).1) ++
                (dfsRecNbrsF (dfsRec g (fN + 1)) l0
                  (dfsRecNbrsF (dfsRec g fN) (adjList g n) (visited ++ [n])).2).1) := by
            simp [List.append_assoc]
          rw [horder]
        · rw [if_neg hk]
          have hnext : dfsRec g (fN + 1) n visited = ([n], visited ++ [n]) := by
            rw [dfsRec_succ, if_neg hk]
          have hdec := dfsMeasure_visit_out g univ
            (l0.filter (fun m => m ∉ V0) ++ rest) visited n
          have hstep2 := ihK ((univ.toFinset \ visited.toFinset).card - 1) (by omega)
            l0 (fun x hx => hl x (List.mem_cons_of_mem _ hx))
            V0 (visited ++ [n]) rest (order ++ [n]) fI (fN + 1)
            (fun x hx => List.mem_append.mpr (Or.inl (hV0 x hx)))
            (by omega) (by omega) (by omega)
          have hnb : dfsRecNbrsF (dfsRec g (fN + 1)) (n :: l0) visited =
              ([n] ++ (dfsRecNbrsF (dfsRec g (fN + 1)) l0 (visited ++ [n])).1,
               (dfsRecNbrsF (dfsRec g (fN + 1)) l0 (visited ++ [n])).2) := by
            rw [dfsRecNbrsF_cons, if_neg hnv, hnext]
          rw [hnb]
          refine hstep2.trans ?_
          show dfsLoop g _ rest _
              ((order ++ [n]) ++ (dfsRecNbrsF (dfsRec g (fN + 1)) l0 (visited ++ [n])).1) =
            dfsLoop g _ rest _ _
          have horder :
              ((order ++ [n]) ++ (dfsRecNbrsF (dfsRec g (fN + 1)) l0 (visited ++ [n])).1) =
              order ++ ([n] ++ (dfsRecNbrsF (dfsRec g (fN + 1)) l0 (visited ++ [n])).1) := by
            simp [List.append_assoc]
          rw [horder]

theorem toFinset_sum_le_map_sum (l : List Nat) (f : Nat → Nat) :
    Finset.sum l.toFinset f ≤ (l.map f).sum := by
  induction l with
  | nil => simp
  | cons a t ih =>
    simp only [List.toFinset_cons, List.map_cons, List.sum_cons]
    by_cases ha : a ∈ t.toFinset
    · rw [Finset.insert_eq_self.mpr ha]
      exact le_trans ih (Nat.le_add_left _ _)
    · rw [Finset.sum_insert ha]
      exact Nat.add_le_add_left ih _

/-- C7 (confirmed): for every adjacency graph and every start node, the
visit order produced by the iterative `dfs` (explicit stack, neighbors
pushed in reverse adjacency order, visited checked at pop time) equals
the visit order produced by `dfs_recursive` on the same graph and
start. -/
theorem dfs_iterative_eq_recursive (g : UGraph) (start : Nat) :
    (dfs g start).order = dfs_recursive g start := by
  have hkeys : ∀ u, hasKey g u = true → u ∈ start :: nodePool g :=
    fun u h => List.mem_cons_of_mem _ (mem_nodePool_of_hasKey g u h)
  have hadj : ∀ u x, x ∈ adjList g u → x ∈ start :: nodePool g :=
    fun u x hx => List.mem_cons_of_mem _ (mem_nodePool_of_mem_adjList g u x hx)
  have hsum := toFinset_sum_le_map_sum (start :: nodePool g)
    (fun u => 1 + (adjList g u).length)
  have hcardlen := List.toFinset_card_le (start :: nodePool g)
  have hfil : ([start].filter (fun m => m ∉ ([] : List Nat))) ++ ([] : List Nat) =
      [start] := by simp
  have hbridge := dfs_bridge g (start :: nodePool g) hkeys hadj
    (start :: nodePool g).toFinset.card [start]
    (fun x hx => by rw [List.mem_singleton] at hx; rw [hx]; exact List.mem_cons_self _ _)
    [] [] [] []
    (1 + ((start :: nodePool g).map (fun u => 1 + (adjList g u).length)).sum)
    (1 + (start :: nodePool g).length)
    (fun x hx => absurd hx (List.not_mem_nil x))
    (by simp)
    (by
      rw [hfil]
      simp only [dfsMeasure, List.toFinset_nil, Finset.sdiff_empty, List.length_singleton]
      omega)
    (by simp only [List.toFinset_nil, Finset.sdiff_empty]; omega)
  rw [hfil, dfsLoop_nil] at hbridge
  have horder : (dfs g start).order =
      (dfsLoop g (1 + ((start :: nodePool g).map (fun u => 1 + (adjList g u).length)).sum)
        [start] [] []).1 := rfl
  rw [horder, hbridge]
  show [] ++ (dfsRecNbrsF (dfsRec g (1 + (start :: nodePool g).length)) [start] []).1 =
    dfs_recursive g start
  rw [List.nil_append, dfsRecNbrsF_cons, if_neg (List.not_mem_nil start)]
  show (dfsRec g (1 + (start :: nodePool g).length) start []).1 ++
      (dfsRecNbrsF (dfsRec g (1 + (start :: nodePool g).length)) []
        (dfsRec g (1 + (start :: nodePool g).length) start []).2).1 =
    dfs_recursive g start
  rw [show (dfsRecNbrsF (dfsRec g (1 + (start :: nodePool g).length)) []
        (dfsRec g (1 + (start :: nodePool g).length) start []).2).1 = [] from rfl]
  rw [List.append_nil]
  rfl

/-! ## Claim C2: Bellman-Ford negative-cycle detection -/

theorem walkWeight_nil [AddCommGroup W] : walkWeight ([] : List (Nat × W)) = 0 := rfl

theorem walkWeight_cons [AddCommGroup W] (n : Nat) (w : W) (rest : List (Nat × W)) :
    walkWeight ((n, w) :: rest) = w + walkWeight rest := by
  simp [walkWeight]

theorem walkWeight_append [AddCommGroup W] (A B : List (Nat × W)) :
    walkWeight (A ++ B) = walkWeight A + walkWeight B := by
  simp [walkWeight]

theorem isWalkFrom_append {g : WGraph W} :
    ∀ (A : List (Nat × W)) (s m u : Nat) (B : List (Nat × W)),
      IsWalkFrom g s A m → IsWalkFrom g m B u → IsWalkFrom g s (A ++ B) u := by
  intro A
  induction A with
  | nil =>
    intro s m u B h1 h2
    have hs : s = m := h1
    rw [List.nil_append, hs]
    exact h2
  | cons e rest ih =>
    intro s m u B h1 h2
    obtain ⟨n, w⟩ := e
    obtain ⟨he, hw⟩ := h1
    exact ⟨he, ih n m u B hw h2⟩

theorem mem_of_mem_adjList {g : List (Nat × List α)} {u : Nat} {x : α}
    (h : x ∈ adjList g u) : ∃ p ∈ g, p.1 = u ∧ x ∈ p.2 := by
  unfold adjList adjOf at h
  cases hfind : g.find? (fun p => p.1 == u) with
  | none => rw [hfind] at h; simp at h
  | some p =>
    rw [hfind] at h
    simp only [Option.map, Option.getD_some] at h
    have hp := List.mem_of_find?_eq_some hfind
    have hpu := List.find?_some hfind
    exact ⟨p, hp, by simpa using hpu, h⟩

theorem adjList_eq_of_mem_nodup {g : List (Nat × List α)} :
    (g.map Prod.fst).Nodup → ∀ {node : Nat} {adj : List α},
      (node, adj) ∈ g → adjList g node = adj := by
  induction g with
  | nil => intro _ node adj h; cases h
  | cons p rest ih =>
    intro hnodup node adj h
    obtain ⟨k, v⟩ := p
    rw [List.map_cons] at hnodup
    obtain ⟨hp1, hrest⟩ := List.nodup_cons.mp hnodup
    cases List.mem_cons.mp h with
    | inl heq =>
      rw [adjList_cons]
      have hk : k = node := by rw [Prod.mk.injEq] at heq; exact heq.1.symm
      rw [if_pos hk]
      rw [Prod.mk.injEq] at heq
      exact heq.2.symm
    | inr hmem =>
      have hne : k ≠ node := by
        intro hcontra
        apply hp1
        rw [hcontra]
        exact List.mem_map.mpr ⟨(node, adj), hmem, rfl⟩
      rw [adjList_cons, if_neg hne]
      exact ih hrest hmem

theorem walk_targets_lt {g : WGraph W} {V : Nat}
    (hkeys : ∀ p ∈ g, p.1 < V ∧ ∀ e ∈ p.2, e.1 < V) :
    ∀ (steps : List (Nat × W)) (s u : Nat), IsWalkFrom g s steps u →
      ∀ x ∈ steps.map Prod.fst, x < V := by
  intro steps
  induction steps with
  | nil => intro s u _ x hx; simp at hx
  | cons e rest ih =>
    intro s u hw x hx
    obtain ⟨n, w⟩ := e
    obtain ⟨he, hrest⟩ := hw
    rw [List.map_cons, List.mem_cons] at hx
    cases hx with
    | inl heq =>
      obtain ⟨p, hp, _hp1, hx2⟩ := mem_of_mem_adjList he
      rw [heq]
      exact (hkeys p hp).2 (n, w) hx2
    | inr hmem => exact ih n u hrest x hmem

theorem list_pigeonhole {l : List Nat} {V : Nat} (hlen : V < l.length)
    (hmem : ∀ x ∈ l, x < V) : ¬ l.Nodup := by
  intro hnodup
  have hsub : l.toFinset ⊆ Finset.range V := by
    intro x hx
    rw [Finset.mem_range]
    exact hmem x (List.mem_toFinset.mp hx)
  have hcard := Finset.card_le_card hsub
  rw [Finset.card_range, List.toFinset_card_of_nodup hnodup] at hcard
  omega

theorem isWalkFrom_split_target {g : WGraph W} :
    ∀ (steps : List (Nat × W)) (s u x : Nat),
      IsWalkFrom g s steps u → x ∈ steps.map Prod.fst →
      ∃ A B, steps = A ++ B ∧ A ≠ [] ∧ IsWalkFrom g s A x ∧ IsWalkFrom g x B u := by
  intro steps
  induction steps with
  | nil => intro s u x _ hx; simp at hx
  | cons e rest ih =>
    intro s u x hw hx
    obtain ⟨n, w⟩ := e
    obtain ⟨he, hrest⟩ := hw
    rw [List.map_cons, List.mem_cons] at hx
    cases hx with
    | inl heq =>
      exact ⟨[(n, w)], rest, rfl, by simp, ⟨he, heq.symm⟩, by rw [heq]; exact hrest⟩
    | inr hmem =>
      obtain ⟨A, B, hsplit, hA, hwA, hwB⟩ := ih n u x hrest hmem
      exact ⟨(n, w) :: A, B, by rw [hsplit]; rfl, by simp, ⟨he, hwA⟩, hwB⟩

theorem isWalkFrom_find_cycle {g : WGraph W} :
    ∀ (steps : List (Nat × W)) (s u : Nat),
      IsWalkFrom g s steps u → ¬(s :: steps.map Prod.fst).Nodup →
      ∃ y A C B, steps = A ++ C ++ B ∧ C ≠ [] ∧
        IsWalkFrom g s A y ∧ IsWalkFrom g y C y ∧ IsWalkFrom g y B u := by
  intro steps
  induction steps with
  | nil =>
    intro s u _ hnd
    exact absurd (by simp) hnd
  | cons e rest ih =>
    intro s u hw hnd
    obtain ⟨n, w⟩ := e
    obtain ⟨he, hrest⟩ := hw
    by_cases hs : s ∈ ((n, w) :: rest).map Prod.fst
    · obtain ⟨A, B, hsplit, _hA, hwA, hwB⟩ :=
        isWalkFrom_split_target ((n, w) :: rest) s u s ⟨he, hrest⟩ hs
      exact ⟨s, [], A, B, by simpa using hsplit, _hA, rfl, hwA, hwB⟩
    · have hnd' : ¬(n :: rest.map Prod.fst).Nodup := by
        intro hcontra
        apply hnd
        rw [List.map_cons]
        exact List.nodup_cons.mpr ⟨by simpa using hs, hcontra⟩
      obtain ⟨y, A, C, B, hsplit, hC, hwA, hwC, hwB⟩ := ih n u hrest hnd'
      exact ⟨y, (n, w) :: A, C, B, by rw [hsplit]; rfl, hC, ⟨he, hwA⟩, hwC, hwB⟩

theorem isWalkFrom_snoc {g : WGraph W} :
    ∀ (pre : List (Nat × W)) (s u : Nat) (e : Nat × W),
      IsWalkFrom g s (pre ++ [e]) u →
      ∃ m, IsWalkFrom g s pre m ∧ e ∈ adjList g m ∧ u = e.1 := by
  intro pre
  induction pre with
  | nil =>
    intro s u e h
    obtain ⟨n, w⟩ := e
    obtain ⟨he, hrest⟩ := h
    exact ⟨s, rfl, he, hrest.symm⟩
  | cons e0 rest ih =>
    intro s u e h
    obtain ⟨n0, w0⟩ := e0
    obtain ⟨he0, hw⟩ := h
    obtain ⟨m, hpre, hmem, hu⟩ := ih n0 u e hw
    exact ⟨m, ⟨he0, hpre⟩, hmem, hu⟩

theorem bfRelaxAdj_cons [LinearOrder W] [AddCommGroup W] (node nb : Nat) (w : W)
    (rest : List (Nat × W)) (dist : Nat → WithTop W) (par : Nat → Option Nat) (upd : Bool) :
    bfRelaxAdj node ((nb, w) :: rest) dist par upd =
      if dist node + (w : WithTop W) < dist nb then
        bfRelaxAdj node rest (Function.update dist nb (dist node + (w : WithTop W)))
          (Function.update par nb (some node)) true
      else bfRelaxAdj node rest dist par upd := rfl

theorem bfPass_cons [LinearOrder W] [AddCommGroup W] (V start node : Nat)
    (adj : List (Nat × W)) (rest : List (Nat × List (Nat × W)))
    (dist : Nat → WithTop W) (par : Nat → Option Nat) (upd : Bool) :
    bfPass V start ((node, adj) :: rest) dist par upd =
      if (node < V ∨ node = start) ∧ dist node ≠ ⊤ then
        bfPass V start rest (bfRelaxAdj node adj dist par upd).1
          (bfRelaxAdj node adj dist par upd).2.1 (bfRelaxAdj node adj dist par upd).2.2
      else bfPass V start rest dist par upd := rfl

theorem bfLoop_succ [LinearOrder W] [AddCommGroup W] (g : WGraph W) (V start k : Nat)
    (dist : Nat → WithTop W) (par : Nat → Option Nat) :
    bfLoop g V start (k + 1) dist par =
      if (bfPass V start g dist par false).2.2 then
        bfLoop g V start k (bfPass V start g dist par false).1
          (bfPass V start g dist par false).2.1
      else ((bfPass V start g dist par false).1, (bfPass V start g dist par false).2.1) := rfl

theorem fun_update_le [LinearOrderedAddCommGroup W] (f : Nat → WithTop W) (a : Nat)
    (v : WithTop W) (h : v ≤ f a) (u : Nat) : Function.update f a v u ≤ f u := by
  rw [Function.update_apply]
  split_ifs with hu
  · rw [hu]; exact h
  · exact le_rfl

theorem bfRelaxAdj_spec [LinearOrderedAddCommGroup W] (node : Nat) :
    ∀ (adj : List (Nat × W)) (dist : Nat → WithTop W) (par : Nat → Option Nat) (upd : Bool),
      (∀ u, (bfRelaxAdj node adj dist par upd).1 u ≤ dist u) ∧
      (∀ nb w, (nb, w) ∈ adj →
        (bfRelaxAdj node adj dist par upd).1 nb ≤ dist node + (w : WithTop W)) ∧
      ((bfRelaxAdj node adj dist par upd).2.2 = false →
        (bfRelaxAdj node adj dist par upd).1 = dist ∧ upd = false ∧
        ∀ nb w, (nb, w) ∈ adj → ¬(dist node + (w : WithTop W) < dist nb)) := by
  intro adj
  induction adj with
  | nil =>
    intro dist par upd
    exact ⟨fun u => le_rfl, fun nb w h => absurd h (List.not_mem_nil _),
      fun h => ⟨rfl, h, fun nb w hmem => absurd hmem (List.not_mem_nil _)⟩⟩
  | cons e rest ih =>
    intro dist par upd
    obtain ⟨nb0, w0⟩ := e
    rw [bfRelaxAdj_cons]
    by_cases hlt : dist node + (w0 : WithTop W) < dist nb0
    · rw [if_pos hlt]
      obtain ⟨iha, ihb, ihc⟩ := ih
        (Function.update dist nb0 (dist node + (w0 : WithTop W)))
        (Function.update par nb0 (some node)) true
      have hle : ∀ u, Function.update dist nb0 (dist node + (w0 : WithTop W)) u ≤ dist u :=
        fun_update_le dist nb0 _ (le_of_lt hlt)
      refine ⟨fun u => le_trans (iha u) (hle u), ?_, ?_⟩
      · intro nb w hmem
        rcases List.mem_cons.mp hmem with heq | hmem'
        · rw [Prod.mk.injEq] at heq
          obtain ⟨h1, h2⟩ := heq
          subst h1; subst h2
          refine le_trans (iha nb) ?_
          rw [Function.update_apply, if_pos rfl]
        · refine le_trans (ihb nb w hmem') ?_
          exact add_le_add_right (hle node) _
      · intro h
        exact absurd (ihc h).2.1 (by decide)
    · rw [if_neg hlt]
      obtain ⟨iha, ihb, ihc⟩ := ih dist par upd
      refine ⟨iha, ?_, ?_⟩
      · intro nb w hmem
        rcases List.mem_cons.mp hmem with heq | hmem'
        · rw [Prod.mk.injEq] at heq
          obtain ⟨h1, h2⟩ := heq
          subst h1; subst h2
          exact le_trans (iha nb) (not_lt.mp hlt)
        · exact ihb nb w hmem'
      · intro h
        obtain ⟨hd, hu, hstab⟩ := ihc h
        refine ⟨hd, hu, ?_⟩
        intro nb w hmem
        rcases List.mem_cons.mp hmem with heq | hmem'
        · rw [Prod.mk.injEq] at heq
          obtain ⟨h1, h2⟩ := heq
          subst h1; subst h2
          exact hlt
        · exact hstab nb w hmem'

theorem bfPass_spec [LinearOrderedAddCommGroup W] (V start : Nat) :
    ∀ (gl : List (Nat × List (Nat × W))) (dist : Nat → WithTop W)
      (par : Nat → Option Nat) (upd : Bool),
      (∀ u, (bfPass V start gl dist par upd).1 u ≤ dist u) ∧
      (∀ p ∈ gl, (p.1 < V ∨ p.1 = start) → ∀ nb w, (nb, w) ∈ p.2 →
        (bfPass V start gl dist par upd).1 nb ≤ dist p.1 + (w : WithTop W)) ∧
      ((bfPass V start gl dist par upd).2.2 = false →
        (bfPass V start gl dist par upd).1 = dist ∧ upd = false ∧
        ∀ p ∈ gl, ((p.1 < V ∨ p.1 = start) ∧ dist p.1 ≠ ⊤) →
          ∀ nb w, (nb, w) ∈ p.2 → ¬(dist p.1 + (w : WithTop W) < dist nb)) := by
  intro gl
  induction gl with
  | nil =>
    intro dist par upd
    exact ⟨fun u => le_rfl, fun p hp => absurd hp (List.not_mem_nil _),
      fun h => ⟨rfl, h, fun p hp => absurd hp (List.not_mem_nil _)⟩⟩
  | cons q rest ih =>
    intro dist par upd
    obtain ⟨node, adj⟩ := q
    rw [bfPass_cons]
    by_cases hguard : (node < V ∨ node = start) ∧ dist node ≠ ⊤
    · rw [if_pos hguard]
      obtain ⟨ra, rb, rc⟩ := bfRelaxAdj_spec node adj dist par upd
      obtain ⟨iha, ihb, ihc⟩ := ih (bfRelaxAdj node adj dist par upd).1
        (bfRelaxAdj node adj dist par upd).2.1 (bfRelaxAdj node adj dist par upd).2.2
      refine ⟨fun u => le_trans (iha u) (ra u), ?_, ?_⟩
      · intro p hp hkey nb w hmem
        rcases List.mem_cons.mp hp with heq | hp'
        · subst heq
          exact le_trans (iha nb) (rb nb w hmem)
        · exact le_trans (ihb p hp' hkey nb w hmem) (add_le_add_right (ra p.1) _)
      · intro h
        obtain ⟨hd, hu, hstab⟩ := ihc h
        obtain ⟨hd0, hu0, hstab0⟩ := rc hu
        refine ⟨by rw [hd, hd0], hu0, ?_⟩
        intro p hp hcond nb w hmem
        rcases List.mem_cons.mp hp with heq | hp'
        · subst heq
          exact hstab0 nb w hmem
        · have hres := hstab p hp' (by rw [hd0]; exact hcond) nb w hmem
          rw [hd0] at hres
          exact hres
    · rw [if_neg hguard]
      obtain ⟨iha, ihb, ihc⟩ := ih dist par upd
      refine ⟨iha, ?_, ?_⟩
      · intro p hp hkey nb w hmem
        rcases List.mem_cons.mp hp with heq | hp'
        · subst heq
          have hne : dist (node, adj).1 = ⊤ := by
            by_contra hne
            exact hguard ⟨hkey, hne⟩
          rw [hne, WithTop.top_add]
          exact le_top
        · exact ihb p hp' hkey nb w hmem
      · intro h
        obtain ⟨hd, hu, hstab⟩ := ihc h
        refine ⟨hd, hu, ?_⟩
        intro p hp hcond nb w hmem
        rcases List.mem_cons.mp hp with heq | hp'
        · subst heq
          exact absurd hcond hguard
        · exact hstab p hp' hcond nb w hmem

theorem bfLoop_mono [LinearOrderedAddCommGroup W] (g : WGraph W) (V start : Nat) :
    ∀ (k : Nat) (dist : Nat → WithTop W) (par : Nat → Option Nat) (u : Nat),
      (bfLoop g V start k dist par).1 u ≤ dist u := by
  intro k
  induction k with
  | zero => intro dist par u; exact le_rfl
  | succ k ih =>
    intro dist par u
    rw [bfLoop_succ]
    by_cases hupd : (bfPass V start g dist par false).2.2
    · rw [if_pos hupd]
      exact le_trans (ih _ _ u) ((bfPass_spec V start g dist par false).1 u)
    · rw [if_neg hupd]
      exact (bfPass_spec V start g dist par false).1 u

theorem bfPass_bound [LinearOrderedAddCommGroup W] (g : WGraph W) (V start : Nat)
    (hkeys : ∀ p ∈ g, p.1 < V ∧ ∀ e ∈ p.2, e.1 < V) (j : Nat)
    (dist : Nat → WithTop W) (par : Nat → Option Nat) (upd : Bool)
    (hbnd : ∀ u steps, IsWalkFrom g start steps u → steps.length ≤ j →
      dist u ≤ ((walkWeight steps : W) : WithTop W)) :
    ∀ u steps, IsWalkFrom g start steps u → steps.length ≤ j + 1 →
      (bfPass V start g dist par upd).1 u ≤ ((walkWeight steps : W) : WithTop W) := by
  intro u steps hw hlen
  by_cases hshort : steps.length ≤ j
  · exact le_trans ((bfPass_spec V start g dist par upd).1 u) (hbnd u steps hw hshort)
  · rcases List.eq_nil_or_concat steps with hnil | ⟨pre, e, hconcat⟩
    · exact absurd (by rw [hnil]; simp) hshort
    · rw [List.concat_eq_append] at hconcat
      subst hconcat
      obtain ⟨m, hpre, hmem, hu⟩ := isWalkFrom_snoc pre start u e hw
      have hlenpre : pre.length ≤ j := by
        rw [List.length_append] at hlen
        simp only [List.length_singleton] at hlen
        omega
      have hdm := hbnd m pre hpre hlenpre
      have hdmne : dist m ≠ ⊤ :=
        ne_top_of_lt (lt_of_le_of_lt hdm (WithTop.coe_lt_top _))
      obtain ⟨p, hp, hp1, hep⟩ := mem_of_mem_adjList hmem
      have hkey : p.1 < V := (hkeys p hp).1
      have hb := (bfPass_spec V start g dist par upd).2.1 p hp (Or.inl hkey) e.1 e.2 hep
      rw [hp1] at hb
      rw [hu]
      refine le_trans hb ?_
      have hstep : dist m + (e.2 : WithTop W) ≤
          ((walkWeight pre : W) : WithTop W) + (e.2 : WithTop W) :=
        add_le_add_right hdm _
      refine le_trans hstep ?_
      rw [← WithTop.coe_add, walkWeight_append, walkWeight_cons, walkWeight_nil, add_zero]

theorem bfImprovable_eq_false [LinearOrderedAddCommGroup W] (g : WGraph W) (V start : Nat)
    (dist : Nat → WithTop W)
    (h : ∀ p ∈ g, ((p.1 < V ∨ p.1 = start) ∧ dist p.1 ≠ ⊤) →
      ∀ nb w, (nb, w) ∈ p.2 → ¬(dist p.1 + (w : WithTop W) < dist nb)) :
    bfImprovable g V start dist = false := by
  by_contra hcontra
  have htrue : bfImprovable g V start dist = true := by
    cases hb : bfImprovable g V start dist
    · exact absurd hb hcontra
    · rfl
  unfold bfImprovable at htrue
  rw [List.any_eq_true] at htrue
  obtain ⟨p, hp, hpb⟩ := htrue
  rw [Bool.and_eq_true] at hpb
  obtain ⟨hg, hany⟩ := hpb
  rw [List.any_eq_true] at hany
  obtain ⟨e, he, himp⟩ := hany
  rw [decide_eq_true_eq] at hg himp
  exact h p hp hg e.1 e.2 he himp

theorem bfImprovable_elim [LinearOrderedAddCommGroup W] (g : WGraph W) (V start : Nat)
    (dist : Nat → WithTop W) (h : bfImprovable g V start dist = true) :
    ∃ p ∈ g, ((p.1 < V ∨ p.1 = start) ∧ dist p.1 ≠ ⊤) ∧
      ∃ e ∈ p.2, dist p.1 + (e.2 : WithTop W) < dist e.1 := by
  unfold bfImprovable at h
  rw [List.any_eq_true] at h
  obtain ⟨p, hp, hpb⟩ := h
  rw [Bool.and_eq_true] at hpb
  obtain ⟨hg, hany⟩ := hpb
  rw [List.any_eq_true] at hany
  obtain ⟨e, he, himp⟩ := hany
  rw [decide_eq_true_eq] at hg himp
  exact ⟨p, hp, hg, e, he, himp⟩

theorem bfLoop_spec [LinearOrderedAddCommGroup W] (g : WGraph W) (V start : Nat)
    (hkeys : ∀ p ∈ g, p.1 < V ∧ ∀ e ∈ p.2, e.1 < V) :
    ∀ (k j : Nat) (dist : Nat → WithTop W) (par : Nat → Option Nat),
      (∀ u steps, IsWalkFrom g start steps u → steps.length ≤ j →
        dist u ≤ ((walkWeight steps : W) : WithTop W)) →
      bfImprovable g V start (bfLoop g V start k dist par).1 = false ∨
      (∀ u steps, IsWalkFrom g start steps u → steps.length ≤ j + k →
        (bfLoop g V start k dist par).1 u ≤ ((walkWeight steps : W) : WithTop W)) := by
  intro k
  induction k with
  | zero =>
    intro j dist par hbnd
    right
    intro u steps hw hlen
    exact hbnd u steps hw (by omega)
  | succ k ih =>
    intro j dist par hbnd
    rw [bfLoop_succ]
    by_cases hupd : (bfPass V start g dist par false).2.2
    · rw [if_pos hupd]
      have hbnd1 := bfPass_bound g V start hkeys j dist par false hbnd
      rcases ih (j + 1) (bfPass V start g dist par false).1
        (bfPass V start g dist par false).2.1 hbnd1 with h | h
      · left; exact h
      · right
        intro u steps hw hlen
        exact h u steps hw (by omega)
    · rw [if_neg hupd]
      left
      have hfalse : (bfPass V start g dist par false).2.2 = false := by
        cases hb : (bfPass V start g dist par false).2.2
        · rfl
        · exact absurd hb hupd
      obtain ⟨hd, _hu, hstab⟩ := (bfPass_spec V start g dist par false).2.2 hfalse
      show bfImprovable g V start (bfPass V start g dist par false).1 = false
      rw [hd]
      exact bfImprovable_eq_false g V start dist hstab

theorem bfRelaxAdj_sound [LinearOrderedAddCommGroup W] (g : WGraph W) (start node : Nat) :
    ∀ (adj : List (Nat × W)) (dist : Nat → WithTop W) (par : Nat → Option Nat) (upd : Bool),
      (∀ e ∈ adj, e ∈ adjList g node) →
      (∀ u, dist u ≠ ⊤ → ∃ steps, IsWalkFrom g start steps u ∧
        dist u = ((walkWeight steps : W) : WithTop W)) →
      ∀ u, (bfRelaxAdj node adj dist par upd).1 u ≠ ⊤ →
        ∃ steps, IsWalkFrom g start steps u ∧
          (bfRelaxAdj node adj dist par upd).1 u = ((walkWeight steps : W) : WithTop W) := by
  intro adj
  induction adj with
  | nil => intro dist par upd _ hok u; exact hok u
  | cons e rest ih =>
    intro dist par upd hsub hok u
    obtain ⟨nb0, w0⟩ := e
    rw [bfRelaxAdj_cons]
    by_cases hlt : dist node + (w0 : WithTop W) < dist nb0
    · rw [if_pos hlt]
      refine ih _ _ _ (fun e he => hsub e (List.mem_cons_of_mem _ he)) ?_ u
      intro v hv
      rw [Function.update_apply] at hv ⊢
      split_ifs at hv ⊢ with hveq
      · subst hveq
        have hne : dist node ≠ ⊤ := by
          intro htop
          rw [htop, WithTop.top_add] at hlt
          exact absurd hlt not_top_lt
        obtain ⟨steps, hwk, hval⟩ := hok node hne
        refine ⟨steps ++ [(v, w0)], ?_, ?_⟩
        · exact isWalkFrom_append steps start node v [(v, w0)]
            hwk ⟨hsub (v, w0) (List.mem_cons_self _ _), rfl⟩
        · rw [hval, ← WithTop.coe_add, walkWeight_append, walkWeight_cons,
            walkWeight_nil, add_zero]
      · exact hok v hv
    · rw [if_neg hlt]
      exact ih _ _ _ (fun e he => hsub e (List.mem_cons_of_mem _ he)) hok u

theorem bfPass_sound [LinearOrderedAddCommGroup W] (g : WGraph W) (start V : Nat)
    (hnodup : (g.map Prod.fst).Nodup) :
    ∀ (gl : List (Nat × List (Nat × W))), (∀ p ∈ gl, p ∈ g) →
      ∀ (dist : Nat → WithTop W) (par : Nat → Option Nat) (upd : Bool),
      (∀ u, dist u ≠ ⊤ → ∃ steps, IsWalkFrom g start steps u ∧
        dist u = ((walkWeight steps : W) : WithTop W)) →
      ∀ u, (bfPass V start gl dist par upd).1 u ≠ ⊤ →
        ∃ steps, IsWalkFrom g start steps u ∧
          (bfPass V start gl dist par upd).1 u = ((walkWeight steps : W) : WithTop W) := by
  intro gl
  induction gl with
  | nil => intro _ dist par upd hok u; exact hok u
  | cons q rest ih =>
    intro hsub dist par upd hok u
    obtain ⟨node, adj⟩ := q
    rw [bfPass_cons]
    by_cases hguard : (node < V ∨ node = start) ∧ dist node ≠ ⊤
    · rw [if_pos hguard]
      refine ih (fun p hp => hsub p (List.mem_cons_of_mem _ hp)) _ _ _ ?_ u
      have hadj : adjList g node = adj :=
        adjList_eq_of_mem_nodup hnodup (hsub (node, adj) (List.mem_cons_self _ _))
      exact bfRelaxAdj_sound g start node adj dist par upd
        (fun e he => by rw [hadj]; exact he) hok
    · rw [if_neg hguard]
      exact ih (fun p hp => hsub p (List.mem_cons_of_mem _ hp)) dist par upd hok u

theorem bfLoop_sound [LinearOrderedAddCommGroup W] (g : WGraph W) (V start : Nat)
    (hnodup : (g.map Prod.fst).Nodup) :
    ∀ (k : Nat) (dist : Nat → WithTop W) (par : Nat → Option Nat),
      (∀ u, dist u ≠ ⊤ → ∃ steps, IsWalkFrom g start steps u ∧
        dist u = ((walkWeight steps : W) : WithTop W)) →
      ∀ u, (bfLoop g V start k dist par).1 u ≠ ⊤ →
        ∃ steps, IsWalkFrom g start steps u ∧
          (bfLoop g V start k dist par).1 u = ((walkWeight steps : W) : WithTop W) := by
  intro k
  induction k with
  | zero => intro dist par hok u; exact hok u
  | succ k ih =>
    intro dist par hok
    rw [bfLoop_succ]
    by_cases hupd : (bfPass V start g dist par false).2.2
    · rw [if_pos hupd]
      exact ih _ _ (bfPass_sound g start V hnodup g (fun p hp => hp) dist par false hok)
    · rw [if_neg hupd]
      exact bfPass_sound g start V hnodup g (fun p hp => hp) dist par false hok

theorem walk_stability [LinearOrderedAddCommGroup W] {g : WGraph W} {dist : Nat → WithTop W}
    (hstab : ∀ u nb w, (nb, w) ∈ adjList g u → dist nb ≤ dist u + (w : WithTop W)) :
    ∀ (steps : List (Nat × W)) (a b : Nat), IsWalkFrom g a steps b →
      dist b ≤ dist a + ((walkWeight steps : W) : WithTop W) := by
  intro steps
  induction steps with
  | nil =>
    intro a b h
    have hab : a = b := h
    rw [← hab, walkWeight_nil]
    simp
  | cons e rest ih =>
    intro a b h
    obtain ⟨n, w⟩ := e
    obtain ⟨he, hrest⟩ := h
    refine le_trans (ih n b hrest) ?_
    refine le_trans (add_le_add_right (hstab a n w he) _) ?_
    rw [walkWeight_cons, WithTop.coe_add, add_assoc]

theorem stability_of_not_improvable [LinearOrderedAddCommGroup W] {g : WGraph W}
    {V start : Nat} (hkeys : ∀ p ∈ g, p.1 < V ∧ ∀ e ∈ p.2, e.1 < V)
    {dist : Nat → WithTop W} (h : bfImprovable g V start dist = false) :
    ∀ u nb w, (nb, w) ∈ adjList g u → dist nb ≤ dist u + (w : WithTop W) := by
  intro u nb w hmem
  obtain ⟨p, hp, hp1, hep⟩ := mem_of_mem_adjList hmem
  by_cases hne : dist u = ⊤
  · rw [hne, WithTop.top_add]; exact le_top
  · by_contra hcontra
    have himp : dist p.1 + (w : WithTop W) < dist nb := by
      rw [hp1]; exact not_le.mp hcontra
    have hg : (p.1 < V ∨ p.1 = start) ∧ dist p.1 ≠ ⊤ :=
      ⟨Or.inl (hkeys p hp).1, by rw [hp1]; exact hne⟩
    have htrue : bfImprovable g V start dist = true := by
      unfold bfImprovable
      rw [List.any_eq_true]
      refine ⟨p, hp, ?_⟩
      rw [Bool.and_eq_true]
      refine ⟨decide_eq_true hg, ?_⟩
      rw [List.any_eq_true]
      exact ⟨(nb, w), hep, decide_eq_true himp⟩
    rw [h] at htrue
    exact Bool.noConfusion htrue

theorem walk_shortcut [LinearOrderedAddCommGroup W] (g : WGraph W) (V start : Nat)
    (hkeys : ∀ p ∈ g, p.1 < V ∧ ∀ e ∈ p.2, e.1 < V)
    (hno : ¬HasReachableNegCycle g start) :
    ∀ (L : Nat) (steps : List (Nat × W)) (u : Nat), steps.length ≤ L →
      IsWalkFrom g start steps u →
      ∃ steps2, IsWalkFrom g start steps2 u ∧ steps2.length ≤ V - 1 ∧
        walkWeight steps2 ≤ walkWeight steps := by
  intro L
  induction L with
  | zero =>
    intro steps u hlen hw
    exact ⟨steps, hw, by omega, le_rfl⟩
  | succ L ih =>
    intro steps u hlen hw
    by_cases hshort : steps.length ≤ V - 1
    · exact ⟨steps, hw, hshort, le_rfl⟩
    · obtain ⟨e0, rest0, hsteps0⟩ : ∃ e0 rest0, steps = e0 :: rest0 := by
        cases steps with
        | nil => exact absurd (by simp) hshort
        | cons a b => exact ⟨a, b, rfl⟩
      have hstartV : start < V := by
        obtain ⟨n0, w0⟩ := e0
        rw [hsteps0] at hw
        obtain ⟨p, hp, hp1, _⟩ := mem_of_mem_adjList hw.1
        rw [← hp1]
        exact (hkeys p hp).1
      have hlenV : V < (start :: steps.map Prod.fst).length := by
        rw [List.length_cons, List.length_map]
        omega
      have hmemV : ∀ x ∈ start :: steps.map Prod.fst, x < V := by
        intro x hx
        rcases List.mem_cons.mp hx with heq | hmem
        · rw [heq]; exact hstartV
        · exact walk_targets_lt hkeys steps start u hw x hmem
      have hnd := list_pigeonhole hlenV hmemV
      obtain ⟨y, A, C, B, hsplit, hC, hwA, hwC, hwB⟩ :=
        isWalkFrom_find_cycle steps start u hw hnd
      have hCnn : 0 ≤ walkWeight C := by
        by_contra hneg
        exact hno ⟨y, A, C, hwA, hC, hwC, not_le.mp hneg⟩
      have hwAB : IsWalkFrom g start (A ++ B) u :=
        isWalkFrom_append A start y u B hwA hwB
      have hC1 : 0 < C.length := List.length_pos.mpr hC
      have hlenAB : (A ++ B).length ≤ L := by
        rw [hsplit, List.length_append, List.length_append] at hlen
        rw [List.length_append]
        omega
      obtain ⟨steps2, hw2, hlen2, hwt2⟩ := ih (A ++ B) u hlenAB hwAB
      refine ⟨steps2, hw2, hlen2, le_trans hwt2 ?_⟩
      rw [hsplit, walkWeight_append, walkWeight_append, walkWeight_append]
      exact add_le_add_right (le_add_of_nonneg_right hCnn) _

theorem improvable_of_negcycle [LinearOrderedAddCommGroup W] (g : WGraph W)
    (V start : Nat) (hkeys : ∀ p ∈ g, p.1 < V ∧ ∀ e ∈ p.2, e.1 < V)
    (dist : Nat → WithTop W) (hs0 : dist start ≤ 0)
    (hcyc : HasReachableNegCycle g start)
    (hfalse : bfImprovable g V start dist = false) : False := by
  have hstab := stability_of_not_improvable hkeys hfalse
  obtain ⟨u, pre, cyc, hpre, _hcne, hwcyc, hneg⟩ := hcyc
  have hu1 := walk_stability hstab pre start u hpre
  have hu2 : dist u ≤ ((walkWeight pre : W) : WithTop W) := by
    refine le_trans hu1 (le_trans (add_le_add_right hs0 _) ?_)
    rw [zero_add]
  have hune : dist u ≠ ⊤ := ne_top_of_lt (lt_of_le_of_lt hu2 (WithTop.coe_lt_top _))
  obtain ⟨a, ha⟩ := WithTop.ne_top_iff_exists.mp hune
  have hcyc2 := walk_stability hstab cyc u u hwcyc
  rw [← ha, ← WithTop.coe_add, WithTop.coe_le_coe] at hcyc2
  have hnn : (0 : W) ≤ walkWeight cyc := (le_add_iff_nonneg_right a).mp hcyc2
  exact absurd hneg (not_lt.mpr hnn)

theorem negcycle_of_improvable [LinearOrderedAddCommGroup W] (g : WGraph W)
    (V start : Nat) (hkeys : ∀ p ∈ g, p.1 < V ∧ ∀ e ∈ p.2, e.1 < V)
    (hnodup : (g.map Prod.fst).Nodup) (dist : Nat → WithTop W)
    (hok : ∀ u, dist u ≠ ⊤ → ∃ steps, IsWalkFrom g start steps u ∧
      dist u = ((walkWeight steps : W) : WithTop W))
    (hbnd : ∀ u steps, IsWalkFrom g start steps u → steps.length ≤ V - 1 →
      dist u ≤ ((walkWeight steps : W) : WithTop W))
    (himp : bfImprovable g V start dist = true) : HasReachableNegCycle g start := by
  by_contra hno
  obtain ⟨p, hp, ⟨_hkey, hne⟩, e, he, himpr⟩ := bfImprovable_elim g V start dist himp
  obtain ⟨steps, hwalk, hval⟩ := hok p.1 hne
  have hadjp : adjList g p.1 = p.2 := adjList_eq_of_mem_nodup hnodup hp
  have hw2 : IsWalkFrom g start (steps ++ [e]) e.1 := by
    refine isWalkFrom_append steps start p.1 e.1 [e] hwalk ?_
    exact ⟨by rw [hadjp]; exact he, rfl⟩
  obtain ⟨steps3, hw3, hlen3, hwt3⟩ := walk_shortcut g V start hkeys hno
    (steps ++ [e]).length (steps ++ [e]) e.1 le_rfl hw2
  have hbound := hbnd e.1 steps3 hw3 hlen3
  have hwt4 : ((walkWeight steps3 : W) : WithTop W) ≤
      ((walkWeight (steps ++ [e]) : W) : WithTop W) := WithTop.coe_le_coe.mpr hwt3
  have heqw : ((walkWeight (steps ++ [e]) : W) : WithTop W) =
      dist p.1 + (e.2 : WithTop W) := by
    rw [walkWeight_append, hval, ← WithTop.coe_add]
    have : walkWeight [e] = e.2 := by simp [walkWeight]
    rw [this]
  have hlt : dist e.1 < dist e.1 :=
    lt_of_le_of_lt (le_trans hbound (le_trans hwt4 (le_of_eq heqw))) himpr
  exact absurd hlt (lt_irrefl _)

/-- C2 (confirmed): for every graph whose dict keys are unique and
whose keys and neighbor ids all lie in `[0, V)`, `bellman_ford graph
start V` returns `None` exactly when the graph contains a strictly
negative total-weight cycle reachable from `start`; conversely, when no
such cycle is reachable it returns a distances/parents result. -/
theorem bellman_ford_negative_cycle [LinearOrderedAddCommGroup W] (g : WGraph W)
    (start V : Nat)
    (hkeys : ∀ p ∈ g, p.1 < V ∧ ∀ e ∈ p.2, e.1 < V)
    (hnodup : (g.map Prod.fst).Nodup) :
    bellman_ford g start V = none ↔ HasReachableNegCycle g start := by
  have hInit : ∀ u, (fun i => if i = start then (0 : WithTop W) else ⊤) u ≠ ⊤ →
      ∃ steps, IsWalkFrom g start steps u ∧
        (fun i => if i = start then (0 : WithTop W) else ⊤) u =
          ((walkWeight steps : W) : WithTop W) := by
    intro u hu
    by_cases hus : u = start
    · refine ⟨[], hus.symm, ?_⟩
      show (if u = start then (0 : WithTop W) else ⊤) = _
      rw [if_pos hus, walkWeight_nil, WithTop.coe_zero]
    · exact absurd (by simp [hus]) hu
  have hInitBnd : ∀ u steps, IsWalkFrom g start steps u → steps.length ≤ 0 →
      (fun i => if i = start then (0 : WithTop W) else ⊤) u ≤
        ((walkWeight steps : W) : WithTop W) := by
    intro u steps hw hlen
    have hnil : steps = [] := List.length_eq_zero.mp (by omega)
    subst hnil
    have hus : start = u := hw
    show (if u = start then (0 : WithTop W) else ⊤) ≤ _
    rw [if_pos hus.symm, walkWeight_nil, WithTop.coe_zero]
  have hiff : bellman_ford g start V = none ↔
      bfImprovable g V start
        (bfLoop g V start (V - 1) (fun i => if i = start then (0 : WithTop W) else ⊤)
          (fun _ => none)).1 = true := by
    by_cases himp : bfImprovable g V start
        (bfLoop g V start (V - 1) (fun i => if i = start then (0 : WithTop W) else ⊤)
          (fun _ => none)).1 = true
    · simp [bellman_ford, himp]
    · have hfalse : bfImprovable g V start
          (bfLoop g V start (V - 1) (fun i => if i = start then (0 : WithTop W) else ⊤)
            (fun _ => none)).1 = false := by
        cases hb : bfImprovable g V start (bfLoop g V start (V - 1)
          (fun i => if i = start then (0 : WithTop W) else ⊤) (fun _ => none)).1
        · rfl
        · exact absurd hb himp
      simp [bellman_ford, hfalse]
  rw [hiff]
  constructor
  · intro himp
    refine negcycle_of_improvable g V start hkeys hnodup _ ?_ ?_ himp
    · exact bfLoop_sound g V start hnodup (V - 1) _ _ hInit
    · rcases bfLoop_spec g V start hkeys (V - 1) 0 _ _ hInitBnd with hf | hbnd
      · rw [himp] at hf
        exact Bool.noConfusion hf
      · intro u steps hw hlen
        exact hbnd u steps hw (by omega)
  · intro hcyc
    by_contra himp
    have hfalse : bfImprovable g V start (bfLoop g V start (V - 1)
        (fun i => if i = start then (0 : WithTop W) else ⊤) (fun _ => none)).1 = false := by
      cases hb : bfImprovable g V start (bfLoop g V start (V - 1)
        (fun i => if i = start then (0 : WithTop W) else ⊤) (fun _ => none)).1
      · rfl
      · exact absurd hb himp
    refine improvable_of_negcycle g V start hkeys _ ?_ hcyc hfalse
    have hmono := bfLoop_mono g V start (V - 1)
      (fun i => if i = start then (0 : WithTop W) else ⊤) (fun _ => none) start
    simpa using hmono

theorem bellman_ford_negative_cycle_witness :
    bellman_ford [(0, [(0, (-1 : ℤ))])] 0 1 = none :=
  (bellman_ford_negative_cycle [(0, [(0, (-1 : ℤ))])] 0 1
      (by decide) (by decide)).mpr
    ⟨0, [], [(0, -1)], rfl, by decide, ⟨by decide, rfl⟩, by decide⟩

/-! ## Claim C1: agreement of Dijkstra, Bellman-Ford and Floyd-Warshall -/

theorem isBestDist_unique [LinearOrderedAddCommGroup W] {g : WGraph W} {start u : Nat}
    {b1 b2 : WithTop W} (h1 : IsBestDist g start u b1) (h2 : IsBestDist g start u b2) :
    b1 = b2 := by
  obtain ⟨hlb1, hat1⟩ := h1
  obtain ⟨hlb2, hat2⟩ := h2
  rcases hat1 with h1t | ⟨s1, hw1, hv1⟩
  · rcases hat2 with h2t | ⟨s2, hw2, hv2⟩
    · rw [h1t, h2t]
    · have hcontra := hlb1 s2 hw2
      rw [h1t] at hcontra
      exact absurd (top_le_iff.mp hcontra) WithTop.coe_ne_top
  · rcases hat2 with h2t | ⟨s2, hw2, hv2⟩
    · have hcontra := hlb2 s1 hw1
      rw [h2t] at hcontra
      exact absurd (top_le_iff.mp hcontra) WithTop.coe_ne_top
    · refine le_antisymm ?_ ?_
      · rw [hv2]; exact hlb1 s2 hw2
      · rw [hv1]; exact hlb2 s1 hw1

theorem walkWeight_nonneg [LinearOrderedAddCommGroup W] {g : WGraph W}
    (hnn : ∀ p ∈ g, ∀ e ∈ p.2, (0 : W) ≤ e.2) :
    ∀ (steps : List (Nat × W)) (a b : Nat), IsWalkFrom g a steps b →
      0 ≤ walkWeight steps := by
  intro steps
  induction steps with
  | nil =>
    intro a b _
    rw [walkWeight_nil]
  | cons e rest ih =>
    intro a b h
    obtain ⟨n, w⟩ := e
    obtain ⟨he, hrest⟩ := h
    obtain ⟨p, hp, _hp1, hep⟩ := mem_of_mem_adjList he
    rw [walkWeight_cons]
    exact add_nonneg (hnn p hp (n, w) hep) (ih n b hrest)

theorem no_negcycle_of_nonneg [LinearOrderedAddCommGroup W] {g : WGraph W} {start : Nat}
    (hnn : ∀ p ∈ g, ∀ e ∈ p.2, (0 : W) ≤ e.2) : ¬HasReachableNegCycle g start := by
  rintro ⟨u, pre, cyc, _hpre, _hne, hwcyc, hneg⟩
  exact absurd hneg (not_lt.mpr (walkWeight_nonneg hnn cyc u u hwcyc))

theorem bellman_ford_isBestDist [LinearOrderedAddCommGroup W] (g : WGraph W)
    (start V : Nat)
    (hkeys : ∀ p ∈ g, p.1 < V ∧ ∀ e ∈ p.2, e.1 < V)
    (hnodup : (g.map Prod.fst).Nodup)
    (hno : ¬HasReachableNegCycle g start) :
    ∀ u, IsBestDist g start u
      ((bfLoop g V start (V - 1) (fun i => if i = start then (0 : WithTop W) else ⊤)
        (fun _ => none)).1 u) := by
  have hInit : ∀ u, (fun i => if i = start then (0 : WithTop W) else ⊤) u ≠ ⊤ →
      ∃ steps, IsWalkFrom g start steps u ∧
        (fun i => if i = start then (0 : WithTop W) else ⊤) u =
          ((walkWeight steps : W) : WithTop W) := by
    intro u hu
    by_cases hus : u = start
    · refine ⟨[], hus.symm, ?_⟩
      show (if u = start then (0 : WithTop W) else ⊤) = _
      rw [if_pos hus, walkWeight_nil, WithTop.coe_zero]
    · exact absurd (by simp [hus]) hu
  have hInitBnd : ∀ u steps, IsWalkFrom g start steps u → steps.length ≤ 0 →
      (fun i => if i = start then (0 : WithTop W) else ⊤) u ≤
        ((walkWeight steps : W) : WithTop W) := by
    intro u steps hw hlen
    have hnil : steps = [] := List.length_eq_zero.mp (by omega)
    subst hnil
    have hus : start = u := hw
    show (if u = start then (0 : WithTop W) else ⊤) ≤ _
    rw [if_pos hus.symm, walkWeight_nil, WithTop.coe_zero]
  intro u
  constructor
  · -- lower-bounds every walk
    intro steps hw
    rcases bfLoop_spec g V start hkeys (V - 1) 0 _ _ hInitBnd with hf | hbnd
    · have hstab := stability_of_not_improvable hkeys hf
      have hs0 : (bfLoop g V start (V - 1)
          (fun i => if i = start then (0 : WithTop W) else ⊤) (fun _ => none)).1 start ≤
          (0 : WithTop W) := by
        have hmono := bfLoop_mono g V start (V - 1)
          (fun i => if i = start then (0 : WithTop W) else ⊤) (fun _ => none) start
        simpa using hmono
      refine le_trans (walk_stability hstab steps start u hw) ?_
      refine le_trans (add_le_add_right hs0 _) ?_
      rw [zero_add]
    · obtain ⟨steps2, hw2, hlen2, hwt2⟩ := walk_shortcut g V start hkeys hno
        steps.length steps u le_rfl hw
      exact le_trans (hbnd u steps2 hw2 (by omega)) (WithTop.coe_le_coe.mpr hwt2)
  · by_cases htop : (bfLoop g V start (V - 1)
        (fun i => if i = start then (0 : WithTop W) else ⊤) (fun _ => none)).1 u = ⊤
    · exact Or.inl htop
    · exact Or.inr (bfLoop_sound g V start hnodup (V - 1) _ _ hInit u htop)

/-- C1 counterexample: on the self-loop graph `{0: [(0, 5)]}` with
`num_vertices = 1` — nonnegative weights, keys and neighbors inside
`[0, 1)` — Dijkstra reports distance 0 from node 0 to itself while the
Floyd-Warshall matrix entry `[0][0]` is 5: two finite values that
disagree, because `floyd_warshall` zeroes its diagonal before writing
the edges, so a self-loop overwrites the zero. -/
theorem dijkstra_fw_selfloop_disagree :
    (dijkstra [(0, [(0, (5 : ℤ))])] 0).distances 0 = ((0 : ℤ) : WithTop ℤ) ∧
    (floyd_warshall [(0, [(0, (5 : ℤ))])] 1).distances 0 0 = ((5 : ℤ) : WithTop ℤ) ∧
    ((0 : ℤ) : WithTop ℤ) ≠ ((5 : ℤ) : WithTop ℤ) := by
  refine ⟨by decide, by decide, by decide⟩

theorem heapMin_mem [LinearOrder W] :
    ∀ (l : List (W × Nat)) (e : W × Nat), heapMin e l ∈ e :: l := by
  intro l
  induction l with
  | nil => intro e; exact List.mem_cons_self _ _
  | cons f rest ih =>
    intro e
    have hstep : heapMin e (f :: rest) =
        heapMin (if f.1 < e.1 ∨ (f.1 = e.1 ∧ f.2 < e.2) then f else e) rest := rfl
    rw [hstep]
    have hm := ih (if f.1 < e.1 ∨ (f.1 = e.1 ∧ f.2 < e.2) then f else e)
    rcases List.mem_cons.mp hm with heq | hmem
    · rw [heq]
      split_ifs with hc
      · exact List.mem_cons_of_mem _ (List.mem_cons_self _ _)
      · exact List.mem_cons_self _ _
    · exact List.mem_cons_of_mem _ (List.mem_cons_of_mem _ hmem)

theorem heapMin_le [LinearOrder W] :
    ∀ (l : List (W × Nat)) (e : W × Nat),
      (heapMin e l).1 ≤ e.1 ∧ ∀ f ∈ l, (heapMin e l).1 ≤ f.1 := by
  intro l
  induction l with
  | nil => intro e; exact ⟨le_rfl, fun f hf => absurd hf (List.not_mem_nil f)⟩
  | cons f0 rest ih =>
    intro e
    have hstep : heapMin e (f0 :: rest) =
        heapMin (if f0.1 < e.1 ∨ (f0.1 = e.1 ∧ f0.2 < e.2) then f0 else e) rest := rfl
    rw [hstep]
    obtain ⟨ih1, ih2⟩ := ih (if f0.1 < e.1 ∨ (f0.1 = e.1 ∧ f0.2 < e.2) then f0 else e)
    have hbound : (if f0.1 < e.1 ∨ (f0.1 = e.1 ∧ f0.2 < e.2) then f0 else e).1 ≤ e.1 ∧
        (if f0.1 < e.1 ∨ (f0.1 = e.1 ∧ f0.2 < e.2) then f0 else e).1 ≤ f0.1 := by
      split_ifs with hc
      · refine ⟨?_, le_rfl⟩
        rcases hc with h | h
        · exact le_of_lt h
        · exact le_of_eq h.1
      · rw [not_or] at hc
        exact ⟨le_rfl, not_lt.mp hc.1⟩
    refine ⟨le_trans ih1 hbound.1, ?_⟩
    intro f hf
    rcases List.mem_cons.mp hf with heq | hmem
    · rw [heq]
      exact le_trans ih1 hbound.2
    · exact ih2 f hmem

theorem heapMin_le_all [LinearOrder W] (l : List (W × Nat)) (e : W × Nat) :
    ∀ f ∈ e :: l, (heapMin e l).1 ≤ f.1 := by
  intro f hf
  rcases List.mem_cons.mp hf with heq | hmem
  · rw [heq]; exact (heapMin_le l e).1
  · exact (heapMin_le l e).2 f hmem

theorem mem_keys_of_hasKey {g : List (Nat × α)} {u : Nat} (h : hasKey g u = true) :
    u ∈ g.map Prod.fst := by
  unfold hasKey at h
  rw [List.any_eq_true] at h
  obtain ⟨p, hp, hpu⟩ := h
  rw [beq_iff_eq] at hpu
  rw [← hpu]
  exact List.mem_map.mpr ⟨p, hp, rfl⟩

theorem adjList_eq_nil_of_not_hasKey {g : List (Nat × List α)} {u : Nat}
    (h : hasKey g u = false) : adjList g u = [] := by
  unfold hasKey at h
  unfold adjList adjOf
  have hfind : g.find? (fun p => p.1 == u) = none := by
    rw [List.find?_eq_none]
    intro p hp
    rw [List.any_eq_false] at h
    exact fun hc => h p hp (by simpa using hc)
  rw [hfind]
  rfl

theorem dijScan_cons [LinearOrder W] [AddCommGroup W] (c : W) (m nb : Nat) (w : W)
    (rest : List (Nat × W)) (dist : Nat → WithTop W) (par : Nat → Option Nat)
    (heap : List (W × Nat)) :
    dijScan c m ((nb, w) :: rest) dist par heap =
      if dist nb = ⊤ ∨ ((c + w : W) : WithTop W) < dist nb then
        dijScan c m rest (Function.update dist nb ((c + w : W) : WithTop W))
          (Function.update par nb (some m)) (heap ++ [(c + w, nb)])
      else dijScan c m rest dist par heap := rfl

theorem dijScan_spec [LinearOrderedAddCommGroup W] (c : W) (m : Nat) :
    ∀ (adj : List (Nat × W)) (dist : Nat → WithTop W) (par : Nat → Option Nat)
      (heap : List (W × Nat)),
      (∀ e ∈ adj, (0 : W) ≤ e.2) →
      (∀ u, (dijScan c m adj dist par heap).1 u ≤ dist u) ∧
      (∀ u, dist u ≤ ((c : W) : WithTop W) → (dijScan c m adj dist par heap).1 u = dist u) ∧
      (∀ e ∈ adj, (dijScan c m adj dist par heap).1 e.1 ≤ ((c + e.2 : W) : WithTop W)) ∧
      (∀ q ∈ (dijScan c m adj dist par heap).2.2,
        q ∈ heap ∨ ∃ e ∈ adj, q = (c + e.2, e.1)) ∧
      (∀ q ∈ heap, q ∈ (dijScan c m adj dist par heap).2.2) ∧
      ((∀ q : W × Nat, q ∈ heap → dist q.2 ≤ (q.1 : WithTop W)) →
        ∀ q : W × Nat, q ∈ (dijScan c m adj dist par heap).2.2 →
          (dijScan c m adj dist par heap).1 q.2 ≤ (q.1 : WithTop W)) ∧
      (∀ n, (dijScan c m adj dist par heap).1 n ≠ dist n →
        ∃ x : W, (x, n) ∈ (dijScan c m adj dist par heap).2.2 ∧
          (dijScan c m adj dist par heap).1 n = (x : WithTop W)) ∧
      (dijScan c m adj dist par heap).2.2.length ≤ heap.length + adj.length := by
  intro adj
  induction adj with
  | nil =>
    intro dist par heap _
    refine ⟨fun u => le_rfl, fun u _ => rfl, fun e he => absurd he (List.not_mem_nil _),
      fun q hq => Or.inl hq, fun q hq => hq, fun h q hq => h q hq,
      fun n hn => absurd rfl hn, Nat.le_add_right heap.length _⟩
  | cons e0 rest ih =>
    intro dist par heap hnn
    obtain ⟨nb, w⟩ := e0
    have hw0 : (0 : W) ≤ w := hnn (nb, w) (List.mem_cons_self _ _)
    have hnnrest : ∀ e ∈ rest, (0 : W) ≤ e.2 :=
      fun e he => hnn e (List.mem_cons_of_mem _ he)
    rw [dijScan_cons]
    by_cases hcond : dist nb = ⊤ ∨ ((c + w : W) : WithTop W) < dist nb
    · rw [if_pos hcond]
      obtain ⟨s1, s2, s3, s4, s5, s6, s7, s8⟩ := ih
        (Function.update dist nb ((c + w : W) : WithTop W))
        (Function.update par nb (some m)) (heap ++ [(c + w, nb)]) hnnrest
      have hupdle : ∀ u, Function.update dist nb ((c + w : W) : WithTop W) u ≤ dist u := by
        intro u
        rw [Function.update_apply]
        split_ifs with hu
        · rcases hcond with ht | hlt
          · rw [hu, ht]; exact le_top
          · rw [hu]; exact le_of_lt hlt
        · exact le_rfl
      refine ⟨fun u => le_trans (s1 u) (hupdle u), ?_, ?_, ?_, ?_, ?_, ?_, ?_⟩
      · -- unchanged below c
        intro u hu
        have hune : u ≠ nb := by
          intro hc
          rcases hcond with ht | hlt
          · rw [hc, ht] at hu
            exact absurd (top_le_iff.mp hu) WithTop.coe_ne_top
          · rw [hc] at hu
            have hlt2 : ((c + w : W) : WithTop W) < (c : WithTop W) := lt_of_lt_of_le hlt hu
            rw [WithTop.coe_lt_coe] at hlt2
            exact absurd hlt2 (not_lt.mpr (le_add_of_nonneg_right hw0))
        have hud : Function.update dist nb ((c + w : W) : WithTop W) u = dist u := by
          rw [Function.update_apply, if_neg hune]
        rw [s2 u (by rw [hud]; exact hu), hud]
      · -- relaxed
        intro e he
        rcases List.mem_cons.mp he with heq | hmem
        · rw [heq]
          refine le_trans (s1 nb) ?_
          rw [Function.update_apply, if_pos rfl]
        · exact s3 e hmem
      · -- push characterization
        intro q hq
        rcases s4 q hq with hold | ⟨e, he, heq⟩
        · rcases List.mem_append.mp hold with h | h
          · exact Or.inl h
          · rw [List.mem_singleton] at h
            exact Or.inr ⟨(nb, w), List.mem_cons_self _ _, h⟩
        · exact Or.inr ⟨e, List.mem_cons_of_mem _ he, heq⟩
      · -- heap grows
        intro q hq
        exact s5 q (List.mem_append.mpr (Or.inl hq))
      · -- dominance
        intro hdom q hq
        refine s6 ?_ q hq
        intro q' hq'
        rcases List.mem_append.mp hq' with h | h
        · exact le_trans (hupdle q'.2) (hdom q' h)
        · rw [List.mem_singleton] at h
          rw [h]
          rw [Function.update_apply, if_pos rfl]
      · -- changed values have entries
        intro n hn
        by_cases hch : (dijScan c m rest (Function.update dist nb ((c + w : W) : WithTop W))
            (Function.update par nb (some m)) (heap ++ [(c + w, nb)])).1 n =
            Function.update dist nb ((c + w : W) : WithTop W) n
        · -- unchanged by the tail scan: n must be nb
          have hnnb : n = nb := by
            by_contra hne
            apply hn
            rw [hch, Function.update_apply, if_neg hne]
          subst hnnb
          refine ⟨c + w,
            s5 (c + w, n) (List.mem_append.mpr (Or.inr (List.mem_singleton.mpr rfl))), ?_⟩
          rw [hch, Function.update_apply, if_pos rfl]
        · exact s7 n hch
      · -- length
        refine le_trans s8 ?_
        rw [List.length_append, List.length_singleton, List.length_cons]
        omega
    · rw [if_neg hcond]
      obtain ⟨s1, s2, s3, s4, s5, s6, s7, s8⟩ := ih dist par heap hnnrest
      rw [not_or, not_lt] at hcond
      obtain ⟨hne, hge⟩ := hcond
      refine ⟨s1, s2, ?_, fun q hq => (s4 q hq).imp id (fun ⟨e, he, heq⟩ =>
          ⟨e, List.mem_cons_of_mem _ he, heq⟩), s5, s6, s7, by
        refine le_trans s8 ?_
        rw [List.length_cons]
        omega⟩
      intro e he
      rcases List.mem_cons.mp he with heq | hmem
      · rw [heq]
        exact le_trans (s1 nb) hge
      · exact s3 e hmem

theorem dij_rebuild [LinearOrderedAddCommGroup W] {g : WGraph W} {S' : List Nat}
    {dist : Nat → WithTop W} {heap : List (W × Nat)}
    (hI6 : ∀ v ∈ S', ∀ e ∈ adjList g v, dist e.1 ≤ dist v + ((e.2 : W) : WithTop W))
    (hI5 : ∀ n, n ∉ S' → dist n ≠ ⊤ → ∃ x : W, (x, n) ∈ heap ∧ dist n = (x : WithTop W)) :
    ∀ (R : List (Nat × W)) (v u : Nat), IsWalkFrom g v R u → v ∈ S' → dist v ≠ ⊤ →
      u ∉ S' →
      ∃ Q1 R1 x z, R = Q1 ++ R1 ∧ IsWalkFrom g v Q1 z ∧ IsWalkFrom g z R1 u ∧
        z ∉ S' ∧ (x, z) ∈ heap ∧
        (x : WithTop W) ≤ dist v + ((walkWeight Q1 : W) : WithTop W) := by
  intro R
  induction R with
  | nil =>
    intro v u hw hv _hf hu
    have hvu : v = u := hw
    exact absurd (hvu ▸ hv) hu
  | cons e R0 ih =>
    intro v u hw hv hf hu
    obtain ⟨n, w⟩ := e
    obtain ⟨he, hrest⟩ := hw
    have hdn : dist n ≤ dist v + ((w : W) : WithTop W) := hI6 v hv (n, w) he
    have hfn : dist n ≠ ⊤ := by
      intro htop
      rw [htop] at hdn
      have hsum : dist v + ((w : W) : WithTop W) = ⊤ := top_le_iff.mp hdn
      rw [WithTop.add_eq_top] at hsum
      rcases hsum with h | h
      · exact hf h
      · exact WithTop.coe_ne_top h
    by_cases hnS : n ∈ S'
    · obtain ⟨Q2, R2, x, z, hsplit, hwQ2, hwR2, hz, hmem, hbound⟩ := ih n u hrest hnS hfn hu
      refine ⟨(n, w) :: Q2, R2, x, z, by rw [hsplit]; rfl, ⟨he, hwQ2⟩, hwR2, hz, hmem, ?_⟩
      refine le_trans hbound (le_trans (add_le_add_right hdn _) ?_)
      rw [walkWeight_cons, WithTop.coe_add, add_assoc]
    · obtain ⟨x, hmem, hval⟩ := hI5 n hnS hfn
      refine ⟨[(n, w)], R0, x, n, rfl, ⟨he, rfl⟩, hrest, hnS, hmem, ?_⟩
      rw [← hval]
      refine le_trans hdn (le_of_eq ?_)
      rw [walkWeight_cons, walkWeight_nil, add_zero]

theorem dij_end [LinearOrderedAddCommGroup W] {g : WGraph W} {start : Nat}
    {S : List Nat} {dist : Nat → WithTop W}
    (hI3 : ∀ v ∈ S, IsBestDist g start v (dist v))
    (hI4nil : ∀ u steps, IsWalkFrom g start steps u → u ∉ S → False)
    (hI5nil : ∀ n, n ∉ S → dist n ≠ ⊤ → False) :
    ∀ u, IsBestDist g start u (dist u) := by
  intro u
  by_cases hu : u ∈ S
  · exact hI3 u hu
  · have htop : dist u = ⊤ := by
      by_contra hne
      exact hI5nil u hu hne
    refine ⟨?_, Or.inl htop⟩
    intro steps hw
    exact (hI4nil u steps hw hu).elim

theorem dijLoop_cons [LinearOrder W] [AddCommGroup W] (g : WGraph W) (fuel : Nat)
    (h : W × Nat) (hs : List (W × Nat)) (visited : List Nat)
    (dist : Nat → WithTop W) (par : Nat → Option Nat) :
    dijLoop g (fuel + 1) (h :: hs) visited dist par =
      if (heapMin h hs).2 ∈ visited then
        dijLoop g fuel ((h :: hs).erase (heapMin h hs)) visited dist par
      else if hasKey g (heapMin h hs).2 then
        dijLoop g fuel
          (dijScan (heapMin h hs).1 (heapMin h hs).2 (adjList g (heapMin h hs).2)
            dist par ((h :: hs).erase (heapMin h hs))).2.2
          (visited ++ [(heapMin h hs).2])
          (dijScan (heapMin h hs).1 (heapMin h hs).2 (adjList g (heapMin h hs).2)
            dist par ((h :: hs).erase (heapMin h hs))).1
          (dijScan (heapMin h hs).1 (heapMin h hs).2 (adjList g (heapMin h hs).2)
            dist par ((h :: hs).erase (heapMin h hs))).2.1
      else dijLoop g fuel ((h :: hs).erase (heapMin h hs))
        (visited ++ [(heapMin h hs).2]) dist par := rfl

theorem dijLoop_correct [LinearOrderedAddCommGroup W] (g : WGraph W) (start : Nat)
    (hnn : ∀ p ∈ g, ∀ e ∈ p.2, (0 : W) ≤ e.2) :
    ∀ (fuel : Nat) (heap : List (W × Nat)) (S : List Nat) (dist : Nat → WithTop W)
      (par : Nat → Option Nat),
      dijMeasure g heap S ≤ fuel →
      (∀ q : W × Nat, q ∈ heap → ∃ steps, IsWalkFrom g start steps q.2 ∧
        walkWeight steps = q.1) →
      (∀ q : W × Nat, q ∈ heap → dist q.2 ≤ (q.1 : WithTop W)) →
      (∀ v ∈ S, IsBestDist g start v (dist v)) →
      (∀ u steps, IsWalkFrom g start steps u → u ∉ S →
        ∃ Q R x z, steps = Q ++ R ∧ IsWalkFrom g start Q z ∧ IsWalkFrom g z R u ∧
          z ∉ S ∧ (x, z) ∈ heap ∧ ((x : WithTop W) ≤ ((walkWeight Q : W) : WithTop W))) →
      (∀ n, n ∉ S → dist n ≠ ⊤ → ∃ x : W, (x, n) ∈ heap ∧ dist n = (x : WithTop W)) →
      (∀ v ∈ S, ∀ e ∈ adjList g v, dist e.1 ≤ dist v + ((e.2 : W) : WithTop W)) →
      (∀ v ∈ S, ∀ q : W × Nat, q ∈ heap → dist v ≤ (q.1 : WithTop W)) →
      (∀ v ∈ S, dist v ≠ ⊤) →
      ∀ u, IsBestDist g start u ((dijLoop g fuel heap S dist par).1 u) := by
  intro fuel
  induction fuel with
  | zero =>
    intro heap S dist par hfuel hI2 hI2b hI3 hI4 hI5 hI6 hI7 hI8 u
    have hnil : heap = [] := by
      cases heap with
      | nil => rfl
      | cons a b =>
        exfalso
        unfold dijMeasure at hfuel
        rw [List.length_cons] at hfuel
        omega
    subst hnil
    refine dij_end hI3 ?_ ?_ u
    · intro u' steps hw hu'
      obtain ⟨_, _, _, _, _, _, _, _, hx, _⟩ := hI4 u' steps hw hu'
      exact absurd hx (List.not_mem_nil _)
    · intro n hn hne
      obtain ⟨x, hx, _⟩ := hI5 n hn hne
      exact absurd hx (List.not_mem_nil _)
  | succ fuel ih =>
    intro heap S dist par hfuel hI2 hI2b hI3 hI4 hI5 hI6 hI7 hI8 u
    cases heap with
    | nil =>
      refine dij_end hI3 ?_ ?_ u
      · intro u' steps hw hu'
        obtain ⟨_, _, _, _, _, _, _, _, hx, _⟩ := hI4 u' steps hw hu'
        exact absurd hx (List.not_mem_nil _)
      · intro n hn hne
        obtain ⟨x, hx, _⟩ := hI5 n hn hne
        exact absurd hx (List.not_mem_nil _)
    | cons h0 hs =>
      rw [dijLoop_cons]
      set m := heapMin h0 hs with hmdef
      have hm_mem : m ∈ h0 :: hs := by rw [hmdef]; exact heapMin_mem hs h0
      have hm_min : ∀ f ∈ h0 :: hs, m.1 ≤ f.1 := by
        rw [hmdef]; exact heapMin_le_all hs h0
      have herase_len : ((h0 :: hs).erase m).length = hs.length := by
        rw [List.length_erase_of_mem hm_mem, List.length_cons]
        omega
      have herase_sub : ∀ q ∈ (h0 :: hs).erase m, q ∈ h0 :: hs :=
        fun q hq => List.mem_of_mem_erase hq
      by_cases hvis : m.2 ∈ S
      · rw [if_pos hvis]
        refine ih _ _ _ _ ?_ ?_ ?_ hI3 ?_ ?_ hI6 ?_ hI8 u
        · unfold dijMeasure at hfuel ⊢
          rw [herase_len]
          rw [List.length_cons] at hfuel
          omega
        · exact fun q hq => hI2 q (herase_sub q hq)
        · exact fun q hq => hI2b q (herase_sub q hq)
        · intro u' steps hw hu'
          obtain ⟨Q, R, x, z, hsp, hwQ, hwR, hz, hmem, hb⟩ := hI4 u' steps hw hu'
          refine ⟨Q, R, x, z, hsp, hwQ, hwR, hz, ?_, hb⟩
          have hne : (x, z) ≠ m := fun hc => hz (by
            rw [show z = m.2 from congrArg Prod.snd hc]; exact hvis)
          exact (List.mem_erase_of_ne hne).mpr hmem
        · intro n hn hne
          obtain ⟨x, hx, hv⟩ := hI5 n hn hne
          refine ⟨x, ?_, hv⟩
          have hneq : (x, n) ≠ m := fun hc => hn (by
            rw [show n = m.2 from congrArg Prod.snd hc]; exact hvis)
          exact (List.mem_erase_of_ne hneq).mpr hx
        · exact fun v hv q hq => hI7 v hv q (herase_sub q hq)
      · rw [if_neg hvis]
        have hdmle : dist m.2 ≤ (m.1 : WithTop W) := hI2b m hm_mem
        have hdm_ne : dist m.2 ≠ ⊤ := by
          intro htop
          rw [htop] at hdmle
          exact absurd (top_le_iff.mp hdmle) WithTop.coe_ne_top
        have hdm : dist m.2 = (m.1 : WithTop W) := by
          obtain ⟨x, hx, hv⟩ := hI5 m.2 hvis hdm_ne
          refine le_antisymm hdmle ?_
          rw [hv]
          exact WithTop.coe_le_coe.mpr (hm_min (x, m.2) hx)
        have hbest : IsBestDist g start m.2 ((m.1 : W) : WithTop W) := by
          constructor
          · intro steps hw
            obtain ⟨Q, R, x, z, hsp, hwQ, hwR, hz, hmem, hb⟩ := hI4 m.2 steps hw hvis
            have h1 : (m.1 : WithTop W) ≤ (x : WithTop W) :=
              WithTop.coe_le_coe.mpr (hm_min (x, z) hmem)
            have hR0 : (0 : W) ≤ walkWeight R := walkWeight_nonneg hnn R z m.2 hwR
            refine le_trans h1 (le_trans hb ?_)
            rw [hsp, walkWeight_append]
            exact WithTop.coe_le_coe.mpr (le_add_of_nonneg_right hR0)
          · right
            obtain ⟨steps, hw, hv⟩ := hI2 m hm_mem
            exact ⟨steps, hw, by rw [hv]⟩
        by_cases hkey : hasKey g m.2
        · rw [if_pos hkey]
          have hadj_nn : ∀ e ∈ adjList g m.2, (0 : W) ≤ e.2 := by
            intro e he
            obtain ⟨p, hp, _h1, hep⟩ := mem_of_mem_adjList he
            exact hnn p hp e hep
          obtain ⟨s1, s2, s3, s4, s5, s6, s7, s8⟩ :=
            dijScan_spec m.1 m.2 (adjList g m.2) dist par ((h0 :: hs).erase m) hadj_nn
          have hI5' : ∀ n, n ∉ S ++ [m.2] →
              (dijScan m.1 m.2 (adjList g m.2) dist par ((h0 :: hs).erase m)).1 n ≠ ⊤ →
              ∃ x : W,
                (x, n) ∈ (dijScan m.1 m.2 (adjList g m.2) dist par
                  ((h0 :: hs).erase m)).2.2 ∧
                (dijScan m.1 m.2 (adjList g m.2) dist par ((h0 :: hs).erase m)).1 n =
                  (x : WithTop W) := by
            intro n hn hne
            have hnS : n ∉ S := fun hc => hn (List.mem_append.mpr (Or.inl hc))
            have hnm : n ≠ m.2 :=
              fun hc => hn (List.mem_append.mpr (Or.inr (List.mem_singleton.mpr hc)))
            by_cases hch : (dijScan m.1 m.2 (adjList g m.2) dist par
                ((h0 :: hs).erase m)).1 n = dist n
            · rw [hch] at hne ⊢
              obtain ⟨x, hx, hv⟩ := hI5 n hnS hne
              refine ⟨x, ?_, hv⟩
              refine s5 (x, n) ?_
              exact (List.mem_erase_of_ne (fun hc => hnm (congrArg Prod.snd hc))).mpr hx
            · exact s7 n hch
          have hI6' : ∀ v ∈ S ++ [m.2], ∀ e ∈ adjList g v,
              (dijScan m.1 m.2 (adjList g m.2) dist par ((h0 :: hs).erase m)).1 e.1 ≤
              (dijScan m.1 m.2 (adjList g m.2) dist par ((h0 :: hs).erase m)).1 v +
                ((e.2 : W) : WithTop W) := by
            intro v hv e he
            rcases List.mem_append.mp hv with hvS | hvm
            · rw [s2 v (hI7 v hvS m hm_mem)]
              exact le_trans (s1 e.1) (hI6 v hvS e he)
            · rw [List.mem_singleton] at hvm
              subst hvm
              rw [s2 m.2 (le_of_eq hdm), hdm]
              exact le_trans (s3 e he) (le_of_eq (WithTop.coe_add _ _))
          have hmeas : dijMeasure g
              (dijScan m.1 m.2 (adjList g m.2) dist par ((h0 :: hs).erase m)).2.2
              (S ++ [m.2]) ≤ fuel := by
            have hkeym : m.2 ∈ (g.map Prod.fst).toFinset :=
              List.mem_toFinset.mpr (mem_keys_of_hasKey hkey)
            have hmS : m.2 ∈ (g.map Prod.fst).toFinset \ S.toFinset := by
              rw [Finset.mem_sdiff]
              exact ⟨hkeym, fun hc => hvis (List.mem_toFinset.mp hc)⟩
            have hsum : Finset.sum (((g.map Prod.fst).toFinset \ S.toFinset).erase m.2)
                  (fun u => (adjList g u).length) + (adjList g m.2).length =
                Finset.sum ((g.map Prod.fst).toFinset \ S.toFinset)
                  (fun u => (adjList g u).length) :=
              Finset.sum_erase_add _ _ hmS
            unfold dijMeasure at hfuel ⊢
            rw [sdiff_toFinset_append]
            rw [List.length_cons] at hfuel
            have h8 := s8
            rw [herase_len] at h8
            omega
          refine ih _ _ _ _ hmeas ?_ ?_ ?_ ?_ hI5' hI6' ?_ ?_ u
          · -- I2
            intro q hq
            rcases s4 q hq with hold | ⟨e, he, heq⟩
            · exact hI2 q (herase_sub q hold)
            · obtain ⟨steps, hwst, hvst⟩ := hI2 m hm_mem
              refine ⟨steps ++ [(e.1, e.2)], ?_, ?_⟩
              · rw [heq]
                exact isWalkFrom_append steps start m.2 e.1 [(e.1, e.2)] hwst ⟨he, rfl⟩
              · rw [heq, walkWeight_append, walkWeight_cons, walkWeight_nil, add_zero, hvst]
          · -- I2b
            exact s6 (fun q' hq' => hI2b q' (herase_sub q' hq'))
          · -- I3
            intro v hv
            rcases List.mem_append.mp hv with hvS | hvm
            · rw [s2 v (hI7 v hvS m hm_mem)]
              exact hI3 v hvS
            · rw [List.mem_singleton] at hvm
              subst hvm
              rw [s2 m.2 (le_of_eq hdm), hdm]
              exact hbest
          · -- I4
            intro u' steps hw hu'
            have hu'S : u' ∉ S := fun hc => hu' (List.mem_append.mpr (Or.inl hc))
            obtain ⟨Q, R, x, z, hsp, hwQ, hwR, hz, hmem, hb⟩ := hI4 u' steps hw hu'S
            by_cases hzm : z = m.2
            · subst hzm
              have hrb := dij_rebuild hI6' hI5' R m.2 u' hwR
                (List.mem_append.mpr (Or.inr (List.mem_singleton.mpr rfl)))
                (by rw [s2 m.2 (le_of_eq hdm), hdm]; exact WithTop.coe_ne_top)
                hu'
              obtain ⟨Q1, R1, x', z', hsp1, hwQ1, hwR1, hz', hmem', hb'⟩ := hrb
              refine ⟨Q ++ Q1, R1, x', z', ?_,
                isWalkFrom_append Q start m.2 z' Q1 hwQ hwQ1, hwR1, hz', hmem', ?_⟩
              · rw [hsp, hsp1, List.append_assoc]
              · have h1 : (x' : WithTop W) ≤ (m.1 : WithTop W) +
                    ((walkWeight Q1 : W) : WithTop W) := by
                  have hb'' := hb'
                  rw [s2 m.2 (le_of_eq hdm), hdm] at hb''
                  exact hb''
                have h2 : (m.1 : WithTop W) ≤ (x : WithTop W) :=
                  WithTop.coe_le_coe.mpr (hm_min (x, m.2) hmem)
                refine le_trans h1 ?_
                refine le_trans (add_le_add_right (le_trans h2 hb) _) ?_
                exact le_of_eq (by rw [walkWeight_append, WithTop.coe_add])
            · refine ⟨Q, R, x, z, hsp, hwQ, hwR, ?_, ?_, hb⟩
              · intro hc
                rcases List.mem_append.mp hc with h | h
                · exact hz h
                · exact hzm (List.mem_singleton.mp h)
              · refine s5 (x, z) ?_
                exact (List.mem_erase_of_ne
                  (fun hc => hzm (congrArg Prod.snd hc))).mpr hmem
          · -- I7
            intro v hv q hq
            have hdvle : (dijScan m.1 m.2 (adjList g m.2) dist par
                ((h0 :: hs).erase m)).1 v ≤ (m.1 : WithTop W) := by
              rcases List.mem_append.mp hv with hvS | hvm
              · rw [s2 v (hI7 v hvS m hm_mem)]
                exact hI7 v hvS m hm_mem
              · rw [List.mem_singleton] at hvm
                subst hvm
                rw [s2 m.2 (le_of_eq hdm), hdm]
            refine le_trans hdvle ?_
            rcases s4 q hq with hold | ⟨e, he, heq⟩
            · exact WithTop.coe_le_coe.mpr (hm_min q (herase_sub q hold))
            · rw [heq]
              exact WithTop.coe_le_coe.mpr (le_add_of_nonneg_right (hadj_nn e he))
          · -- I8
            intro v hv
            rcases List.mem_append.mp hv with hvS | hvm
            · rw [s2 v (hI7 v hvS m hm_mem)]
              exact hI8 v hvS
            · rw [List.mem_singleton] at hvm
              subst hvm
              rw [s2 m.2 (le_of_eq hdm), hdm]
              exact WithTop.coe_ne_top
        · rw [if_neg hkey]
          have hadjnil : adjList g m.2 = [] := adjList_eq_nil_of_not_hasKey (by
            cases hk : hasKey g m.2
            · rfl
            · exact absurd hk hkey)
          have hI5n : ∀ n, n ∉ S ++ [m.2] → dist n ≠ ⊤ →
              ∃ x : W, (x, n) ∈ (h0 :: hs).erase m ∧ dist n = (x : WithTop W) := by
            intro n hn hne
            have hnS : n ∉ S := fun hc => hn (List.mem_append.mpr (Or.inl hc))
            have hnm : n ≠ m.2 :=
              fun hc => hn (List.mem_append.mpr (Or.inr (List.mem_singleton.mpr hc)))
            obtain ⟨x, hx, hv⟩ := hI5 n hnS hne
            exact ⟨x, (List.mem_erase_of_ne
              (fun hc => hnm (congrArg Prod.snd hc))).mpr hx, hv⟩
          have hI6n : ∀ v ∈ S ++ [m.2], ∀ e ∈ adjList g v,
              dist e.1 ≤ dist v + ((e.2 : W) : WithTop W) := by
            intro v hv e he
            rcases List.mem_append.mp hv with hvS | hvm
            · exact hI6 v hvS e he
            · rw [List.mem_singleton] at hvm
              subst hvm
              rw [hadjnil] at he
              exact absurd he (List.not_mem_nil _)
          refine ih _ _ _ _ ?_ ?_ ?_ ?_ ?_ hI5n hI6n ?_ ?_ u
          · -- measure
            have hsub2 : (g.map Prod.fst).toFinset \ (S ++ [m.2]).toFinset ⊆
                (g.map Prod.fst).toFinset \ S.toFinset := by
              rw [sdiff_toFinset_append]
              exact Finset.erase_subset _ _
            have hsum2 : Finset.sum ((g.map Prod.fst).toFinset \ (S ++ [m.2]).toFinset)
                  (fun u => (adjList g u).length) ≤
                Finset.sum ((g.map Prod.fst).toFinset \ S.toFinset)
                  (fun u => (adjList g u).length) :=
              Finset.sum_le_sum_of_subset hsub2
            unfold dijMeasure at hfuel ⊢
            rw [herase_len]
            rw [List.length_cons] at hfuel
            omega
          · exact fun q hq => hI2 q (herase_sub q hq)
          · exact fun q hq => hI2b q (herase_sub q hq)
          · -- I3
            intro v hv
            rcases List.mem_append.mp hv with hvS | hvm
            · exact hI3 v hvS
            · rw [List.mem_singleton] at hvm
              subst hvm
              rw [hdm]
              exact hbest
          · -- I4
            intro u' steps hw hu'
            have hu'S : u' ∉ S := fun hc => hu' (List.mem_append.mpr (Or.inl hc))
            obtain ⟨Q, R, x, z, hsp, hwQ, hwR, hz, hmem, hb⟩ := hI4 u' steps hw hu'S
            by_cases hzm : z = m.2
            · subst hzm
              have hrb := dij_rebuild hI6n hI5n R m.2 u' hwR
                (List.mem_append.mpr (Or.inr (List.mem_singleton.mpr rfl)))
                hdm_ne hu'
              obtain ⟨Q1, R1, x', z', hsp1, hwQ1, hwR1, hz', hmem', hb'⟩ := hrb
              refine ⟨Q ++ Q1, R1, x', z', ?_,
                isWalkFrom_append Q start m.2 z' Q1 hwQ hwQ1, hwR1, hz', hmem', ?_⟩
              · rw [hsp, hsp1, List.append_assoc]
              · have h1 : (x' : WithTop W) ≤ (m.1 : WithTop W) +
                    ((walkWeight Q1 : W) : WithTop W) := by
                  have hb'' := hb'
                  rw [hdm] at hb''
                  exact hb''
                have h2 : (m.1 : WithTop W) ≤ (x : WithTop W) :=
                  WithTop.coe_le_coe.mpr (hm_min (x, m.2) hmem)
                refine le_trans h1 ?_
                refine le_trans (add_le_add_right (le_trans h2 hb) _) ?_
                exact le_of_eq (by rw [walkWeight_append, WithTop.coe_add])
            · refine ⟨Q, R, x, z, hsp, hwQ, hwR, ?_, ?_, hb⟩
              · intro hc
                rcases List.mem_append.mp hc with h | h
                · exact hz h
                · exact hzm (List.mem_singleton.mp h)
              · exact (List.mem_erase_of_ne
                  (fun hc => hzm (congrArg Prod.snd hc))).mpr hmem
          · -- I7
            intro v hv q hq
            rcases List.mem_append.mp hv with hvS | hvm
            · exact hI7 v hvS q (herase_sub q hq)
            · rw [List.mem_singleton] at hvm
              subst hvm
              rw [hdm]
              exact WithTop.coe_le_coe.mpr (hm_min q (herase_sub q hq))
          · -- I8
            intro v hv
            rcases List.mem_append.mp hv with hvS | hvm
            · exact hI8 v hvS
            · rw [List.mem_singleton] at hvm
              subst hvm
              exact hdm_ne

theorem dijkstra_isBestDist [LinearOrderedAddCommGroup W] (g : WGraph W) (start : Nat)
    (hnodup : (g.map Prod.fst).Nodup)
    (hnn : ∀ p ∈ g, ∀ e ∈ p.2, (0 : W) ≤ e.2) :
    ∀ u, IsBestDist g start u ((dijkstra g start).distances u) := by
  intro u
  have hsum1 : Finset.sum ((g.map Prod.fst).toFinset) (fun v => (adjList g v).length) ≤
      ((g.map Prod.fst).map (fun v => (adjList g v).length)).sum :=
    toFinset_sum_le_map_sum _ _
  have hsum2 : ((g.map Prod.fst).map (fun v => (adjList g v).length)).sum =
      (g.map (fun p => p.2.length)).sum := by
    rw [List.map_map]
    refine congrArg List.sum (List.map_congr_left (fun p hp => ?_))
    show (adjList g p.1).length = p.2.length
    rw [adjList_eq_of_mem_nodup hnodup hp]
  show IsBestDist g start u ((dijLoop g (1 + (g.map (fun p => p.2.length)).sum)
    [((0 : W), start)] []
    (fun v => if v = start then ((0 : W) : WithTop W) else ⊤)
    (fun _ => (none : Option Nat))).1 u)
  refine dijLoop_correct g start hnn _ _ _ _ _ ?_ ?_ ?_ ?_ ?_ ?_ ?_ ?_ ?_ u
  · unfold dijMeasure
    simp only [List.length_singleton, List.toFinset_nil, Finset.sdiff_empty]
    omega
  · intro q hq
    rw [List.mem_singleton] at hq
    subst hq
    exact ⟨[], rfl, rfl⟩
  · intro q hq
    rw [List.mem_singleton] at hq
    subst hq
    show (if start = start then ((0 : W) : WithTop W) else ⊤) ≤ _
    rw [if_pos rfl]
  · intro v hv
    exact absurd hv (List.not_mem_nil v)
  · intro u' steps hw hu'
    refine ⟨[], steps, 0, start, rfl, rfl, hw, List.not_mem_nil start,
      List.mem_singleton.mpr rfl, ?_⟩
    rw [walkWeight_nil]
  · intro n hn hne
    by_cases hns : n = start
    · subst hns
      refine ⟨0, List.mem_singleton.mpr rfl, ?_⟩
      show (if n = n then ((0 : W) : WithTop W) else ⊤) = ((0 : W) : WithTop W)
      rw [if_pos rfl]
    · exfalso
      apply hne
      show (if n = start then ((0 : W) : WithTop W) else ⊤) = ⊤
      rw [if_neg hns]
  · intro v hv
    exact absurd hv (List.not_mem_nil v)
  · intro v hv
    exact absurd hv (List.not_mem_nil v)
  · intro v hv
    exact absurd hv (List.not_mem_nil v)

theorem fw_diag_char [LinearOrder W] [AddCommGroup W] :
    ∀ (L : List Nat) (M : Nat → Nat → WithTop W) (a b : Nat),
      (L.foldl (fun M i => mset M i i ((0 : W) : WithTop W)) M) a b =
        if a = b ∧ a ∈ L then ((0 : W) : WithTop W) else M a b := by
  intro L
  induction L with
  | nil => intro M a b; simp
  | cons i L' ih =>
    intro M a b
    rw [List.foldl_cons, ih]
    by_cases hab : a = b
    · subst hab
      by_cases haL : a ∈ L'
      · rw [if_pos ⟨rfl, haL⟩, if_pos ⟨rfl, List.mem_cons_of_mem _ haL⟩]
      · rw [if_neg (fun h => haL h.2)]
        by_cases hai : a = i
        · subst hai
          rw [if_pos ⟨rfl, List.mem_cons_self _ _⟩]
          show (if a = a ∧ a = a then ((0 : W) : WithTop W) else M a a) = _
          rw [if_pos ⟨rfl, rfl⟩]
        · rw [if_neg (fun h => (by
            rcases List.mem_cons.mp h.2 with hc | hc
            · exact hai hc
            · exact haL hc : False))]
          show (if a = i ∧ a = i then ((0 : W) : WithTop W) else M a a) = M a a
          rw [if_neg (fun h => hai h.1)]
    · rw [if_neg (fun h => hab h.1), if_neg (fun h => hab h.1)]
      show (if a = i ∧ b = i then ((0 : W) : WithTop W) else M a b) = M a b
      rw [if_neg (fun h => hab (h.1.trans h.2.symm))]

theorem fw_inner_row [LinearOrder W] [AddCommGroup W] (u : Nat) :
    ∀ (adj : List (Nat × W))
      (s : (Nat → Nat → WithTop W) × (Nat → Nat → Option Nat)) (a b : Nat), a ≠ u →
      (adj.foldl (fun s e =>
        (mset s.1 u e.1 ((e.2 : W) : WithTop W), mset s.2 u e.1 (some e.1))) s).1 a b =
        s.1 a b := by
  intro adj
  induction adj with
  | nil => intro s a b _; rfl
  | cons e rest ih =>
    intro s a b hau
    rw [List.foldl_cons, ih _ a b hau]
    show (if a = u ∧ b = e.1 then ((e.2 : W) : WithTop W) else s.1 a b) = s.1 a b
    rw [if_neg (fun h => hau h.1)]

theorem fw_inner_miss [LinearOrder W] [AddCommGroup W] (u : Nat) :
    ∀ (adj : List (Nat × W))
      (s : (Nat → Nat → WithTop W) × (Nat → Nat → Option Nat)) (b : Nat),
      (∀ w, (b, w) ∉ adj) →
      (adj.foldl (fun s e =>
        (mset s.1 u e.1 ((e.2 : W) : WithTop W), mset s.2 u e.1 (some e.1))) s).1 u b =
        s.1 u b := by
  intro adj
  induction adj with
  | nil => intro s b _; rfl
  | cons e rest ih =>
    intro s b hb
    rw [List.foldl_cons, ih _ b (fun w hw => hb w (List.mem_cons_of_mem _ hw))]
    show (if u = u ∧ b = e.1 then ((e.2 : W) : WithTop W) else s.1 u b) = s.1 u b
    rw [if_neg (fun h => hb e.2 (by rw [h.2]; exact List.mem_cons_self _ _))]

theorem fw_inner_hit [LinearOrder W] [AddCommGroup W] (u : Nat) :
    ∀ (adj : List (Nat × W))
      (s : (Nat → Nat → WithTop W) × (Nat → Nat → Option Nat)) (b : Nat) (w : W),
      (b, w) ∈ adj → (adj.map Prod.fst).Nodup →
      (adj.foldl (fun s e =>
        (mset s.1 u e.1 ((e.2 : W) : WithTop W), mset s.2 u e.1 (some e.1))) s).1 u b =
        ((w : W) : WithTop W) := by
  intro adj
  induction adj with
  | nil => intro s b w hmem _; exact absurd hmem (List.not_mem_nil _)
  | cons e rest ih =>
    intro s b w hmem hnd
    obtain ⟨b0, w0⟩ := e
    rw [List.map_cons] at hnd
    obtain ⟨hhd, htl⟩ := List.nodup_cons.mp hnd
    rcases List.mem_cons.mp hmem with heq | hmem'
    · rw [Prod.mk.injEq] at heq
      obtain ⟨hb, hw⟩ := heq
      subst hb; subst hw
      rw [List.foldl_cons]
      rw [fw_inner_miss u rest _ b
        (fun w' hw' => hhd (List.mem_map.mpr ⟨(b, w'), hw', rfl⟩))]
      show (if u = u ∧ b = b then ((w : W) : WithTop W) else s.1 u b) = _
      rw [if_pos ⟨rfl, rfl⟩]
    · rw [List.foldl_cons]
      exact ih _ b w hmem' htl

theorem fw_outer_row [LinearOrder W] [AddCommGroup W] :
    ∀ (gl : List (Nat × List (Nat × W)))
      (s : (Nat → Nat → WithTop W) × (Nat → Nat → Option Nat)) (a b : Nat),
      (∀ p ∈ gl, p.1 ≠ a) →
      (gl.foldl (fun s p => p.2.foldl (fun s e =>
        (mset s.1 p.1 e.1 ((e.2 : W) : WithTop W), mset s.2 p.1 e.1 (some e.1))) s) s).1 a b
        = s.1 a b := by
  intro gl
  induction gl with
  | nil => intro s a b _; rfl
  | cons q rest ih =>
    intro s a b hrow
    rw [List.foldl_cons, ih _ a b (fun p hp => hrow p (List.mem_cons_of_mem _ hp))]
    exact fw_inner_row q.1 q.2 s a b
      (fun hc => hrow q (List.mem_cons_self _ _) hc.symm)

theorem fw_outer_hit [LinearOrder W] [AddCommGroup W] :
    ∀ (gl : List (Nat × List (Nat × W)))
      (s : (Nat → Nat → WithTop W) × (Nat → Nat → Option Nat))
      (a : Nat) (adj : List (Nat × W)) (b : Nat) (w : W),
      (a, adj) ∈ gl → (gl.map Prod.fst).Nodup →
      (∀ p ∈ gl, (p.2.map Prod.fst).Nodup) → (b, w) ∈ adj →
      (gl.foldl (fun s p => p.2.foldl (fun s e =>
        (mset s.1 p.1 e.1 ((e.2 : W) : WithTop W), mset s.2 p.1 e.1 (some e.1))) s) s).1 a b
        = ((w : W) : WithTop W) := by
  intro gl
  induction gl with
  | nil => intro s a adj b w hmem _ _ _; exact absurd hmem (List.not_mem_nil _)
  | cons q rest ih =>
    intro s a adj b w hmem hnd hnbt hbw
    rw [List.map_cons] at hnd
    obtain ⟨hhd, htl⟩ := List.nodup_cons.mp hnd
    rcases List.mem_cons.mp hmem with heq | hmem'
    · subst heq
      have hrowfree : ∀ p ∈ rest, p.1 ≠ a := by
        intro p hp hc
        exact hhd (hc ▸ List.mem_map.mpr ⟨p, hp, rfl⟩)
      rw [List.foldl_cons, fw_outer_row rest _ a b hrowfree]
      exact fw_inner_hit a adj _ b w hbw (hnbt (a, adj) (List.mem_cons_self _ _))
    · rw [List.foldl_cons]
      exact ih _ a adj b w hmem' htl
        (fun p hp => hnbt p (List.mem_cons_of_mem _ hp)) hbw

theorem fw_outer_miss [LinearOrder W] [AddCommGroup W] :
    ∀ (gl : List (Nat × List (Nat × W)))
      (s : (Nat → Nat → WithTop W) × (Nat → Nat → Option Nat))
      (a : Nat) (adj : List (Nat × W)) (b : Nat),
      (a, adj) ∈ gl → (gl.map Prod.fst).Nodup → (∀ w, (b, w) ∉ adj) →
      (gl.foldl (fun s p => p.2.foldl (fun s e =>
        (mset s.1 p.1 e.1 ((e.2 : W) : WithTop W), mset s.2 p.1 e.1 (some e.1))) s) s).1 a b
        = s.1 a b := by
  intro gl
  induction gl with
  | nil => intro s a adj b hmem _ _; exact absurd hmem (List.not_mem_nil _)
  | cons q rest ih =>
    intro s a adj b hmem hnd hb
    rw [List.map_cons] at hnd
    obtain ⟨hhd, htl⟩ := List.nodup_cons.mp hnd
    rcases List.mem_cons.mp hmem with heq | hmem'
    · subst heq
      have hrowfree : ∀ p ∈ rest, p.1 ≠ a := by
        intro p hp hc
        exact hhd (hc ▸ List.mem_map.mpr ⟨p, hp, rfl⟩)
      rw [List.foldl_cons, fw_outer_row rest _ a b hrowfree]
      exact fw_inner_miss a adj s b hb
    · have hqa : q.1 ≠ a := by
        intro hc
        apply hhd
        rw [hc]
        exact List.mem_map.mpr ⟨(a, adj), hmem', rfl⟩
      rw [List.foldl_cons]
      rw [ih _ a adj b hmem' htl hb]
      exact fw_inner_row q.1 q.2 s a b (fun hc => hqa (hc.symm))

theorem fw_M0_diag [LinearOrder W] [AddCommGroup W] (g : WGraph W) (V : Nat)
    (hnodup : (g.map Prod.fst).Nodup)
    (hnsl : ∀ p ∈ g, ∀ e ∈ p.2, e.1 ≠ p.1) (i : Nat) (hiV : i < V) :
    (g.foldl (fun s p => p.2.foldl (fun s e =>
        (mset s.1 p.1 e.1 ((e.2 : W) : WithTop W), mset s.2 p.1 e.1 (some e.1))) s)
      ((List.range V).foldl (fun M i => mset M i i ((0 : W) : WithTop W))
        (fun _ _ => (⊤ : WithTop W)), fun _ _ => (none : Option Nat))).1 i i
      = ((0 : W) : WithTop W) := by
  by_cases hk : hasKey g i
  · unfold hasKey at hk
    rw [List.any_eq_true] at hk
    obtain ⟨p, hp, hpi⟩ := hk
    rw [beq_iff_eq] at hpi
    have hpe : (i, p.2) ∈ g := by rw [← hpi]; exact hp
    rw [fw_outer_miss g _ i p.2 i hpe hnodup
      (fun w hw => (hnsl p hp (i, w) hw) (by rw [hpi]))]
    show ((List.range V).foldl (fun M i => mset M i i ((0 : W) : WithTop W))
      (fun _ _ => (⊤ : WithTop W))) i i = _
    rw [fw_diag_char, if_pos ⟨rfl, List.mem_range.mpr hiV⟩]
  · have hrow : ∀ p ∈ g, p.1 ≠ i := by
      intro p hp hc
      exact hk (by
        unfold hasKey
        rw [List.any_eq_true]
        exact ⟨p, hp, by rw [beq_iff_eq]; exact hc⟩)
    rw [fw_outer_row g _ i i hrow]
    show ((List.range V).foldl (fun M i => mset M i i ((0 : W) : WithTop W))
      (fun _ _ => (⊤ : WithTop W))) i i = _
    rw [fw_diag_char, if_pos ⟨rfl, List.mem_range.mpr hiV⟩]

theorem fw_M0_edge [LinearOrder W] [AddCommGroup W] (g : WGraph W) (V : Nat)
    (hnodup : (g.map Prod.fst).Nodup) (hnbt : ∀ p ∈ g, (p.2.map Prod.fst).Nodup)
    (i j : Nat) (w : W) (h : (j, w) ∈ adjList g i) :
    (g.foldl (fun s p => p.2.foldl (fun s e =>
        (mset s.1 p.1 e.1 ((e.2 : W) : WithTop W), mset s.2 p.1 e.1 (some e.1))) s)
      ((List.range V).foldl (fun M i => mset M i i ((0 : W) : WithTop W))
        (fun _ _ => (⊤ : WithTop W)), fun _ _ => (none : Option Nat))).1 i j
      = ((w : W) : WithTop W) := by
  obtain ⟨p, hp, hp1, hep⟩ := mem_of_mem_adjList h
  have hpe : (i, p.2) ∈ g := by rw [← hp1]; exact hp
  exact fw_outer_hit g _ i p.2 j w hpe hnodup hnbt hep

theorem fw_M0_none [LinearOrder W] [AddCommGroup W] (g : WGraph W) (V : Nat)
    (hnodup : (g.map Prod.fst).Nodup) (i j : Nat) (hij : i ≠ j)
    (h : ∀ w, (j, w) ∉ adjList g i) :
    (g.foldl (fun s p => p.2.foldl (fun s e =>
        (mset s.1 p.1 e.1 ((e.2 : W) : WithTop W), mset s.2 p.1 e.1 (some e.1))) s)
      ((List.range V).foldl (fun M i => mset M i i ((0 : W) : WithTop W))
        (fun _ _ => (⊤ : WithTop W)), fun _ _ => (none : Option Nat))).1 i j
      = (⊤ : WithTop W) := by
  by_cases hk : hasKey g i
  · unfold hasKey at hk
    rw [List.any_eq_true] at hk
    obtain ⟨p, hp, hpi⟩ := hk
    rw [beq_iff_eq] at hpi
    have hpe : (i, p.2) ∈ g := by rw [← hpi]; exact hp
    have hadj : adjList g i = p.2 := adjList_eq_of_mem_nodup hnodup hpe
    rw [fw_outer_miss g _ i p.2 j hpe hnodup
      (fun w hw => h w (by rw [hadj]; exact hw))]
    show ((List.range V).foldl (fun M i => mset M i i ((0 : W) : WithTop W))
      (fun _ _ => (⊤ : WithTop W))) i j = _
    rw [fw_diag_char, if_neg (fun hc => hij hc.1)]
  · have hrow : ∀ p ∈ g, p.1 ≠ i := by
      intro p hp hc
      exact hk (by
        unfold hasKey
        rw [List.any_eq_true]
        exact ⟨p, hp, by rw [beq_iff_eq]; exact hc⟩)
    rw [fw_outer_row g _ i j hrow]
    show ((List.range V).foldl (fun M i => mset M i i ((0 : W) : WithTop W))
      (fun _ _ => (⊤ : WithTop W))) i j = _
    rw [fw_diag_char, if_neg (fun hc => hij hc.1)]

theorem fw_jfold [LinearOrderedAddCommGroup W] (k i : Nat) :
    ∀ (J : List Nat) (s : (Nat → Nat → WithTop W) × (Nat → Nat → Option Nat)),
      (0 : WithTop W) ≤ s.1 k k →
      (∀ a b, (J.foldl (fun s j => if s.1 i k + s.1 k j < s.1 i j then
          (mset s.1 i j (s.1 i k + s.1 k j), mset s.2 i j (s.2 i k)) else s) s).1 a b ≤
        s.1 a b) ∧
      (∀ b, (J.foldl (fun s j => if s.1 i k + s.1 k j < s.1 i j then
          (mset s.1 i j (s.1 i k + s.1 k j), mset s.2 i j (s.2 i k)) else s) s).1 k b =
        s.1 k b) ∧
      (∀ a, (J.foldl (fun s j => if s.1 i k + s.1 k j < s.1 i j then
          (mset s.1 i j (s.1 i k + s.1 k j), mset s.2 i j (s.2 i k)) else s) s).1 a k =
        s.1 a k) ∧
      (∀ j ∈ J, (J.foldl (fun s j => if s.1 i k + s.1 k j < s.1 i j then
          (mset s.1 i j (s.1 i k + s.1 k j), mset s.2 i j (s.2 i k)) else s) s).1 i j ≤
        s.1 i k + s.1 k j) ∧
      (∀ a b, (J.foldl (fun s j => if s.1 i k + s.1 k j < s.1 i j then
          (mset s.1 i j (s.1 i k + s.1 k j), mset s.2 i j (s.2 i k)) else s) s).1 a b =
          s.1 a b ∨
        ((J.foldl (fun s j => if s.1 i k + s.1 k j < s.1 i j then
          (mset s.1 i j (s.1 i k + s.1 k j), mset s.2 i j (s.2 i k)) else s) s).1 a b =
          s.1 i k + s.1 k b ∧ a = i)) := by
  intro J
  induction J with
  | nil =>
    intro s hkk
    exact ⟨fun a b => le_rfl, fun b => rfl, fun a => rfl,
      fun j hj => absurd hj (List.not_mem_nil _), fun a b => Or.inl rfl⟩
  | cons j0 J' ih =>
    intro s hkk
    rw [List.foldl_cons]
    by_cases hcond : s.1 i k + s.1 k j0 < s.1 i j0
    · rw [if_pos hcond]
      have hine : i ≠ k := by
        intro hc
        subst hc
        exact absurd hcond (not_lt.mpr (le_add_of_nonneg_left hkk))
      have hj0ne : j0 ≠ k := by
        intro hc
        subst hc
        exact absurd hcond (not_lt.mpr (le_add_of_nonneg_right hkk))
      have hs'1 : ∀ a b,
          ((mset s.1 i j0 (s.1 i k + s.1 k j0), mset s.2 i j0 (s.2 i k)) :
            (Nat → Nat → WithTop W) × (Nat → Nat → Option Nat)).1 a b =
          if a = i ∧ b = j0 then s.1 i k + s.1 k j0 else s.1 a b :=
        fun a b => rfl
      have hs'k : ∀ b,
          (mset s.1 i j0 (s.1 i k + s.1 k j0)) k b = s.1 k b := by
        intro b
        show (if k = i ∧ b = j0 then s.1 i k + s.1 k j0 else s.1 k b) = s.1 k b
        rw [if_neg (fun h => hine h.1.symm)]
      have hs'ck : ∀ a,
          (mset s.1 i j0 (s.1 i k + s.1 k j0)) a k = s.1 a k := by
        intro a
        show (if a = i ∧ k = j0 then s.1 i k + s.1 k j0 else s.1 a k) = s.1 a k
        rw [if_neg (fun h => hj0ne h.2.symm)]
      have hs'le : ∀ a b,
          (mset s.1 i j0 (s.1 i k + s.1 k j0)) a b ≤ s.1 a b := by
        intro a b
        show (if a = i ∧ b = j0 then s.1 i k + s.1 k j0 else s.1 a b) ≤ s.1 a b
        split_ifs with h
        · obtain ⟨ha, hb⟩ := h
          subst ha; subst hb
          exact le_of_lt hcond
        · exact le_rfl
      have hkk' : (0 : WithTop W) ≤
          (mset s.1 i j0 (s.1 i k + s.1 k j0)) k k := by
        rw [hs'k k]; exact hkk
      obtain ⟨i1, i2, i3, i4, i5⟩ := ih
        (mset s.1 i j0 (s.1 i k + s.1 k j0), mset s.2 i j0 (s.2 i k)) hkk'
      refine ⟨?_, ?_, ?_, ?_, ?_⟩
      · exact fun a b => le_trans (i1 a b) (hs'le a b)
      · intro b; rw [i2 b]; exact hs'k b
      · intro a; rw [i3 a]; exact hs'ck a
      · intro j hj
        rcases List.mem_cons.mp hj with hje | hjm
        · subst hje
          refine le_trans (i1 i j) ?_
          show (if i = i ∧ j = j then s.1 i k + s.1 k j else s.1 i j) ≤ _
          rw [if_pos ⟨rfl, rfl⟩]
        · have hres : (J'.foldl (fun s j => if s.1 i k + s.1 k j < s.1 i j then
                (mset s.1 i j (s.1 i k + s.1 k j), mset s.2 i j (s.2 i k)) else s)
                ((mset s.1 i j0 (s.1 i k + s.1 k j0), mset s.2 i j0 (s.2 i k)) :
                  (Nat → Nat → WithTop W) × (Nat → Nat → Option Nat))).1 i j ≤
              (mset s.1 i j0 (s.1 i k + s.1 k j0)) i k +
                (mset s.1 i j0 (s.1 i k + s.1 k j0)) k j := i4 j hjm
          rw [hs'ck i, hs'k j] at hres
          exact hres
      · intro a b
        rcases i5 a b with h | ⟨hval, hai⟩
        · by_cases hcase : a = i ∧ b = j0
          · obtain ⟨ha, hb⟩ := hcase
            subst ha; subst hb
            right
            refine ⟨?_, rfl⟩
            rw [h]
            show (if a = a ∧ b = b then s.1 a k + s.1 k b else s.1 a b) = _
            rw [if_pos ⟨rfl, rfl⟩]
          · left
            rw [h]
            show (if a = i ∧ b = j0 then s.1 i k + s.1 k j0 else s.1 a b) = _
            rw [if_neg hcase]
        · right
          refine ⟨?_, hai⟩
          have hval' : (J'.foldl (fun s j => if s.1 i k + s.1 k j < s.1 i j then
                (mset s.1 i j (s.1 i k + s.1 k j), mset s.2 i j (s.2 i k)) else s)
                ((mset s.1 i j0 (s.1 i k + s.1 k j0), mset s.2 i j0 (s.2 i k)) :
                  (Nat → Nat → WithTop W) × (Nat → Nat → Option Nat))).1 a b =
              (mset s.1 i j0 (s.1 i k + s.1 k j0)) i k +
                (mset s.1 i j0 (s.1 i k + s.1 k j0)) k b := hval
          rw [hs'ck i, hs'k b] at hval'
          exact hval'
    · rw [if_neg hcond]
      obtain ⟨i1, i2, i3, i4, i5⟩ := ih s hkk
      refine ⟨i1, i2, i3, ?_, i5⟩
      intro j hj
      rcases List.mem_cons.mp hj with hje | hjm
      · subst hje
        exact le_trans (i1 i j) (not_lt.mp hcond)
      · exact i4 j hjm

theorem fw_ifold [LinearOrderedAddCommGroup W] (k V : Nat) :
    ∀ (I : List Nat) (s : (Nat → Nat → WithTop W) × (Nat → Nat → Option Nat)),
      (0 : WithTop W) ≤ s.1 k k →
      (∀ a b, (I.foldl (fun s i => (List.range V).foldl (fun s j =>
          if s.1 i k + s.1 k j < s.1 i j then
            (mset s.1 i j (s.1 i k + s.1 k j), mset s.2 i j (s.2 i k)) else s) s) s).1 a b ≤
        s.1 a b) ∧
      (∀ b, (I.foldl (fun s i => (List.range V).foldl (fun s j =>
          if s.1 i k + s.1 k j < s.1 i j then
            (mset s.1 i j (s.1 i k + s.1 k j), mset s.2 i j (s.2 i k)) else s) s) s).1 k b =
        s.1 k b) ∧
      (∀ a, (I.foldl (fun s i => (List.range V).foldl (fun s j =>
          if s.1 i k + s.1 k j < s.1 i j then
            (mset s.1 i j (s.1 i k + s.1 k j), mset s.2 i j (s.2 i k)) else s) s) s).1 a k =
        s.1 a k) ∧
      (∀ i ∈ I, ∀ j ∈ List.range V, (I.foldl (fun s i => (List.range V).foldl (fun s j =>
          if s.1 i k + s.1 k j < s.1 i j then
            (mset s.1 i j (s.1 i k + s.1 k j), mset s.2 i j (s.2 i k)) else s) s) s).1 i j ≤
        s.1 i k + s.1 k j) ∧
      (∀ a b, (I.foldl (fun s i => (List.range V).foldl (fun s j =>
          if s.1 i k + s.1 k j < s.1 i j then
            (mset s.1 i j (s.1 i k + s.1 k j), mset s.2 i j (s.2 i k)) else s) s) s).1 a b =
          s.1 a b ∨
        (I.foldl (fun s i => (List.range V).foldl (fun s j =>
          if s.1 i k + s.1 k j < s.1 i j then
            (mset s.1 i j (s.1 i k + s.1 k j), mset s.2 i j (s.2 i k)) else s) s) s).1 a b =
          s.1 a k + s.1 k b) := by
  intro I
  induction I with
  | nil =>
    intro s hkk
    exact ⟨fun a b => le_rfl, fun b => rfl, fun a => rfl,
      fun i hi => absurd hi (List.not_mem_nil _), fun a b => Or.inl rfl⟩
  | cons i0 I' ih =>
    intro s hkk
    rw [List.foldl_cons]
    obtain ⟨j1, j2, j3, j4, j5⟩ := fw_jfold k i0 (List.range V) s hkk
    have hkk' : (0 : WithTop W) ≤ ((List.range V).foldl (fun s j =>
        if s.1 i0 k + s.1 k j < s.1 i0 j then
          (mset s.1 i0 j (s.1 i0 k + s.1 k j), mset s.2 i0 j (s.2 i0 k)) else s) s).1 k k := by
      rw [j2 k]; exact hkk
    obtain ⟨i1, i2, i3, i4, i5⟩ := ih ((List.range V).foldl (fun s j =>
      if s.1 i0 k + s.1 k j < s.1 i0 j then
        (mset s.1 i0 j (s.1 i0 k + s.1 k j), mset s.2 i0 j (s.2 i0 k)) else s) s) hkk'
    refine ⟨?_, ?_, ?_, ?_, ?_⟩
    · exact fun a b => le_trans (i1 a b) (j1 a b)
    · intro b; rw [i2 b]; exact j2 b
    · intro a; rw [i3 a]; exact j3 a
    · intro i hi j hj
      rcases List.mem_cons.mp hi with hie | him
      · subst hie
        exact le_trans (i1 i j) (j4 j hj)
      · have hres := i4 i him j hj
        rw [j3 i, j2 j] at hres
        exact hres
    · intro a b
      rcases i5 a b with h | hval
      · rcases j5 a b with h2 | ⟨h2, hai⟩
        · left; rw [h, h2]
        · right
          rw [h, h2, hai]
      · right
        rw [hval, j3 a, j2 b]

theorem dropLast_append_getLast_of_some :
    ∀ (l : List Nat) (x : Nat), l.getLast? = some x → l.dropLast ++ [x] = l := by
  intro l
  induction l with
  | nil => intro x h; exact Option.noConfusion h
  | cons a t ih =>
    intro x h
    cases t with
    | nil =>
      have ha : a = x := by simpa using h
      subst ha
      rfl
    | cons b t' =>
      rw [List.getLast?_cons_cons] at h
      have hrec := ih x h
      show (a :: (b :: t').dropLast) ++ [x] = a :: b :: t'
      rw [List.cons_append, hrec]

theorem dropLast_append_ne :
    ∀ (l1 l2 : List Nat), l2 ≠ [] → (l1 ++ l2).dropLast = l1 ++ l2.dropLast := by
  intro l1
  induction l1 with
  | nil => intro l2 _; rfl
  | cons a t ih =>
    intro l2 hne
    have htl : t ++ l2 ≠ [] := by
      intro hc
      exact hne (List.append_eq_nil.mp hc).2
    cases hc : t ++ l2 with
    | nil => exact absurd hc htl
    | cons hd tl =>
      show (a :: (t ++ l2)).dropLast = a :: (t ++ l2.dropLast)
      rw [hc]
      show a :: (hd :: tl).dropLast = _
      rw [← hc, ih l2 hne]

theorem walk_getLast {g : WGraph W} :
    ∀ (steps : List (Nat × W)) (a b : Nat), IsWalkFrom g a steps b → steps ≠ [] →
      (steps.map Prod.fst).getLast? = some b := by
  intro steps
  induction steps with
  | nil => intro a b _ h; exact absurd rfl h
  | cons e rest ih =>
    intro a b hw _
    obtain ⟨n, w⟩ := e
    obtain ⟨_he, hrest⟩ := hw
    cases hre : rest with
    | nil =>
      subst hre
      have hb : n = b := hrest
      show ([n] : List Nat).getLast? = some b
      rw [hb]
      rfl
    | cons e2 rest2 =>
      subst hre
      show ((n :: (e2 :: rest2).map Prod.fst) : List Nat).getLast? = some b
      have hmap : (e2 :: rest2).map Prod.fst = e2.1 :: rest2.map Prod.fst := rfl
      rw [hmap, List.getLast?_cons_cons]
      have hres := ih n b hrest (List.cons_ne_nil _ _)
      rw [hmap] at hres
      exact hres

theorem walk_inter_append {g : WGraph W} (P1 P2 : List (Nat × W)) (a k b : Nat)
    (h1 : IsWalkFrom g a P1 k) (_h2 : IsWalkFrom g k P2 b) :
    ∀ x ∈ ((P1 ++ P2).map Prod.fst).dropLast,
      x ∈ (P1.map Prod.fst).dropLast ∨ x = k ∨ x ∈ (P2.map Prod.fst).dropLast := by
  intro x hx
  cases hP2 : P2 with
  | nil =>
    subst hP2
    rw [List.append_nil] at hx
    exact Or.inl hx
  | cons e2 r2 =>
    subst hP2
    rw [List.map_append] at hx
    have hT2ne : ((e2 :: r2).map Prod.fst) ≠ [] := by simp
    rw [dropLast_append_ne _ _ hT2ne] at hx
    rcases List.mem_append.mp hx with hx1 | hx2
    · cases hP1 : P1 with
      | nil =>
        subst hP1
        simp at hx1
      | cons e1 r1 =>
        subst hP1
        have hlast := walk_getLast _ a k h1 (List.cons_ne_nil _ _)
        have hT1 := dropLast_append_getLast_of_some _ k hlast
        rw [← hT1] at hx1
        rcases List.mem_append.mp hx1 with h | h
        · exact Or.inl h
        · rw [List.mem_singleton] at h
          exact Or.inr (Or.inl h)
    · exact Or.inr (Or.inr hx2)

theorem fw_split {g : WGraph W} (k : Nat) :
    ∀ (steps : List (Nat × W)) (i j : Nat), IsWalkFrom g i steps j →
      k ∈ (steps.map Prod.fst).dropLast →
      ∃ P1 P2, steps = P1 ++ P2 ∧ P1 ≠ [] ∧ P2 ≠ [] ∧
        IsWalkFrom g i P1 k ∧ IsWalkFrom g k P2 j ∧
        (∀ x ∈ (P1.map Prod.fst).dropLast,
          x ∈ (steps.map Prod.fst).dropLast ∧ x ≠ k) ∧
        (∀ x ∈ (P2.map Prod.fst).dropLast, x ∈ (steps.map Prod.fst).dropLast) := by
  intro steps
  induction steps with
  | nil => intro i j _ hk; simp at hk
  | cons e rest ih =>
    intro i j hw hk
    obtain ⟨n, w⟩ := e
    obtain ⟨he, hrest⟩ := hw
    cases hre : rest with
    | nil =>
      subst hre
      simp at hk
    | cons e2 r2 =>
      subst hre
      have hinter : (((n, w) :: e2 :: r2).map Prod.fst).dropLast =
          n :: ((e2 :: r2).map Prod.fst).dropLast := rfl
      by_cases hkn : k = n
      · subst hkn
        refine ⟨[(k, w)], e2 :: r2, rfl, List.cons_ne_nil _ _, List.cons_ne_nil _ _,
          ⟨he, rfl⟩, hrest, ?_, ?_⟩
        · intro x hx
          simp at hx
        · intro x hx
          rw [hinter]
          exact List.mem_cons_of_mem _ hx
      · have hkrest : k ∈ ((e2 :: r2).map Prod.fst).dropLast := by
          rw [hinter] at hk
          rcases List.mem_cons.mp hk with h | h
          · exact absurd h hkn
          · exact h
        obtain ⟨P1, P2, hsp, hP1, hP2, hw1, hw2, hint1, hint2⟩ := ih n j hrest hkrest
        refine ⟨(n, w) :: P1, P2, by rw [List.cons_append, ← hsp], List.cons_ne_nil _ _,
          hP2, ⟨he, hw1⟩, hw2, ?_, ?_⟩
        · intro x hx
          have hmapne : P1.map Prod.fst ≠ [] := by
            intro hc
            exact hP1 (List.map_eq_nil_iff.mp hc)
          have hstep : (((n, w) :: P1).map Prod.fst).dropLast =
              n :: (P1.map Prod.fst).dropLast := by
            show (n :: P1.map Prod.fst).dropLast = _
            cases hmp : P1.map Prod.fst with
            | nil => exact absurd hmp hmapne
            | cons y ys => rfl
          rw [hstep] at hx
          rw [hinter]
          rcases List.mem_cons.mp hx with hxn | hxP1
          · subst hxn
            exact ⟨List.mem_cons_self _ _, fun hc => hkn hc.symm⟩
          · obtain ⟨hm, hne⟩ := hint1 x hxP1
            exact ⟨List.mem_cons_of_mem _ hm, hne⟩
        · intro x hx
          rw [hinter]
          exact List.mem_cons_of_mem _ (hint2 x hx)

theorem mem_of_mem_dropLast :
    ∀ (l : List Nat) (x : Nat), x ∈ l.dropLast → x ∈ l := by
  intro l
  induction l with
  | nil => intro x hx; exact absurd hx (List.not_mem_nil x)
  | cons a t ih =>
    intro x hx
    cases t with
    | nil => simp at hx
    | cons b t' =>
      rcases List.mem_cons.mp hx with h | h
      · exact h ▸ List.mem_cons_self _ _
      · exact List.mem_cons_of_mem _ (ih x h)

theorem fw_round [LinearOrderedAddCommGroup W] {g : WGraph W} {V : Nat}
    (hnn : ∀ p ∈ g, ∀ e ∈ p.2, (0 : W) ≤ e.2)
    (k : Nat) (hkV : k < V) (D : List Nat)
    (s : (Nat → Nat → WithTop W) × (Nat → Nat → Option Nat))
    (hSound : ∀ a b, a < V → b < V → s.1 a b = ⊤ ∨
      ∃ steps, IsWalkFrom g a steps b ∧
        s.1 a b = ((walkWeight steps : W) : WithTop W))
    (hBound : ∀ a b, a < V → b < V → ∀ steps, IsWalkFrom g a steps b →
      (∀ x ∈ (steps.map Prod.fst).dropLast, x ∈ D) →
      s.1 a b ≤ ((walkWeight steps : W) : WithTop W)) :
    ∀ s', s' = (List.range V).foldl (fun s i => (List.range V).foldl (fun s j =>
        if s.1 i k + s.1 k j < s.1 i j then
          (mset s.1 i j (s.1 i k + s.1 k j), mset s.2 i j (s.2 i k)) else s) s) s →
      (∀ a b, a < V → b < V → s'.1 a b = ⊤ ∨
        ∃ steps, IsWalkFrom g a steps b ∧
          s'.1 a b = ((walkWeight steps : W) : WithTop W)) ∧
      (∀ a b, a < V → b < V → ∀ steps, IsWalkFrom g a steps b →
        (∀ x ∈ (steps.map Prod.fst).dropLast, x ∈ D ++ [k]) →
        s'.1 a b ≤ ((walkWeight steps : W) : WithTop W)) := by
  intro s' hs'
  have hkk : (0 : WithTop W) ≤ s.1 k k := by
    rcases hSound k k hkV hkV with h | ⟨steps, hw, hv⟩
    · rw [h]; exact le_top
    · rw [hv]
      exact_mod_cast walkWeight_nonneg hnn steps k k hw
  obtain ⟨f1, f2, f3, f4, f5⟩ := fw_ifold k V (List.range V) s hkk
  rw [← hs'] at f1 f2 f3 f4 f5
  constructor
  · intro a b haV hbV
    rcases f5 a b with h | h
    · rw [h]; exact hSound a b haV hbV
    · rcases hSound a k haV hkV with hak | ⟨P1, hw1, hv1⟩
      · left; rw [h, hak, top_add]
      · rcases hSound k b hkV hbV with hkb | ⟨P2, hw2, hv2⟩
        · left; rw [h, hkb, add_top]
        · right
          refine ⟨P1 ++ P2, isWalkFrom_append P1 a k b P2 hw1 hw2, ?_⟩
          rw [h, hv1, hv2, walkWeight_append, WithTop.coe_add]
  · intro a b haV hbV steps hw hint
    have main : ∀ n, ∀ (steps : List (Nat × W)), steps.length ≤ n →
        ∀ a b, a < V → b < V → IsWalkFrom g a steps b →
        (∀ x ∈ (steps.map Prod.fst).dropLast, x ∈ D ++ [k]) →
        s'.1 a b ≤ ((walkWeight steps : W) : WithTop W) := by
      intro n
      induction n with
      | zero =>
        intro steps hlen a b haV hbV hw _hint
        have hD : ∀ x ∈ (steps.map Prod.fst).dropLast, x ∈ D := by
          intro x hx
          have hnil : steps = [] := List.length_eq_zero.mp (Nat.le_zero.mp hlen)
          subst hnil
          simp at hx
        exact le_trans (f1 a b) (hBound a b haV hbV steps hw hD)
      | succ n ihn =>
        intro steps hlen a b haV hbV hw hint
        by_cases hkmem : k ∈ (steps.map Prod.fst).dropLast
        · obtain ⟨P1, P2, hsp, hP1, hP2, hw1, hw2, hint1, hint2⟩ :=
            fw_split k steps a b hw hkmem
          have hD1 : ∀ x ∈ (P1.map Prod.fst).dropLast, x ∈ D := by
            intro x hx
            obtain ⟨hm, hne⟩ := hint1 x hx
            rcases List.mem_append.mp (hint x hm) with h | h
            · exact h
            · exact absurd (List.mem_singleton.mp h) hne
          have h1 : s.1 a k ≤ ((walkWeight P1 : W) : WithTop W) :=
            hBound a k haV hkV P1 hw1 hD1
          have hlen2 : P2.length ≤ n := by
            have hlsp := congrArg List.length hsp
            rw [List.length_append] at hlsp
            have hP1pos : 0 < P1.length := List.length_pos.mpr hP1
            omega
          have h2' : s'.1 k b ≤ ((walkWeight P2 : W) : WithTop W) :=
            ihn P2 hlen2 k b hkV hbV hw2 (fun x hx => hint x (hint2 x hx))
          have h2 : s.1 k b ≤ ((walkWeight P2 : W) : WithTop W) := by
            rw [← f2 b]; exact h2'
          refine le_trans
            (f4 a (List.mem_range.mpr haV) b (List.mem_range.mpr hbV)) ?_
          rw [hsp, walkWeight_append, WithTop.coe_add]
          exact add_le_add h1 h2
        · have hD : ∀ x ∈ (steps.map Prod.fst).dropLast, x ∈ D := by
            intro x hx
            rcases List.mem_append.mp (hint x hx) with h | h
            · exact h
            · exact absurd (List.mem_singleton.mp h ▸ hx) hkmem
          exact le_trans (f1 a b) (hBound a b haV hbV steps hw hD)
    exact main steps.length steps le_rfl a b haV hbV hw hint

theorem fw_rounds [LinearOrderedAddCommGroup W] {g : WGraph W} {V : Nat}
    (hnn : ∀ p ∈ g, ∀ e ∈ p.2, (0 : W) ≤ e.2) :
    ∀ (K : List Nat) (D : List Nat)
      (s : (Nat → Nat → WithTop W) × (Nat → Nat → Option Nat)),
      (∀ k ∈ K, k < V) →
      (∀ a b, a < V → b < V → s.1 a b = ⊤ ∨
        ∃ steps, IsWalkFrom g a steps b ∧
          s.1 a b = ((walkWeight steps : W) : WithTop W)) →
      (∀ a b, a < V → b < V → ∀ steps, IsWalkFrom g a steps b →
        (∀ x ∈ (steps.map Prod.fst).dropLast, x ∈ D) →
        s.1 a b ≤ ((walkWeight steps : W) : WithTop W)) →
      (∀ a b, a < V → b < V →
        (K.foldl (fun s k => (List.range V).foldl (fun s i =>
          (List.range V).foldl (fun s j =>
            if s.1 i k + s.1 k j < s.1 i j then
              (mset s.1 i j (s.1 i k + s.1 k j), mset s.2 i j (s.2 i k))
            else s) s) s) s).1 a b = ⊤ ∨
        ∃ steps, IsWalkFrom g a steps b ∧
          (K.foldl (fun s k => (List.range V).foldl (fun s i =>
            (List.range V).foldl (fun s j =>
              if s.1 i k + s.1 k j < s.1 i j then
                (mset s.1 i j (s.1 i k + s.1 k j), mset s.2 i j (s.2 i k))
              else s) s) s) s).1 a b = ((walkWeight steps : W) : WithTop W)) ∧
      (∀ a b, a < V → b < V → ∀ steps, IsWalkFrom g a steps b →
        (∀ x ∈ (steps.map Prod.fst).dropLast, x ∈ D ++ K) →
        (K.foldl (fun s k => (List.range V).foldl (fun s i =>
          (List.range V).foldl (fun s j =>
            if s.1 i k + s.1 k j < s.1 i j then
              (mset s.1 i j (s.1 i k + s.1 k j), mset s.2 i j (s.2 i k))
            else s) s) s) s).1 a b ≤ ((walkWeight steps : W) : WithTop W)) := by
  intro K
  induction K with
  | nil =>
    intro D s _hK hS hB
    rw [List.append_nil]
    exact ⟨hS, hB⟩
  | cons k0 K' ih =>
    intro D s hK hS hB
    have hk0V : k0 < V := hK k0 (List.mem_cons_self _ _)
    obtain ⟨hS', hB'⟩ := fw_round hnn k0 hk0V D s hS hB _ rfl
    rw [List.foldl_cons]
    have hres := ih (D ++ [k0]) _ (fun k hk => hK k (List.mem_cons_of_mem _ hk)) hS' hB'
    rw [List.append_assoc, List.singleton_append] at hres
    exact hres

theorem floyd_warshall_isBestDist [LinearOrderedAddCommGroup W] (g : WGraph W)
    (V : Nat)
    (hkeys : ∀ p ∈ g, p.1 < V ∧ ∀ e ∈ p.2, e.1 < V)
    (hnodup : (g.map Prod.fst).Nodup)
    (hnbt : ∀ p ∈ g, (p.2.map Prod.fst).Nodup)
    (hnsl : ∀ p ∈ g, ∀ e ∈ p.2, e.1 ≠ p.1)
    (hnn : ∀ p ∈ g, ∀ e ∈ p.2, (0 : W) ≤ e.2)
    (s t : Nat) (hs : s < V) (ht : t < V) :
    IsBestDist g s t ((floyd_warshall g V).distances s t) := by
  have hS0 : ∀ a b, a < V → b < V →
      (g.foldl (fun s p => p.2.foldl (fun s e =>
          (mset s.1 p.1 e.1 ((e.2 : W) : WithTop W), mset s.2 p.1 e.1 (some e.1))) s)
        ((List.range V).foldl (fun M i => mset M i i ((0 : W) : WithTop W))
          (fun _ _ => (⊤ : WithTop W)), fun _ _ => (none : Option Nat))).1 a b = ⊤ ∨
      ∃ steps, IsWalkFrom g a steps b ∧
        (g.foldl (fun s p => p.2.foldl (fun s e =>
            (mset s.1 p.1 e.1 ((e.2 : W) : WithTop W), mset s.2 p.1 e.1 (some e.1))) s)
          ((List.range V).foldl (fun M i => mset M i i ((0 : W) : WithTop W))
            (fun _ _ => (⊤ : WithTop W)), fun _ _ => (none : Option Nat))).1 a b =
          ((walkWeight steps : W) : WithTop W) := by
    intro a b haV hbV
    by_cases hab : a = b
    · subst hab
      right
      refine ⟨[], rfl, ?_⟩
      rw [fw_M0_diag g V hnodup hnsl a haV, walkWeight_nil]
    · by_cases hedge : ∃ w : W, (b, w) ∈ adjList g a
      · obtain ⟨w, hwmem⟩ := hedge
        right
        refine ⟨[(b, w)], ⟨hwmem, rfl⟩, ?_⟩
        rw [fw_M0_edge g V hnodup hnbt a b w hwmem, walkWeight_cons, walkWeight_nil,
          add_zero]
      · left
        exact fw_M0_none g V hnodup a b hab (fun w hwmem => hedge ⟨w, hwmem⟩)
  have hB0 : ∀ a b, a < V → b < V → ∀ steps, IsWalkFrom g a steps b →
      (∀ x ∈ (steps.map Prod.fst).dropLast, x ∈ ([] : List Nat)) →
      (g.foldl (fun s p => p.2.foldl (fun s e =>
          (mset s.1 p.1 e.1 ((e.2 : W) : WithTop W), mset s.2 p.1 e.1 (some e.1))) s)
        ((List.range V).foldl (fun M i => mset M i i ((0 : W) : WithTop W))
          (fun _ _ => (⊤ : WithTop W)), fun _ _ => (none : Option Nat))).1 a b ≤
        ((walkWeight steps : W) : WithTop W) := by
    intro a b haV hbV steps hw hint
    cases steps with
    | nil =>
      have hab : a = b := hw
      subst hab
      rw [fw_M0_diag g V hnodup hnsl a haV, walkWeight_nil]
    | cons e rest =>
      obtain ⟨n, w⟩ := e
      obtain ⟨he, hrest⟩ := hw
      cases rest with
      | nil =>
        have hnb : n = b := hrest
        subst hnb
        rw [fw_M0_edge g V hnodup hnbt a n w he, walkWeight_cons, walkWeight_nil,
          add_zero]
      | cons e2 rest2 =>
        exfalso
        have hmem : n ∈ ((((n, w) :: e2 :: rest2).map Prod.fst).dropLast) := by
          show n ∈ n :: ((e2 :: rest2).map Prod.fst).dropLast
          exact List.mem_cons_self _ _
        exact absurd (hint n hmem) (List.not_mem_nil n)
  obtain ⟨hSf, hBf⟩ := fw_rounds hnn (List.range V) [] _
    (fun k hk => List.mem_range.mp hk) hS0 hB0
  have hgoal : (floyd_warshall g V).distances =
      ((List.range V).foldl (fun s k => (List.range V).foldl (fun s i =>
        (List.range V).foldl (fun s j =>
          if s.1 i k + s.1 k j < s.1 i j then
            (mset s.1 i j (s.1 i k + s.1 k j), mset s.2 i j (s.2 i k))
          else s) s) s)
        (g.foldl (fun s p => p.2.foldl (fun s e =>
            (mset s.1 p.1 e.1 ((e.2 : W) : WithTop W), mset s.2 p.1 e.1 (some e.1))) s)
          ((List.range V).foldl (fun M i => mset M i i ((0 : W) : WithTop W))
            (fun _ _ => (⊤ : WithTop W)), fun _ _ => (none : Option Nat)))).1 := rfl
  rw [hgoal]
  constructor
  · intro steps hwalk
    refine hBf s t hs ht steps hwalk ?_
    intro x hx
    rw [List.nil_append]
    refine List.mem_range.mpr ?_
    exact walk_targets_lt hkeys steps s t hwalk x (mem_of_mem_dropLast _ x hx)
  · exact hSf s t hs ht

theorem bf_distances_mem [LinearOrder W] [AddCommGroup W] (K : List Nat)
    (d : Nat → WithTop W) (t : Nat) (ht : t ∈ K) (v : WithTop W) :
    ((t, v) ∈ (K.map (fun k => (k, d k))).filter (fun e => e.2 ≠ ⊤)) ↔
      (v ≠ ⊤ ∧ d t = v) := by
  rw [List.mem_filter, List.mem_map]
  constructor
  · rintro ⟨⟨k, _hk, hkeq⟩, hfin⟩
    have hkt : k = t := congrArg Prod.fst hkeq
    have hdv : d t = v := by rw [← hkt]; exact congrArg Prod.snd hkeq
    exact ⟨of_decide_eq_true hfin, hdv⟩
  · rintro ⟨hvne, hdv⟩
    refine ⟨⟨t, ht, ?_⟩, decide_eq_true hvne⟩
    show (t, d t) = (t, v)
    rw [hdv]

/-- C1 (corrected): for a graph modelling a Python adjacency dict
(node keys unique) whose keys and neighbor ids lie in `[0, V)`, whose
edge weights are non-negative, whose adjacency lists contain no
self-loop and no duplicate neighbor id, and for `s, t < V`:
`bellman_ford` succeeds, the Dijkstra distance map entry for `t`
(`⊤` = key absent) equals the Floyd-Warshall matrix entry `[s][t]`,
and the Bellman-Ford distances dict holds `t` exactly when that common
value is finite, with the same value.  The self-loop and
duplicate-neighbor restrictions are necessary: see the counterexample
where `floyd_warshall`'s edge write lands on its zeroed diagonal. -/
theorem dijkstra_bellman_floyd_agree [LinearOrderedAddCommGroup W] (g : WGraph W)
    (V s t : Nat)
    (hkeys : ∀ p ∈ g, p.1 < V ∧ ∀ e ∈ p.2, e.1 < V)
    (hnodup : (g.map Prod.fst).Nodup)
    (hnbt : ∀ p ∈ g, (p.2.map Prod.fst).Nodup)
    (hnsl : ∀ p ∈ g, ∀ e ∈ p.2, e.1 ≠ p.1)
    (hnn : ∀ p ∈ g, ∀ e ∈ p.2, (0 : W) ≤ e.2)
    (hs : s < V) (ht : t < V) :
    ∃ r : BFResult W, bellman_ford g s V = some r ∧
      (dijkstra g s).distances t = (floyd_warshall g V).distances s t ∧
      ∀ v, (t, v) ∈ r.distances ↔
        (v ≠ ⊤ ∧ (floyd_warshall g V).distances s t = v) := by
  have hno : ¬HasReachableNegCycle g s := no_negcycle_of_nonneg hnn
  have hInit : ∀ u, (fun i => if i = s then (0 : WithTop W) else ⊤) u ≠ ⊤ →
      ∃ steps, IsWalkFrom g s steps u ∧
        (fun i => if i = s then (0 : WithTop W) else ⊤) u =
          ((walkWeight steps : W) : WithTop W) := by
    intro u hu
    by_cases hus : u = s
    · refine ⟨[], hus.symm, ?_⟩
      show (if u = s then (0 : WithTop W) else ⊤) = _
      rw [if_pos hus, walkWeight_nil, WithTop.coe_zero]
    · exact absurd (by simp [hus]) hu
  have hInitBnd : ∀ u steps, IsWalkFrom g s steps u → steps.length ≤ 0 →
      (fun i => if i = s then (0 : WithTop W) else ⊤) u ≤
        ((walkWeight steps : W) : WithTop W) := by
    intro u steps hwalk hlen
    have hnil : steps = [] := List.length_eq_zero.mp (by omega)
    subst hnil
    have hus : s = u := hwalk
    show (if u = s then (0 : WithTop W) else ⊤) ≤ _
    rw [if_pos hus.symm, walkWeight_nil, WithTop.coe_zero]
  have hfalse : bfImprovable g V s (bfLoop g V s (V - 1)
      (fun i => if i = s then (0 : WithTop W) else ⊤) (fun _ => none)).1 = false := by
    cases hb : bfImprovable g V s (bfLoop g V s (V - 1)
        (fun i => if i = s then (0 : WithTop W) else ⊤) (fun _ => none)).1
    · rfl
    · exfalso
      apply hno
      refine negcycle_of_improvable g V s hkeys hnodup _ ?_ ?_ hb
      · exact bfLoop_sound g V s hnodup (V - 1) _ _ hInit
      · rcases bfLoop_spec g V s hkeys (V - 1) 0 _ _ hInitBnd with hf | hbnd
        · rw [hb] at hf
          exact Bool.noConfusion hf
        · intro u steps hwalk hlen
          exact hbnd u steps hwalk (by omega)
  have hbfeq : bellman_ford g s V =
      (if bfImprovable g V s (bfLoop g V s (V - 1)
          (fun i => if i = s then (0 : WithTop W) else ⊤) (fun _ => none)).1
        then none
        else some
          { distances := ((bfKeys V s).map (fun k => (k,
              (bfLoop g V s (V - 1)
                (fun i => if i = s then (0 : WithTop W) else ⊤)
                (fun _ => none)).1 k))).filter (fun e => e.2 ≠ ⊤)
            parents := (bfKeys V s).map (fun k => (k,
              (bfLoop g V s (V - 1)
                (fun i => if i = s then (0 : WithTop W) else ⊤)
                (fun _ => none)).2 k))
            has_negative_cycle := false }) := rfl
  have hbf : bellman_ford g s V = some
      { distances := ((bfKeys V s).map (fun k => (k,
          (bfLoop g V s (V - 1)
            (fun i => if i = s then (0 : WithTop W) else ⊤)
            (fun _ => none)).1 k))).filter (fun e => e.2 ≠ ⊤)
        parents := (bfKeys V s).map (fun k => (k,
          (bfLoop g V s (V - 1)
            (fun i => if i = s then (0 : WithTop W) else ⊤)
            (fun _ => none)).2 k))
        has_negative_cycle := false } := by
    rw [hbfeq, hfalse]
    rw [if_neg Bool.false_ne_true]
  have hBF := bellman_ford_isBestDist g s V hkeys hnodup hno t
  have hDij := dijkstra_isBestDist g s hnodup hnn t
  have hFW := floyd_warshall_isBestDist g V hkeys hnodup hnbt hnsl hnn s t hs ht
  have hDF : (dijkstra g s).distances t = (floyd_warshall g V).distances s t :=
    isBestDist_unique hDij hFW
  have hBFW : (bfLoop g V s (V - 1) (fun i => if i = s then (0 : WithTop W) else ⊤)
      (fun _ => none)).1 t = (floyd_warshall g V).distances s t :=
    isBestDist_unique hBF hFW
  refine ⟨_, hbf, hDF, ?_⟩
  intro v
  have htK : t ∈ bfKeys V s := by
    show t ∈ List.range V ++ (if s < V then [] else [s])
    exact List.mem_append.mpr (Or.inl (List.mem_range.mpr ht))
  have hmem := bf_distances_mem (bfKeys V s)
    ((bfLoop g V s (V - 1) (fun i => if i = s then (0 : WithTop W) else ⊤)
      (fun _ => none)).1) t htK v
  rw [hBFW] at hmem
  exact hmem

theorem dijkstra_bellman_floyd_agree_witness :
    ∃ r : BFResult ℤ, bellman_ford [(0, [(1, (2 : ℤ))])] 0 2 = some r ∧
      (dijkstra [(0, [(1, (2 : ℤ))])] 0).distances 1 =
        (floyd_warshall [(0, [(1, (2 : ℤ))])] 2).distances 0 1 ∧
      ∀ v, (1, v) ∈ r.distances ↔
        (v ≠ ⊤ ∧ (floyd_warshall [(0, [(1, (2 : ℤ))])] 2).distances 0 1 = v) :=
  dijkstra_bellman_floyd_agree [(0, [(1, (2 : ℤ))])] 2 0 1 (by decide) (by decide)
    (by decide) (by decide) (by decide) (by decide) (by decide)

end FinanzenBack
